import Mathlib

/-! AalWiNes: routing tables and verifier orchestration.

A shallow embedding of `src/model/RoutingTable.cpp` (namespace `mpls2pda`) and of
`src/aalwines/Verifier.h` (namespace `aalwines`), of the pairing loop of
`test/SyntacticNetwork_test.cpp` and of `make_query` of `src/test_network_generator_main.cpp`,
followed by theorems about them.

Conventions of the embedding.

* A `std::vector` is a `List`; an iterator into it is the split of the list into the part before
  the iterator and the part from the iterator on.
* An `Interface*` is its address, a natural number; address `0` is `nullptr`.
* A C++ exception is the `error` branch of `Except`; the object's state at the `throw` is part of
  the result where it is observable.
* `assert` is a no-op of the computation (as under `NDEBUG`); where a function of the source
  asserts, its result carries a flag telling whether every assertion that was reached held.
* Text written to a stream is kept as one record per message; the wording is not modelled.
* `Query.h` and `RoutingTable.h` are not among the sources. What the code uses from them and
  cannot be read off the `.cpp` file is a parameter: the order `label_t::operator<` (`llt`) and
  the default-constructed values (`decls`).
-/

namespace mpls2pda

/-! ## Labels (`Query::label_t`, as used by `RoutingTable.cpp`) -/

namespace Query

/-- The tag of a label: the cases of the `switch` in `entry_t::print_label`. -/
inductive type_t
  | MPLS | ANYMPLS | ANYIP | IP4 | IP6 | INTERFACE | NONE
  deriving DecidableEq, Repr

/-- A label: the three fields `_type`, `_mask`, `_value` that the source reads and writes. -/
structure label_t where
  _type : type_t
  _mask : Nat
  _value : Nat
  deriving DecidableEq, Repr

end Query

open Query

/-- Modelled from the spec: `label_t::operator==`, which is declared in `Query.h`, not among the
sources. A label is a tagged value, and two labels are equal when tag, mask and value are. -/
def label_eq (a b : label_t) : Bool := decide (a = b)

/-- The assumption on the parameter `llt` (for `label_t::operator<`): a strict total order. -/
structure label_order (llt : label_t → label_t → Bool) : Prop where
  irrefl : ∀ a, llt a a = false
  trans : ∀ a b c, llt a b = true → llt b c = true → llt a c = true
  total : ∀ a b, a ≠ b → llt a b = true ∨ llt b a = true

/-- An `Interface*`: the address of the interface. -/
abbrev Interface_ptr := Nat

/-- The null pointer. -/
def nullptr : Interface_ptr := 0

/-- What the functions of the sources throw. The message text is not modelled; each value names
the `throw` statement it comes from (`stoull_failed` stands for the two exceptions of
`std::stoull`). -/
inductive base_error
  | not_mpls_address_family
  | no_entries
  | s0_not_postfix
  | no_nh
  | already_in_cast
  | expected_nh_index
  | could_not_lookup_indirect
  | nondeterministic
  | top_not_at_end
  | unexpected_operation_type
  | interfaces_cannot_be_pushdown_labels
  | stoull_failed
  | unsupported_engine
  deriving DecidableEq, Repr

namespace RoutingTable

/-- The kind of a forwarding rule (`forward_t::_type`). -/
inductive type_t
  | DISCARD | RECIEVE | ROUTE | MPLS
  deriving DecidableEq, Repr

/-- The stack operations (`action_t::_op`). -/
inductive op_t
  | PUSH | POP | SWAP
  deriving DecidableEq, Repr

/-- One stack operation of a rule. -/
structure action_t where
  _op : op_t
  _op_label : label_t
  deriving DecidableEq, Repr

/-- One forwarding rule. -/
structure forward_t where
  _type : type_t
  _ops : List action_t
  _via : Interface_ptr
  _weight : Nat
  deriving DecidableEq, Repr

/-- One entry of a routing table. -/
structure entry_t where
  _top_label : label_t
  _decreasing : Bool
  _ingoing : Interface_ptr
  _rules : List forward_t
  deriving DecidableEq, Repr

/-- The source's `entry_t::operator<`: by `_ingoing` (pointer comparison), then by `_decreasing`
(`false` before `true`), then by `_top_label`. -/
def entry_t.lt (llt : label_t → label_t → Bool) (a other : entry_t) : Bool :=
  if other._ingoing ≠ a._ingoing then decide (a._ingoing < other._ingoing)
  else if other._decreasing ≠ a._decreasing then
    decide (a._decreasing.toNat < other._decreasing.toNat)
  else llt a._top_label other._top_label

/-- The source's `entry_t::operator==`. -/
def entry_t.eq (a other : entry_t) : Bool :=
  decide (a._decreasing = other._decreasing) && label_eq a._top_label other._top_label
    && decide (a._ingoing = other._ingoing)

/-- The control flow of `entry_t::print_label`: it writes the label for the five kinds of
pushdown label and throws for `INTERFACE` and `NONE`. -/
def entry_t.print_label (label : label_t) : Except base_error Unit :=
  match label._type with
  | .MPLS => .ok ()
  | .ANYMPLS => .ok ()
  | .ANYIP => .ok ()
  | .IP4 => .ok ()
  | .IP6 => .ok ()
  | .INTERFACE => .error .interfaces_cannot_be_pushdown_labels
  | .NONE => .error .interfaces_cannot_be_pushdown_labels

/-- A message on the `warnings` stream. `overlap l p` is the line written by `merge` on a
collision at label `l` for the router of `p`; `overlap_cut` is that line cut off before the label
because `print_label` threw; the other two are the warnings of `parse`. -/
inductive warning_t
  | overlap (label : label_t) (parent : Interface_ptr)
  | overlap_cut
  | unexpected_via (via : String)
  | missing_via
  deriving DecidableEq, Repr

end RoutingTable

open RoutingTable

/-- A routing table: its name and its entries. -/
structure RoutingTable where
  _name : String
  _entries : List entry_t
  deriving DecidableEq, Repr

namespace RoutingTable

/-- The key of an entry: ingress interface, top label and decreasing flag. -/
def key (e : entry_t) : Interface_ptr × label_t × Bool := (e._ingoing, e._top_label, e._decreasing)

/-- No two entries of the list are equal under `entry_t::operator==`. -/
def distinct_keys (l : List entry_t) : Prop :=
  l.Pairwise (fun a b => entry_t.eq a b = false)

/-- Every entry of the list is smaller under `entry_t::operator<` than each later one. -/
def strict (llt : label_t → label_t → Bool) (l : List entry_t) : Prop :=
  l.Pairwise (fun a b => entry_t.lt llt a b = true)

/-- The C++ `std::is_sorted` under `operator<`: no element is smaller than its predecessor. -/
def is_sorted (llt : label_t → label_t → Bool) : List entry_t → Bool
  | [] => true
  | [_] => true
  | a :: b :: rest => !(entry_t.lt llt b a) && is_sorted llt (b :: rest)

/-- The skip test at the head of the loop of `merge`: the entry is bound to an interface other
than `parent`. -/
def foreign (parent : Interface_ptr) (e : entry_t) : Bool :=
  decide (e._ingoing ≠ nullptr) && decide (e._ingoing ≠ parent)

/-- The test of `merge` and `overlaps` for a collision that is dropped silently: one rule on each
side, of the same kind, and that kind is not `MPLS`. -/
def silent (e i : entry_t) : Bool :=
  match e._rules, i._rules with
  | [re], [ri] => decide (re._type = ri._type) && decide (ri._type ≠ type_t.MPLS)
  | _, _ => false

/-- What a call of `merge` leaves behind: this table, what was written to `warnings`, the value
returned (or the exception), and whether every assertion that was reached held. -/
structure merge_result where
  table : RoutingTable
  warnings : List warning_t
  ret : Except base_error Bool
  asserts : Bool
  deriving Repr

/-- The `for` loop of `merge` over the entries of `other` from `oit` on. `pre` are the entries of
this table before `iit`, `post` those from `iit` on. -/
def merge_loop (llt : label_t → label_t → Bool) (name : String) (parent : Interface_ptr) :
    List entry_t → List entry_t → List entry_t → Bool → List warning_t → Bool → merge_result
  | [], pre, post, all_fine, w, a =>
    ⟨⟨name, pre ++ post⟩, w, .ok all_fine, a && is_sorted llt (pre ++ post)⟩
  | e :: rest, pre, post, all_fine, w, a =>
    if foreign parent e then merge_loop llt name parent rest pre post all_fine w a
    else
      let pre1 := pre ++ post.takeWhile (fun i => entry_t.lt llt i e)
      match post.dropWhile (fun i => entry_t.lt llt i e) with
      | [] =>
        ⟨⟨name, pre1 ++ e :: rest⟩, w, .ok all_fine, a && is_sorted llt (pre1 ++ e :: rest)⟩
      | i :: post1 =>
        if entry_t.eq i e then
          if silent e i then merge_loop llt name parent rest pre1 (i :: post1) all_fine w a
          else
            match entry_t.print_label e._top_label with
            | .error err => ⟨⟨name, pre1 ++ i :: post1⟩, w ++ [warning_t.overlap_cut], .error err, a⟩
            | .ok _ =>
              merge_loop llt name parent rest pre1
                ({ i with _rules := i._rules ++ e._rules } :: post1) false
                (w ++ [warning_t.overlap e._top_label parent]) a
        else
          merge_loop llt name parent rest pre1 (e :: i :: post1) all_fine w
            (a && entry_t.lt llt e i)

/-- The entry that stands at the place of entry `i` of this table once `e` of `other` collided
with it: `i` itself when the collision is silent, `i` with the rules of `e` appended otherwise. -/
def collide (e i : entry_t) : entry_t :=
  if silent e i then i else { i with _rules := i._rules ++ e._rules }

/-- What the entries `os` of `other` make of entry `x` of this table: the first of them that is
not skipped and has the key of `x` collides with it. -/
def merged_entry (parent : Interface_ptr) (os : List entry_t) (x : entry_t) : entry_t :=
  match os.find? (fun e => !foreign parent e && entry_t.eq x e) with
  | none => x
  | some e => collide e x

/-- The entry `e` of `other` is not skipped and collides, not silently, with an entry of `l`. -/
def overlapping (parent : Interface_ptr) (l : List entry_t) (e : entry_t) : Bool :=
  !foreign parent e && l.any (fun i => entry_t.eq i e && !silent e i)

/-- The loop invariant of `merge`: this table is strictly sorted, the rest of `other` is
strictly sorted, and every entry before `iit` is smaller than every entry of `other` still to
come. -/
def merge_inv (llt : label_t → label_t → Bool) (os pre post : List entry_t) : Prop :=
  strict llt (pre ++ post) ∧ strict llt os ∧ ∀ p ∈ pre, ∀ e ∈ os, entry_t.lt llt p e = true

/-- The source's `RoutingTable::merge(other, parent, warnings)`, called on `this`, for a table
`other` that is not `this` itself. -/
def merge (llt : label_t → label_t → Bool) (this other : RoutingTable) (parent : Interface_ptr) :
    merge_result :=
  merge_loop llt this._name parent other._entries [] this._entries true []
    (is_sorted llt other._entries && is_sorted llt this._entries)

/-- A rule of kind `MPLS` that swaps the top label for `l` and forwards over interface `via`. -/
def demo_swap (l : Nat) (via : Interface_ptr) : forward_t :=
  ⟨type_t.MPLS, [⟨op_t.SWAP, ⟨Query.type_t.MPLS, 0, l⟩⟩], via, 0⟩

/-- A rule of kind `DISCARD`. -/
def demo_discard : forward_t := ⟨type_t.DISCARD, [], nullptr, 0⟩

/-- An entry for the MPLS label `l` on ingress `ingoing`. -/
def demo_entry (ingoing : Interface_ptr) (l : Nat) (rules : List forward_t) : entry_t :=
  ⟨⟨Query.type_t.MPLS, 0, l⟩, false, ingoing, rules⟩

/-- A sorted table with three entries, for running `merge`. -/
def demo_this : RoutingTable :=
  ⟨"this", [demo_entry 0 11 [demo_swap 21 7], demo_entry 0 13 [demo_discard],
    demo_entry 5 11 [demo_swap 22 7]]⟩

/-- A sorted table whose entries, merged into `demo_this` for the interface at address 5, take
every branch of the loop: an overlap, an insertion, a silent collision, a skipped entry and the
appended tail. -/
def demo_other : RoutingTable :=
  ⟨"other", [demo_entry 0 11 [demo_swap 31 8], demo_entry 0 12 [demo_swap 32 8],
    demo_entry 0 13 [demo_discard], demo_entry 3 1 [demo_swap 33 8],
    demo_entry 6 20 [demo_swap 34 8]]⟩

/-- A sorted table all of whose entries are bound to no interface or to the one at address 5;
it shares the keys for the labels 11 and 13 with `demo_this`. -/
def demo_near : RoutingTable :=
  ⟨"near", [demo_entry 0 11 [demo_swap 31 8], demo_entry 0 12 [demo_swap 32 8],
    demo_entry 0 13 [demo_discard], demo_entry 5 20 [demo_swap 34 8]]⟩

/-- A sorted table with an entry bound to no interface, an entry bound to the interface at
address 5 and an entry bound to the interface at address 6. -/
def demo_far : RoutingTable :=
  ⟨"far", [demo_entry 0 11 [demo_swap 31 8], demo_entry 5 20 [demo_swap 34 8],
    demo_entry 6 20 [demo_swap 35 8]]⟩

end RoutingTable

/-- The position of a tag in the enumeration `type_t`. -/
def type_rank : Query.type_t → Nat
  | .MPLS => 0
  | .ANYMPLS => 1
  | .ANYIP => 2
  | .IP4 => 3
  | .IP6 => 4
  | .INTERFACE => 5
  | .NONE => 6

/-- A lexicographic order on labels by tag, mask and value: one strict total order, used to run
the definitions on concrete tables. -/
def label_lex (a b : label_t) : Bool :=
  if type_rank a._type ≠ type_rank b._type then decide (type_rank a._type < type_rank b._type)
  else if a._mask ≠ b._mask then decide (a._mask < b._mask)
  else decide (a._value < b._value)

end mpls2pda

/-! ## The verifier (`aalwines::Verifier`, `Verifier.h`) -/

namespace aalwines

open mpls2pda (base_error)

namespace Query

/-- The approximation modes, in the order of the table `modeTypes` of `to_json`. -/
inductive mode_t
  | OVER | UNDER | DUAL | EXACT
  deriving DecidableEq, Repr

end Query

namespace utils

/-- The three answers of the verifier. -/
inductive outcome_t
  | YES | NO | MAYBE
  deriving DecidableEq, Repr

end utils

open Query utils

/-- What `run_once` reads and writes of a query: its approximation mode and its failure bound.
`body` stands for the rest of the query (the three automata), which `run_once` passes on
unread. -/
structure Query where
  approximation : mode_t
  number_of_failures : Nat
  body : Nat
  deriving DecidableEq, Repr

/-- The settings of a `Verifier`, with the defaults of the class. -/
structure Verifier where
  _engine : Nat := 1
  _reduction : Nat := 0
  _print_trace : Bool := false
  deriving DecidableEq, Repr

/-- The collaborators of `run_once` that are not among the sources (`NetworkPDAFactory`,
`Reducer`, `SolverAdapter`), as functions of what `run_once` hands them: the reduction level, the
query with the mode of the run set, and whether a weight function was supplied. `reduce` is the
pair returned by `Reducer::reduce`; `post_star` and `pre_star` are the `first` component of the
solver's result; `write_json_trace` is the value returned by `factory.write_json_trace` on the
trace of the engine (`1` or `2`) together with the text it wrote; `trace_weight` is the weight
returned with a shortest trace. -/
structure pipeline_t where
  reduce : Nat → Query → Nat × Nat
  post_star : Nat → Bool → Query → Bool
  pre_star : Nat → Query → Bool
  write_json_trace : Nat → Nat → Bool → Query → Bool × String
  trace_weight : Nat → Query → List Nat

/-- The JSON object returned by `run_once`. A field that is absent is `none`; `timing` tells
whether the three time fields are present (the durations themselves are not modelled). -/
structure json where
  engine : String
  mode : mode_t
  reduction : Option (Nat × Nat)
  result : outcome_t
  trace_weight : Option (List Nat)
  trace : Option String
  timing : Bool
  deriving DecidableEq, Repr

/-- The variables of `run_once` that its loop over the modes reads and writes, the query among
them; `runs` lists the modes whose pipeline was run, in order. -/
structure loop_state where
  q : Query
  mode : mode_t
  reduction : Option (Nat × Nat)
  result : outcome_t
  proof : String
  trace_weight : List Nat
  runs : List mode_t
  deriving DecidableEq, Repr

namespace Verifier

/-- The `engine_outcome` of the `switch` in `run_once` for engine `1` (post*) or `2` (pre*), on
the query `q` with its mode already set. -/
def engine_outcome (V : Verifier) (pipe : pipeline_t) (is_weighted : Bool) (q : Query) : Bool :=
  if V._engine = 1 then pipe.post_star V._reduction is_weighted q
  else pipe.pre_star V._reduction q

/-- The source's `check_settings`: `false` when it prints a diagnostic and exits. -/
def check_settings (V : Verifier) : Bool :=
  if V._reduction > 4 then false
  else if V._engine > 2 then false
  else true

/-- The source's `check_supports_weight`: `false` when it prints a diagnostic and exits. -/
def check_supports_weight (V : Verifier) : Bool :=
  if V._engine ≠ 1 then false else true

/-- The head of the loop body for mode `m`: the proof stream is cleared, the mode of the query is
set, the automaton is compiled and reduced. -/
def start_mode (V : Verifier) (pipe : pipeline_t) (m : mode_t) (s : loop_state) : loop_state :=
  { s with q := { s.q with approximation := m }, proof := "",
           reduction := some (pipe.reduce V._reduction { s.q with approximation := m }),
           runs := s.runs ++ [m] }

/-- The body of `if (engine_outcome)` in the `case` of the engine: the trace is fetched (with its
weight, for the weighted post*) and written to `proof`; the result becomes `YES` when
`write_json_trace` returns true. -/
def with_trace (V : Verifier) (pipe : pipeline_t) (is_weighted : Bool) (s : loop_state) :
    loop_state :=
  { s with proof := (pipe.write_json_trace V._engine V._reduction is_weighted s.q).2,
           trace_weight := if is_weighted && decide (V._engine = 1)
             then pipe.trace_weight V._reduction s.q else s.trace_weight,
           result := if (pipe.write_json_trace V._engine V._reduction is_weighted s.q).1
             then outcome_t.YES else s.result }

/-- The two `if` statements that determine the result from the outcome of the engine and the
mode: with no failures the outcome decides; a result still `MAYBE` becomes `NO` when the mode is
`OVER` and the outcome negative. -/
def resolve (m : mode_t) (engine_outcome : Bool) (s : loop_state) : loop_state :=
  let r1 : outcome_t :=
    if s.q.number_of_failures = 0 then (if engine_outcome then outcome_t.YES else outcome_t.NO)
    else s.result
  { s with result :=
      if r1 = outcome_t.MAYBE ∧ m = mode_t.OVER ∧ engine_outcome = false then outcome_t.NO
      else r1 }

/-- The result after one pass of the loop body entered with result `MAYBE`, as a function of the
failure bound, the mode, the outcome of the engine and whether the trace was written. -/
def mode_result (k : Nat) (m : mode_t) (engine_outcome written : Bool) : outcome_t :=
  if k = 0 then (if engine_outcome then outcome_t.YES else outcome_t.NO)
  else if engine_outcome = true ∧ written = true then outcome_t.YES
  else if m = mode_t.OVER ∧ engine_outcome = false then outcome_t.NO
  else outcome_t.MAYBE

/-- The loop `for (auto m : modes)` of `run_once`; an engine other than 1 and 2 reaches the
`default` case of the `switch`, which throws. -/
def run_modes (V : Verifier) (pipe : pipeline_t) (is_weighted : Bool) :
    List mode_t → loop_state → Except base_error loop_state
  | [], s => .ok s
  | m :: ms, s =>
    if V._engine = 1 ∨ V._engine = 2 then
      let eo := engine_outcome V pipe is_weighted (start_mode V pipe m s).q
      let s4 := resolve m eo
        (if eo then with_trace V pipe is_weighted (start_mode V pipe m s)
          else start_mode V pipe m s)
      if s4.result ≠ outcome_t.MAYBE then .ok { s4 with mode := m }
      else run_modes V pipe is_weighted ms s4
    else .error base_error.unsupported_engine

/-- The list `modes` of `run_once`. -/
def modes (q : Query) : List mode_t :=
  if q.approximation = mode_t.DUAL then [mode_t.OVER, mode_t.UNDER] else [q.approximation]

/-- The table `engineTypes` of `run_once`, read at `_engine` (the source reads outside the table
for an engine above 2; the model gives the empty string there). -/
def engineTypes (engine : Nat) : String :=
  match engine with
  | 1 => "Post*"
  | 2 => "Pre*"
  | _ => ""

/-- What a call of `run_once` that returns leaves behind: the JSON object it returns, the query
as the call left it, and the modes whose pipeline it ran. -/
structure run_result where
  output : json
  q : Query
  runs : List mode_t
  deriving DecidableEq, Repr

/-- The source's `Verifier::run_once(builder, q, print_timing, weight_fn)`; `is_weighted` tells
whether the weight function yields weights. The `trace` field holds the text of `proof`, which
the source puts in brackets and hands to `json::parse`; the text is taken to be read by it. -/
def run_once (V : Verifier) (pipe : pipeline_t) (q : Query) (print_timing : Bool)
    (is_weighted : Bool) : Except base_error run_result :=
  match run_modes V pipe is_weighted (modes q)
      ⟨q, q.approximation, none, outcome_t.MAYBE, "", [], []⟩ with
  | .error e => .error e
  | .ok s =>
    let shown : Bool := V._print_trace && decide (s.result = outcome_t.YES)
    .ok ⟨⟨engineTypes V._engine, s.mode, s.reduction, s.result,
          if shown && is_weighted then some s.trace_weight else none,
          if shown then some s.proof else none,
          print_timing⟩, s.q, s.runs⟩

/-- A pipeline for running the definitions: the engine is positive in the modes listed in `pos`,
and the trace is written in the modes listed in `wr`. -/
def demo_pipeline (pos wr : List mode_t) : pipeline_t :=
  ⟨fun _ _ => (0, 0), fun _ _ q => pos.contains q.approximation,
    fun _ q => pos.contains q.approximation,
    fun _ _ _ q => (wr.contains q.approximation, "trace"), fun _ _ => []⟩

end Verifier

end aalwines

/-! ## `forward_t::parse_ops` -/

namespace mpls2pda
open Query
namespace RoutingTable

/-- The outcome of `parse_ops`: the operations it leaves in `_ops`, the exception it throws, or a
read of `ostr[i]` at a position `i` beyond the length of the string (undefined behaviour in the
source). `out_of_fuel` is how the model would end if its loop ran longer than the string, which
it does not. -/
inductive ops_result
  | ok (ops : List action_t)
  | error (e : base_error)
  | out_of_bounds
  | out_of_fuel
  deriving DecidableEq, Repr

/-- The C++ `std::string::find`: the first position at which `pat` occurs in `s`, or `none` for
`npos`. -/
def find (pat : List Char) : List Char → Option Nat
  | [] => if pat = [] then some 0 else none
  | c :: cs => if pat.isPrefixOf (c :: cs) then some 0 else (find pat cs).map (· + 1)

/-- The number written by a string of decimal digits. -/
def digits_value (ds : List Char) : Nat :=
  ds.foldl (fun v c => 10 * v + (c.toNat - '0'.toNat)) 0

/-- The C `atoi` on a string of digits, stored into the 64-bit unsigned `_value`: the number
itself below `2 ^ 31`. Above, `atoi` is undefined by the standard; the model follows glibc, where
it is `(int) strtol(n, NULL, 10)`: saturation at `2 ^ 63 - 1`, then truncation to 32 bits, and the
sign is extended by the conversion to 64 bits. -/
def atoi_u64 (ds : List Char) : Nat :=
  let t := (min (digits_value ds) (2 ^ 63 - 1)) % 2 ^ 32
  if t < 2 ^ 31 then t else 2 ^ 64 - 2 ^ 32 + t

/-- The keyword test of the loop of `parse_ops` at a character `c` followed by `cs`, for the two
operations that carry a label: `S` starts a swap, `P` followed by `u` a push. -/
def keyword (c : Char) (cs : List Char) : Option op_t :=
  if c = 'S' then some op_t.SWAP
  else if c = 'P' ∧ cs.head? = some 'u' then some op_t.PUSH
  else none

/-- The `for` loop of `parse_ops`. `rest` are the characters of `ostr` from position `i` on and
`done` the operations completed so far; the last element of `_ops`, being filled, is a
default-constructed `action_t` (the parameter `d`) at every pass, and `parse_label` is false at
every pass, since the block that sets it either resets it or throws. The first argument bounds
the number of passes. -/
def parse_ops_loop (d : action_t) : Nat → List Char → List action_t → ops_result
  | _, [], done => .ok done
  | 0, _ :: _, _ => .out_of_fuel
  | fuel + 1, c :: cs, done =>
    if c = ' ' then parse_ops_loop d fuel cs done
    else if c = ',' then parse_ops_loop d fuel cs done
    else if c = 'P' ∧ cs.head? = some 'o' then
      -- POP: `i += 2`, a new element, and the `++i` of the loop
      parse_ops_loop d fuel (cs.drop 2) (done ++ [{ d with _op := op_t.POP }])
    else
      match keyword c cs with
      | none => .error base_error.unexpected_operation_type
      | some op =>
        -- `i += 4` leaves `i` beyond the end when fewer than three characters follow `c`;
        -- the test `i != ostr.size() && std::isdigit(ostr[i])` then reads `ostr[i]`
        if cs.length < 3 then .out_of_bounds
        else
          match (cs.drop 3).dropWhile (fun x => x = ' ') with
          | [] => .error base_error.unexpected_operation_type
          | c1 :: r =>
            if c1.isDigit then
              -- `i = j`, a new element, and the `++i` of the loop
              parse_ops_loop d fuel (((c1 :: r).dropWhile Char.isDigit).drop 1)
                (done ++ [⟨op, { d._op_label with
                  _type := Query.type_t.MPLS,
                  _value := atoi_u64 ((c1 :: r).takeWhile Char.isDigit) }⟩])
            else .error base_error.unexpected_operation_type

/-- The source's `forward_t::parse_ops(ostr)` on a rule whose `_ops` is empty: the operations
it leaves in `_ops`. -/
def forward_t.parse_ops (d : action_t) (ostr : List Char) : ops_result :=
  match find "(top)".toList ostr with
  | some pos =>
    if pos ≠ ostr.length - 5 then .error base_error.top_not_at_end
    else parse_ops_loop d (ostr.take pos).length (ostr.take pos) []
  | none => parse_ops_loop d ostr.length ostr []

/-- The operations `SWAP(n)`, `PUSH(n)` and `POP` of the specification. -/
inductive op_spec
  | SWAP (n : Nat)
  | PUSH (n : Nat)
  | POP
  deriving DecidableEq, Repr

/-- The canonical rendering of one operation: `Swap n`, `Push n` with `n` in decimal, or `Pop`. -/
def render_op : op_spec → List Char
  | .SWAP n => "Swap ".toList ++ Nat.toDigits 10 n
  | .PUSH n => "Push ".toList ++ Nat.toDigits 10 n
  | .POP => "Pop".toList

/-- The renderings of the operations, each preceded by the separator `, `. -/
def render_rest : List op_spec → List Char
  | [] => []
  | o :: os => ", ".toList ++ render_op o ++ render_rest os

/-- The canonical rendering of a list of operations: the renderings joined with `, `. -/
def render_ops : List op_spec → List Char
  | [] => []
  | o :: os => render_op o ++ render_rest os

/-- The `action_t` that stands for an operation of the specification: the fields that
`parse_ops` does not write are those of a default-constructed `action_t`. -/
def action_of (d : action_t) : op_spec → action_t
  | .SWAP n => ⟨op_t.SWAP, { d._op_label with _type := Query.type_t.MPLS, _value := n }⟩
  | .PUSH n => ⟨op_t.PUSH, { d._op_label with _type := Query.type_t.MPLS, _value := n }⟩
  | .POP => { d with _op := op_t.POP }

/-- A string that starts with no digit: empty, or its first character is not a digit. -/
def no_digit_ahead (r : List Char) : Prop := ∀ c ∈ r.head?, c.isDigit = false

/-- A string of separators: every character is a space or a comma. -/
def seps (r : List Char) : Prop := ∀ c ∈ r, c = ' ' ∨ c = ','

/-- The op-strings of the specification: tokens `Swap <decimal>`, `Push <decimal>` and `Pop`,
with spaces between keyword and number, separated by commas and spaces. -/
inductive spec_tokens : List Char → Prop
  | nil : spec_tokens []
  | sep (c : Char) (s : List Char) : (c = ' ' ∨ c = ',') → spec_tokens s → spec_tokens (c :: s)
  | pop_last : spec_tokens "Pop".toList
  | pop (c : Char) (s : List Char) : (c = ' ' ∨ c = ',') → spec_tokens s →
      spec_tokens ("Pop".toList ++ c :: s)
  | swap_last (sp ds : List Char) : (∀ x ∈ sp, x = ' ') → ds ≠ [] →
      (∀ x ∈ ds, x.isDigit = true) → spec_tokens ("Swap".toList ++ sp ++ ds)
  | swap (sp ds : List Char) (c : Char) (s : List Char) : (∀ x ∈ sp, x = ' ') → ds ≠ [] →
      (∀ x ∈ ds, x.isDigit = true) → (c = ' ' ∨ c = ',') → spec_tokens s →
      spec_tokens ("Swap".toList ++ sp ++ ds ++ c :: s)
  | push_last (sp ds : List Char) : (∀ x ∈ sp, x = ' ') → ds ≠ [] →
      (∀ x ∈ ds, x.isDigit = true) → spec_tokens ("Push".toList ++ sp ++ ds)
  | push (sp ds : List Char) (c : Char) (s : List Char) : (∀ x ∈ sp, x = ' ') → ds ≠ [] →
      (∀ x ∈ ds, x.isDigit = true) → (c = ' ' ∨ c = ',') → spec_tokens s →
      spec_tokens ("Push".toList ++ sp ++ ds ++ c :: s)

/-- The op-strings with keywords known by their first letters only: a token is `S` and any three
characters, spaces and a decimal number (a swap); `Pu` and any two characters, spaces and a
decimal number (a push); or `Po` (a pop); and the character that follows a number, or follows
`Po`, may be any character. -/
inductive code_tokens : List Char → Prop
  | nil : code_tokens []
  | sep (c : Char) (s : List Char) : (c = ' ' ∨ c = ',') → code_tokens s → code_tokens (c :: s)
  | pop_last : code_tokens ['P', 'o']
  | pop (x : Char) (s : List Char) : code_tokens s → code_tokens ('P' :: 'o' :: x :: s)
  | swap_last (a b c : Char) (sp ds : List Char) : (∀ x ∈ sp, x = ' ') → ds ≠ [] →
      (∀ x ∈ ds, x.isDigit = true) → code_tokens ('S' :: a :: b :: c :: (sp ++ ds))
  | swap (a b c : Char) (sp ds : List Char) (x : Char) (s : List Char) : (∀ x ∈ sp, x = ' ') →
      ds ≠ [] → (∀ x ∈ ds, x.isDigit = true) → x.isDigit = false → code_tokens s →
      code_tokens ('S' :: a :: b :: c :: (sp ++ ds ++ x :: s))
  | push_last (b c : Char) (sp ds : List Char) : (∀ x ∈ sp, x = ' ') → ds ≠ [] →
      (∀ x ∈ ds, x.isDigit = true) → code_tokens ('P' :: 'u' :: b :: c :: (sp ++ ds))
  | push (b c : Char) (sp ds : List Char) (x : Char) (s : List Char) : (∀ x ∈ sp, x = ' ') →
      ds ≠ [] → (∀ x ∈ ds, x.isDigit = true) → x.isDigit = false → code_tokens s →
      code_tokens ('P' :: 'u' :: b :: c :: (sp ++ ds ++ x :: s))

/-- An op-string of the specification, with or without the trailing `(top)`. -/
def spec_op_string (s : List Char) : Prop :=
  spec_tokens s ∨ ∃ body, s = body ++ "(top)".toList ∧ spec_tokens body

/-- An op-string with keywords known by their first letters, with or without the trailing
`(top)`. -/
def code_op_string (s : List Char) : Prop :=
  code_tokens s ∨ ∃ body, s = body ++ "(top)".toList ∧ code_tokens body

/-- The default-constructed `action_t` used to run the definitions. -/
def demo_action : action_t := ⟨op_t.POP, ⟨Query.type_t.NONE, 0, 0⟩⟩

end RoutingTable
end mpls2pda

/-! ## `RoutingTable::parse` -/

namespace mpls2pda
open Query
namespace RoutingTable

/-- How a call of `parse` ends when it does not return: with an exception, or in undefined
behaviour (a null pointer dereferenced, a read beyond the end of a string). -/
inductive fault
  | throws (e : base_error)
  | undefined
  deriving DecidableEq, Repr

/-- An `<nh>` node: the values of its first `<nh-weight>`, `<nh-type>`, `<via>` and `<nh-index>`
children, where present. -/
structure nh_node where
  nh_weight : Option String
  nh_type : Option String
  via : Option String
  nh_index : Option String
  deriving DecidableEq, Repr

/-- An `<rt-entry>` node: the value of its first `<rt-destination>` child and its `<nh>`
children. -/
structure rt_entry_node where
  rt_destination : Option String
  nh : List nh_node
  deriving DecidableEq, Repr

/-- The node handed to `parse`: the values of its first `<table-name>` and `<address-family>`
children, where present, and its `<rt-entry>` children. -/
structure rt_node where
  table_name : Option String
  address_family : Option String
  rt_entry : List rt_entry_node
  deriving DecidableEq, Repr

/-- What `parse` uses of the router `parent`, whose class is not among the sources: its name and
the interface it gives for a name, `get_interface(all_interfaces, name)`, or for a name with the
router itself as target, `get_interface(all_interfaces, name, parent)`. -/
structure Router where
  name : String
  get_interface : String → Interface_ptr
  get_interface_self : String → Interface_ptr

/-- The values declared outside `RoutingTable.cpp` that `parse` and `parse_ops` start from: the
fields of a default-constructed entry, rule and action, and the constant `label_t::any_ip`. -/
structure decls where
  _top_label : label_t
  _decreasing : Bool
  _ingoing : Interface_ptr
  _type : type_t
  _via : Interface_ptr
  action : action_t
  any_ip : label_t

/-- The C `isspace` in the C locale. -/
def isspace (c : Char) : Bool :=
  c = ' ' || (9 ≤ c.toNat && c.toNat ≤ 13)

/-- The value of a hexadecimal digit, if the character is one. -/
def hex_digit (c : Char) : Option Nat :=
  if c.isDigit then some (c.toNat - '0'.toNat)
  else if 'a' ≤ c ∧ c ≤ 'f' then some (c.toNat - 'a'.toNat + 10)
  else if 'A' ≤ c ∧ c ≤ 'F' then some (c.toNat - 'A'.toNat + 10)
  else none

/-- The C `atoll` (glibc: `strtoll` in base 10): white space, an optional sign, digits; the
value saturates at the ends of the 64-bit range. -/
def atoll (s : List Char) : Int :=
  let s1 := s.dropWhile isspace
  let neg := s1.head? = some '-'
  let s2 := if s1.head? = some '-' ∨ s1.head? = some '+' then s1.drop 1 else s1
  let v : Int := digits_value (s2.takeWhile Char.isDigit)
  if neg then max (-v) (-(2 : Int) ^ 63) else min v ((2 : Int) ^ 63 - 1)

/-- The C++ `std::stoull(s, nullptr, 16)`: white space, an optional sign, an optional `0x`
before a hexadecimal digit, hexadecimal digits. It throws when there is no digit or the value
does not fit 64 bits; a negative value wraps. -/
def stoull16 (s : List Char) : Except fault Nat :=
  let s1 := s.dropWhile isspace
  let neg := s1.head? = some '-'
  let s2 := if s1.head? = some '-' ∨ s1.head? = some '+' then s1.drop 1 else s1
  let s3 :=
    match s2 with
    | '0' :: x :: h :: r => if (x = 'x' ∨ x = 'X') ∧ (hex_digit h).isSome then h :: r else s2
    | _ => s2
  let ds := s3.takeWhile (fun c => (hex_digit c).isSome)
  let v := ds.foldl (fun v c => 16 * v + (hex_digit c).getD 0) 0
  if ds = [] then .error (fault.throws base_error.stoull_failed)
  else if 2 ^ 64 ≤ v then .error (fault.throws base_error.stoull_failed)
  else .ok (if neg then (2 ^ 64 - v) % 2 ^ 64 else v)

/-- Modelled from the spec: the width in bits of `forward_t::_weight`, which is declared in
`RoutingTable.h`, not among the sources. The specification gives a rule a weight of type `u32`. -/
def weight_bits : Nat := 32

/-- The source's `parse_weight(nh)`, stored into `_weight`: the `int` returned (a hexadecimal
number after `0x`, read by `std::stoull`, or else what `atoll` reads) modulo
`2 ^ weight_bits`. -/
def parse_weight (nh : nh_node) : Except fault Nat :=
  match nh.nh_weight with
  | none => .ok 0
  | some val =>
    match val.toList with
    | '0' :: 'x' :: r =>
      match stoull16 r with
      | .error f => .error f
      | .ok v => .ok (v % 2 ^ weight_bits)
    | cs => .ok ((atoll cs % (2 : Int) ^ weight_bits).toNat)

/-- The source's `parse_via(parent, via, all_interfaces)`: the name is cut at the first space,
and a name that starts with `lsi.` is an interface of the router to itself. -/
def parse_via (parent : Router) (via : String) : Interface_ptr :=
  let iname := String.mk (via.toList.takeWhile (fun c => c ≠ ' '))
  if "lsi.".toList.isPrefixOf iname.toList then parent.get_interface_self iname
  else parent.get_interface iname

/-- The state of the `do` loop over the `<nh>` nodes of an entry: the rules so far, the flag
`cast`, the keys of the map `weights`, and what was written to `warnings`. -/
structure nh_state where
  rules : List forward_t
  cast : Bool
  weights : List Nat
  warnings : List warning_t
  deriving DecidableEq, Repr

/-- One pass of the `do` loop of `parse` over an `<nh>` node. -/
def parse_nh (D : decls) (parent : Router) (indirect : List (String × String × String))
    (skip_pfe : Bool) (nh : nh_node) (s : nh_state) : Except fault nh_state :=
  match parse_weight nh with
  | .error f => .error f
  | .ok weight =>
    let r : forward_t := ⟨D._type, [], D._via, weight⟩
    -- the `if (ops)` block: `none` stands for `continue` after `pop_back`; otherwise the rule,
    -- `skipvia`, and whether `nhid` is set
    let typed : Except fault (Option (forward_t × Bool × Bool) × Bool) :=
      match nh.nh_type with
      | none => .ok (some (r, true, false), s.cast)
      | some val =>
        if val = "unilist" then
          if s.cast then .error (fault.throws base_error.already_in_cast)
          else .ok (none, true)
        else if val = "discard" then .ok (some ({ r with _type := type_t.DISCARD }, true, false), s.cast)
        else if val = "receive" then .ok (some ({ r with _type := type_t.RECIEVE }, true, false), s.cast)
        else if val = "table lookup" then .ok (some ({ r with _type := type_t.ROUTE }, true, false), s.cast)
        else if val = "indirect" then
          if skip_pfe then .ok (none, s.cast)
          else if nh.nh_index.isNone then .error (fault.throws base_error.expected_nh_index)
          else .ok (some (r, false, true), s.cast)
        else if val = "unicast" then .ok (some (r, false, false), s.cast)
        else
          match forward_t.parse_ops D.action val.toList with
          | .ok ops => .ok (some ({ r with _ops := ops }, false, false), s.cast)
          | .error e => .error (fault.throws e)
          | .out_of_bounds => .error fault.undefined
          | .out_of_fuel => .error fault.undefined
    match typed with
    | .error f => .error f
    | .ok (none, cast) => .ok { s with cast := cast }
    | .ok (some (r1, skipvia, has_nhid), cast) =>
      let s1 : nh_state := { s with cast := cast }
      let done (r2 : forward_t) (w : List warning_t) : Except fault nh_state :=
        .ok { s1 with rules := s1.rules ++ [r2],
                       weights := if r2._weight ∈ s1.weights then s1.weights
                         else s1.weights ++ [r2._weight],
                       warnings := s1.warnings ++ w }
      match nh.via with
      | some via =>
        if via ≠ "" then
          if skipvia then
            -- the warning prints `ops->value()`, and `ops` is null when there is no `<nh-type>`
            if nh.nh_type.isNone then .error fault.undefined
            else done { r1 with _via := parse_via parent via } [warning_t.unexpected_via via]
          else done { r1 with _via := parse_via parent via } []
        else if !skipvia && decide (indirect ≠ []) then
          if has_nhid then
            match indirect.lookup (nh.nh_index.getD "") with
            | none => .error (fault.throws base_error.could_not_lookup_indirect)
            | some d => done { r1 with _via := parent.get_interface d.1 } []
          else done r1 [warning_t.missing_via]
        else done r1 []
      | none =>
        if !skipvia && decide (indirect ≠ []) then
          if has_nhid then
            match indirect.lookup (nh.nh_index.getD "") with
            | none => .error (fault.throws base_error.could_not_lookup_indirect)
            | some d => done { r1 with _via := parent.get_interface d.1 } []
          else done r1 [warning_t.missing_via]
        else done r1 []

/-- The `do` loop of `parse` over the `<nh>` nodes of an entry. -/
def parse_nhs (D : decls) (parent : Router) (indirect : List (String × String × String))
    (skip_pfe : Bool) : List nh_node → nh_state → Except fault nh_state
  | [], s => .ok s
  | nh :: rest, s =>
    match parse_nh D parent indirect skip_pfe nh s with
    | .error f => .error f
    | .ok s1 => parse_nhs D parent indirect skip_pfe rest s1

/-- The rank of `w` among the keys of the map `weights`: the number of keys below it. -/
def weight_rank (weights : List Nat) (w : Nat) : Nat :=
  (weights.filter (fun x => x < w)).length

/-- The head of the loop body of `parse` for one `<rt-entry>`: the key of the entry is read from
`<rt-destination>`. `none` stands for an entry that is dropped (`default`). -/
def parse_destination (D : decls) (parent : Router) (dest : String) :
    Except fault (Option entry_t) :=
  let entry : entry_t := ⟨D._top_label, D._decreasing, D._ingoing, []⟩
  let flagged : Except fault (entry_t × List Char) :=
    match find "(S=0)".toList dest.toList with
    | some pos =>
      if pos ≠ dest.toList.length - 5 then .error (fault.throws base_error.s0_not_postfix)
      else .ok ({ entry with _decreasing := true }, dest.toList.take pos)
    | none => .ok (entry, dest.toList)
  match flagged with
  | .error f => .error f
  | .ok (e, tl) =>
    if tl.all Char.isDigit then
      .ok (some { e with _top_label :=
        { e._top_label with _value := (atoll tl + 1).toNat, _type := Query.type_t.MPLS } })
    else if tl = "default".toList then .ok none
    else
      .ok (some { e with _ingoing := parent.get_interface (String.mk tl), _top_label := D.any_ip })

/-- The body of the loop of `parse` for one `<rt-entry>`: the entry it appends, if any, and the
warnings it writes. -/
def parse_entry (D : decls) (parent : Router) (indirect : List (String × String × String))
    (skip_pfe : Bool) (rule : rt_entry_node) : Except fault (Option entry_t × List warning_t) :=
  match rule.rt_destination with
  | none => .error fault.undefined
  | some dest =>
    match parse_destination D parent dest with
    | .error f => .error f
    | .ok none => .ok (none, [])
    | .ok (some entry) =>
      match rule.nh with
      | [] => .error (fault.throws base_error.no_nh)
      | nh :: rest =>
        match parse_nhs D parent indirect skip_pfe (nh :: rest) ⟨[], false, [], []⟩ with
        | .error f => .error f
        | .ok s =>
          let rules := s.rules.map (fun r => { r with _weight := weight_rank s.weights r._weight })
          .ok (some { entry with _rules := rules }, s.warnings)

/-- The loop of `parse` over the `<rt-entry>` nodes: the entries appended, in order, and the
warnings written. -/
def parse_entries (D : decls) (parent : Router) (indirect : List (String × String × String))
    (skip_pfe : Bool) : List rt_entry_node → Except fault (List entry_t × List warning_t)
  | [] => .ok ([], [])
  | rule :: rest =>
    match parse_entry D parent indirect skip_pfe rule with
    | .error f => .error f
    | .ok (e, w) =>
      match parse_entries D parent indirect skip_pfe rest with
      | .error f => .error f
      | .ok (es, ws) => .ok (e.toList ++ es, w ++ ws)

/-- Insertion of an entry into a sorted list, before the first entry it is smaller than. -/
def insert_sorted (llt : label_t → label_t → Bool) (e : entry_t) : List entry_t → List entry_t
  | [] => [e]
  | x :: xs => if entry_t.lt llt e x then e :: x :: xs else x :: insert_sorted llt e xs

/-- The C++ `std::sort` under `operator<`, as an insertion sort. `std::sort` leaves the order of
entries with equal keys open; `parse` throws when there are such entries. -/
def sort (llt : label_t → label_t → Bool) : List entry_t → List entry_t
  | [] => []
  | e :: es => insert_sorted llt e (sort llt es)

/-- The test of the last loop of `parse`: two neighbours are equal under `operator==`. -/
def some_equal_neighbours : List entry_t → Bool
  | [] => false
  | [_] => false
  | a :: b :: rest => entry_t.eq a b || some_equal_neighbours (b :: rest)

/-- The source's `RoutingTable::parse(node, indirect, parent, all_interfaces, warnings,
skip_pfe)`: the table returned or how the call fails, and what it wrote to `warnings` when it
returns. -/
def parse (llt : label_t → label_t → Bool) (D : decls) (node : Option rt_node)
    (indirect : List (String × String × String)) (parent : Router) (skip_pfe : Bool) :
    Except fault (RoutingTable × List warning_t) :=
  match node with
  | none => .ok (⟨"", []⟩, [])
  | some node =>
    let name := node.table_name.getD ""
    if node.address_family.isSome ∧ node.address_family ≠ some "MPLS" then
      .error (fault.throws base_error.not_mpls_address_family)
    else if node.rt_entry = [] then .error (fault.throws base_error.no_entries)
    else
      match parse_entries D parent indirect skip_pfe node.rt_entry with
      | .error f => .error f
      | .ok (es, w) =>
        if some_equal_neighbours (sort llt es) then
          .error (fault.throws base_error.nondeterministic)
        else .ok (⟨name, sort llt es⟩, w)

/-- The declarations used to run `parse`: entries start with an empty label, not decreasing and
without ingress; rules start as `MPLS` rules without `via`. -/
def demo_decls : decls :=
  ⟨⟨Query.type_t.NONE, 0, 0⟩, false, nullptr, type_t.MPLS, nullptr, demo_action,
    ⟨Query.type_t.ANYIP, 0, 0⟩⟩

/-- A router that gives the interface at address `length of the name + 1` for a name. -/
def demo_router : Router := ⟨"R0", fun n => n.length + 1, fun n => n.length + 1⟩

/-- An `<rt-entry>` for destination `dest` with one `<nh>` of type `ty` and no `<via>`. -/
def demo_rt_entry (dest ty : String) : rt_entry_node :=
  ⟨some dest, [⟨none, some ty, none, none⟩]⟩

/-- A table node with two entries for label 17, which yield equal keys, and a third entry
without `<nh>`. -/
def demo_node_clash : rt_node :=
  ⟨none, none, [demo_rt_entry "17" "discard", demo_rt_entry "17" "discard", ⟨some "6", []⟩]⟩

/-- A table node with four entries, one of them `default`, in no particular order. -/
def demo_node : rt_node :=
  ⟨some "mpls.0", some "MPLS", [demo_rt_entry "17" "discard", demo_rt_entry "5(S=0)" "Swap 3",
    demo_rt_entry "default" "discard", demo_rt_entry "5" "Pop"]⟩

end RoutingTable
end mpls2pda

/-! ## Interface pairing (`Interface::make_pairing`, `Interface::match`) -/

namespace aalwines

/-- Modelled from the spec: `a.make_pairing(b)` on the matches of the interfaces, where
`matching i` is what `i.match()` returns (`none` for a null match). Each interface has a match
pointing to its paired interface, and a pairing is stored symmetrically: the call makes `b` the
match of `a` and `a` the match of `b`, and leaves every other interface as it was. -/
def make_pairing {α : Type} [DecidableEq α] (matching : α → Option α) (a b : α) : α → Option α :=
  fun i => if i = b then some a else if i = a then some b else matching i

/-- The pairing loop of `construct_synthetic_network` (`SyntacticNetwork_test.cpp`, lines
132-142). A router is its index and the interface of router `i` that is named after router
`other` is the pair `(i, other)`; `links[i]` lists the routers that the interfaces of router `i`
are named after. For every router `i` and every `other` in `links[i]` that is a router of the
network, the interface `(i, other)` is paired with the interface `(other, i)`. Before the loop no
interface has a match. -/
def pair_links (links : List (List Nat)) : Nat × Nat → Option (Nat × Nat) :=
  links.enum.foldl
    (fun m il => il.2.foldl
      (fun m other =>
        if other < links.length then make_pairing m (il.1, other) (other, il.1) else m)
      m)
    (fun _ => none)

/-- The invariant of the pairing loop: every match points to the interface of the other router
that is named after this one, and back. -/
def paired_back (m : Nat × Nat → Option (Nat × Nat)) : Prop :=
  ∀ x y, m x = some y → y = (x.2, x.1) ∧ m y = some x

end aalwines

/-! ## `RoutingTable::overlaps` -/

namespace mpls2pda
open Query
namespace RoutingTable

/-- A line written by `overlaps` on the `warnings` stream: the overlap at label `label` for the
router named `router`, or that line cut off before the label because `print_label` threw. -/
inductive overlaps_warning
  | overlap (label : label_t) (router : String)
  | overlap_cut
  deriving DecidableEq, Repr

/-- What a call of `overlaps` leaves behind: what was written to `warnings`, and the value
returned (or the exception). -/
structure overlaps_result where
  warnings : List overlaps_warning
  ret : Except base_error Bool
  deriving Repr

/-- The end of `overlaps` at an entry `e` of this table that meets an entry of equal key in
`other` and is not paired silently with it: the warning is written, through `print_label`, and
`true` is returned. -/
def overlaps_report (parent : Router) (e : entry_t) : overlaps_result :=
  match entry_t.print_label e._top_label with
  | .error err => ⟨[overlaps_warning.overlap_cut], .error err⟩
  | .ok _ => ⟨[overlaps_warning.overlap e._top_label parent.name], .ok true⟩

/-- The loop `for (auto& e : _entries)` of `overlaps` over the entries of this table; `post` are
the entries of `other` from `oit` on. -/
def overlaps_loop (llt : label_t → label_t → Bool) (parent : Router) :
    List entry_t → List entry_t → overlaps_result
  | [], _ => ⟨[], .ok false⟩
  | e :: rest, post =>
    match post.dropWhile (fun o => entry_t.lt llt o e) with
    | [] => ⟨[], .ok false⟩
    | o :: post1 =>
      if entry_t.eq o e then
        if silent e o then overlaps_loop llt parent rest (o :: post1)
        else overlaps_report parent e
      else overlaps_loop llt parent rest (o :: post1)

/-- The source's `RoutingTable::overlaps(other, parent, warnings)`, called on `this`. -/
def overlaps (llt : label_t → label_t → Bool) (this other : RoutingTable) (parent : Router) :
    overlaps_result :=
  overlaps_loop llt parent this._entries other._entries

/-- The entry `e` has the key of an entry of `os` and the two are not a silently deduplicated
pair. -/
def hits (os : List entry_t) (e : entry_t) : Bool :=
  os.any (fun o => entry_t.eq o e && !silent e o)

end RoutingTable
end mpls2pda

/-! ## The query generator (`make_query`, `test_network_generator_main.cpp`) -/

namespace aalwines

/-- The sum of two values of type `size_t` (64 bits). -/
def add64 (a b : Nat) : Nat := (a + b) % 2 ^ 64

/-- The difference of two values of type `size_t` (64 bits). -/
def sub64 (a b : Nat) : Nat := (a + 2 ^ 64 - b) % 2 ^ 64

/-- An arithmetic operation of `make_query` that is undefined in the source. -/
inductive arith_fault
  | division_by_zero
  | remainder_by_zero
  deriving DecidableEq, Repr

/-- The loop of `make_query` for type 3, `for (size_t i = 0, r = 0; i < n - 1; ++i, r += size)`,
with `todo` passes still to make: the router indices passed to `get_router`, in order. Each pass
passes `r + (i % size)` and then `r + (i % size) + size + (i == 0 ? 1 : 0)`, and the first pass
increments `r`. -/
def type3_loop (size : Nat) : Nat → Nat → Nat → Except arith_fault (List Nat)
  | 0, _, _ => .ok []
  | todo + 1, i, r =>
    if size = 0 then .error arith_fault.remainder_by_zero
    else
      match type3_loop size todo (i + 1) (add64 (if i = 0 then add64 r 1 else r) size) with
      | .error f => .error f
      | .ok calls =>
        .ok (add64 r (i % size) ::
          add64 (add64 (add64 r (i % size)) size) (if i = 0 then 1 else 0) :: calls)

/-- The source's `make_query(network, type, k, s, n)` on a network of `network_size` routers: the
router indices it passes to `network.get_router`, in order. The text written to `s` (and with it
`k`) is not modelled. The types 1, 4 and 5 and every other type do not call `get_router`. -/
def make_query (network_size type n : Nat) : Except arith_fault (List Nat) :=
  if n = 0 then .error arith_fault.division_by_zero
  else if type = 2 then .ok [0, sub64 (sub64 network_size 1) (if n = 1 then 1 else 0)]
  else if type = 3 then type3_loop (sub64 network_size 1 / n) (sub64 n 1) 0 0
  else .ok []

/-- The value of `r` at the head of pass `i` of the loop for type 3 when `size_t` does not wrap:
`0` in the first pass and `i * size + 1` later. -/
def type3_r (size i : Nat) : Nat := i * size + (if i = 0 then 0 else 1)

end aalwines

/-! ## The order on entries -/

namespace mpls2pda
open Query RoutingTable
namespace RoutingTable

theorem eq_iff_key (a b : entry_t) : entry_t.eq a b = true ↔ key a = key b := by
  simp only [entry_t.eq, label_eq, key, Bool.and_eq_true, decide_eq_true_eq, Prod.mk.injEq]
  tauto

theorem eq_false_iff_key (a b : entry_t) : entry_t.eq a b = false ↔ key a ≠ key b := by
  rw [Ne, ← eq_iff_key]; simp

theorem entry_lt_iff (llt : label_t → label_t → Bool) (a b : entry_t) :
    entry_t.lt llt a b = true ↔
      a._ingoing < b._ingoing ∨ (a._ingoing = b._ingoing ∧
        ((a._decreasing = false ∧ b._decreasing = true) ∨
          (a._decreasing = b._decreasing ∧ llt a._top_label b._top_label = true))) := by
  unfold entry_t.lt
  by_cases h1 : b._ingoing = a._ingoing
  · have h1s : a._ingoing = b._ingoing := h1.symm
    by_cases h2 : b._decreasing = a._decreasing
    · have h2s : a._decreasing = b._decreasing := h2.symm
      cases hb : b._decreasing <;> simp [h1s, h2s, hb]
    · cases ha : a._decreasing <;> cases hb : b._decreasing <;> simp_all
  · have h1s : ¬ a._ingoing = b._ingoing := fun h => h1 h.symm
    simp [h1, h1s]

theorem entry_lt_congr (llt : label_t → label_t → Bool) {a a1 b b1 : entry_t} (ha : key a = key a1)
    (hb : key b = key b1) : entry_t.lt llt a b = entry_t.lt llt a1 b1 := by
  simp only [key, Prod.mk.injEq] at ha hb
  obtain ⟨h1, h2, h3⟩ := ha
  obtain ⟨h4, h5, h6⟩ := hb
  simp only [entry_t.lt, h1, h2, h3, h4, h5, h6]

theorem entry_lt_irrefl {llt : label_t → label_t → Bool} (hl : label_order llt) (a : entry_t) :
    entry_t.lt llt a a = false := by
  simp [entry_t.lt, hl.irrefl]

theorem entry_lt_trans {llt : label_t → label_t → Bool} (hl : label_order llt) {a b c : entry_t}
    (hab : entry_t.lt llt a b = true) (hbc : entry_t.lt llt b c = true) :
    entry_t.lt llt a c = true := by
  rw [entry_lt_iff] at *
  rcases hab with h | ⟨h, h1 | ⟨h1, h2⟩⟩ <;> rcases hbc with g | ⟨g, g1 | ⟨g1, g2⟩⟩
  · left; exact Nat.lt_trans h g
  · left; exact Nat.lt_of_lt_of_eq h g
  · left; exact Nat.lt_of_lt_of_eq h g
  · left; exact h ▸ g
  · exfalso; rw [h1.2] at g1; exact Bool.noConfusion g1.1
  · right; exact ⟨h.trans g, Or.inl ⟨h1.1, g1 ▸ h1.2⟩⟩
  · left; exact h ▸ g
  · right; exact ⟨h.trans g, Or.inl ⟨h1 ▸ g1.1, g1.2⟩⟩
  · right; exact ⟨h.trans g, Or.inr ⟨h1.trans g1, hl.trans _ _ _ h2 g2⟩⟩

theorem entry_lt_total {llt : label_t → label_t → Bool} (hl : label_order llt) {a b : entry_t}
    (hab : entry_t.lt llt a b = false) (hne : entry_t.eq a b = false) :
    entry_t.lt llt b a = true := by
  rw [eq_false_iff_key] at hne
  have hab1 : ¬ entry_t.lt llt a b = true := by simp [hab]
  rw [entry_lt_iff] at hab1 ⊢
  simp only [key, ne_eq, Prod.mk.injEq, not_and] at hne
  push_neg at hab1
  obtain ⟨h1, h2⟩ := hab1
  rcases Nat.lt_or_ge b._ingoing a._ingoing with h | h
  · exact Or.inl h
  · have hi : a._ingoing = b._ingoing := Nat.le_antisymm h h1
    obtain ⟨h3, h4⟩ := h2 hi
    right
    refine ⟨hi.symm, ?_⟩
    cases ha : a._decreasing <;> cases hb : b._decreasing
    · right
      refine ⟨rfl, ?_⟩
      have hne1 : a._top_label ≠ b._top_label := fun h => hne hi h (by rw [ha, hb])
      rcases hl.total _ _ hne1 with h5 | h5
      · exact absurd h5 (h4 (by rw [ha, hb]))
      · exact h5
    · exact absurd hb (h3 ha)
    · exact Or.inl ⟨rfl, rfl⟩
    · right
      refine ⟨rfl, ?_⟩
      have hne1 : a._top_label ≠ b._top_label := fun h => hne hi h (by rw [ha, hb])
      rcases hl.total _ _ hne1 with h5 | h5
      · exact absurd h5 (h4 (by rw [ha, hb]))
      · exact h5

theorem entry_lt_ne {llt : label_t → label_t → Bool} (hl : label_order llt) {a b : entry_t}
    (hab : entry_t.lt llt a b = true) : entry_t.eq a b = false := by
  by_contra h
  have h1 : entry_t.eq a b = true := by simpa using h
  rw [eq_iff_key] at h1
  rw [entry_lt_congr llt h1 rfl, entry_lt_irrefl hl] at hab
  exact Bool.noConfusion hab

theorem entry_lt_asymm {llt : label_t → label_t → Bool} (hl : label_order llt) {a b : entry_t}
    (hab : entry_t.lt llt a b = true) : entry_t.lt llt b a = false := by
  by_contra h
  have h1 : entry_t.lt llt b a = true := by simpa using h
  have := entry_lt_trans hl hab h1
  rw [entry_lt_irrefl hl] at this
  exact Bool.noConfusion this

end RoutingTable

theorem type_rank_inj {s t : Query.type_t} (h : type_rank s = type_rank t) : s = t := by
  cases s <;> cases t <;> first | rfl | (simp [type_rank] at h)

theorem label_lex_iff (a b : label_t) :
    label_lex a b = true ↔
      type_rank a._type < type_rank b._type ∨ (type_rank a._type = type_rank b._type ∧
        (a._mask < b._mask ∨ (a._mask = b._mask ∧ a._value < b._value))) := by
  unfold label_lex
  by_cases h1 : type_rank a._type = type_rank b._type
  · by_cases h2 : a._mask = b._mask
    · simp [h1, h2]
    · simp [h1, h2]
  · simp [h1]

/-- The lexicographic order `label_lex` is a strict total order on labels. -/
theorem label_lex_order : label_order label_lex := by
  refine ⟨?_, ?_, ?_⟩
  · intro a; simp [label_lex]
  · intro a b c hab hbc
    rw [label_lex_iff] at *
    omega
  · intro a b hne
    rw [label_lex_iff, label_lex_iff]
    by_contra hcon
    apply hne
    have h1 : type_rank a._type = type_rank b._type := by omega
    have h2 : a._mask = b._mask := by omega
    have h3 : a._value = b._value := by omega
    have h4 := type_rank_inj h1
    cases a; cases b; simp_all

end mpls2pda

/-! ## `RoutingTable::merge`: the loop invariant -/

namespace mpls2pda
open Query RoutingTable
namespace RoutingTable

theorem strict_of_sorted_distinct {llt : label_t → label_t → Bool} (hl : label_order llt) :
    ∀ {l : List entry_t}, is_sorted llt l = true → distinct_keys l → strict llt l
  | [], _, _ => List.Pairwise.nil
  | [_], _, _ => List.pairwise_singleton _ _
  | a :: b :: rest, hs, hd => by
    simp only [is_sorted, Bool.and_eq_true, Bool.not_eq_true'] at hs
    have hd1 := List.pairwise_cons.mp hd
    have ih : strict llt (b :: rest) := strict_of_sorted_distinct hl hs.2 hd1.2
    have hab : entry_t.lt llt a b = true := by
      apply entry_lt_total hl hs.1
      rw [eq_false_iff_key]
      have := hd1.1 b (List.mem_cons_self _ _)
      rw [eq_false_iff_key] at this
      exact fun h => this h.symm
    refine List.pairwise_cons.mpr ⟨?_, ih⟩
    intro x hx
    rcases List.mem_cons.mp hx with rfl | hx
    · exact hab
    · exact entry_lt_trans hl hab ((List.pairwise_cons.mp ih).1 x hx)

theorem sorted_of_strict {llt : label_t → label_t → Bool} (hl : label_order llt) :
    ∀ {l : List entry_t}, strict llt l → is_sorted llt l = true
  | [], _ => rfl
  | [_], _ => rfl
  | a :: b :: rest, h => by
    have h1 := List.pairwise_cons.mp h
    simp only [is_sorted, Bool.and_eq_true, Bool.not_eq_true']
    exact ⟨entry_lt_asymm hl (h1.1 b (List.mem_cons_self _ _)), sorted_of_strict hl h1.2⟩

theorem distinct_of_strict {llt : label_t → label_t → Bool} (hl : label_order llt)
    {l : List entry_t} (h : strict llt l) : distinct_keys l :=
  List.Pairwise.imp (fun hab => entry_lt_ne hl hab) h

theorem dropWhile_head_false {α : Type} (p : α → Bool) :
    ∀ {l : List α} {i : α} {r : List α}, l.dropWhile p = i :: r → p i = false
  | [], _, _, h => by simp at h
  | a :: l, i, r, h => by
    rw [List.dropWhile_cons] at h
    by_cases hp : p a = true
    · rw [if_pos hp] at h
      exact dropWhile_head_false p h
    · rw [if_neg hp] at h
      cases h
      simpa using hp

theorem split_at_iit {α : Type} (p : α → Bool) (pre post : List α) {d : List α}
    (h : post.dropWhile p = d) : (pre ++ post.takeWhile p) ++ d = pre ++ post := by
  rw [← h, List.append_assoc, List.takeWhile_append_dropWhile]

theorem strict_same_keys {llt : label_t → label_t → Bool} {l1 l2 : List entry_t}
    (hk : l1.map key = l2.map key) (h : strict llt l1) : strict llt l2 := by
  have h1 : (l1.map key).Pairwise
      (fun k1 k2 => ∀ a b : entry_t, key a = k1 → key b = k2 → entry_t.lt llt a b = true) := by
    rw [List.pairwise_map]
    refine List.Pairwise.imp ?_ h
    intro a b hab a1 b1 ha hb
    rw [entry_lt_congr llt ha hb]; exact hab
  rw [hk, List.pairwise_map] at h1
  exact List.Pairwise.imp (fun hab => hab _ _ rfl rfl) h1

theorem inv_skip {llt : label_t → label_t → Bool} {e : entry_t} {rest pre post : List entry_t}
    (h : merge_inv llt (e :: rest) pre post) : merge_inv llt rest pre post :=
  ⟨h.1, (List.pairwise_cons.mp h.2.1).2, fun p hp x hx => h.2.2 p hp x (List.mem_cons_of_mem _ hx)⟩

theorem inv_before {llt : label_t → label_t → Bool} {e : entry_t} {rest pre post : List entry_t}
    (h : merge_inv llt (e :: rest) pre post) :
    ∀ p ∈ pre ++ post.takeWhile (fun i => entry_t.lt llt i e), entry_t.lt llt p e = true := by
  intro p hp
  rcases List.mem_append.mp hp with hp | hp
  · exact h.2.2 p hp e (List.mem_cons_self _ _)
  · exact List.mem_takeWhile_imp (p := fun i => entry_t.lt llt i e) hp

theorem inv_before_rest {llt : label_t → label_t → Bool} (hl : label_order llt) {e : entry_t}
    {rest pre post : List entry_t} (h : merge_inv llt (e :: rest) pre post) :
    ∀ p ∈ pre ++ post.takeWhile (fun i => entry_t.lt llt i e), ∀ x ∈ rest,
      entry_t.lt llt p x = true :=
  fun p hp x hx => entry_lt_trans hl (inv_before h p hp) ((List.pairwise_cons.mp h.2.1).1 x hx)

theorem inv_collide {llt : label_t → label_t → Bool} (hl : label_order llt) {e i j : entry_t}
    {rest pre post post1 : List entry_t} (h : merge_inv llt (e :: rest) pre post)
    (hd : post.dropWhile (fun i => entry_t.lt llt i e) = i :: post1) (hk : key j = key i) :
    merge_inv llt rest (pre ++ post.takeWhile (fun i => entry_t.lt llt i e)) (j :: post1) := by
  refine ⟨?_, (List.pairwise_cons.mp h.2.1).2, inv_before_rest hl h⟩
  have h1 := h.1
  rw [← split_at_iit _ pre post hd] at h1
  refine strict_same_keys ?_ h1
  simp [hk]

theorem inv_insert {llt : label_t → label_t → Bool} (hl : label_order llt) {e i : entry_t}
    {rest pre post post1 : List entry_t} (h : merge_inv llt (e :: rest) pre post)
    (hd : post.dropWhile (fun i => entry_t.lt llt i e) = i :: post1)
    (hne : entry_t.eq i e = false) :
    entry_t.lt llt e i = true ∧
    merge_inv llt rest (pre ++ post.takeWhile (fun i => entry_t.lt llt i e)) (e :: i :: post1) := by
  have hei : entry_t.lt llt e i = true := 
    entry_lt_total hl (dropWhile_head_false (fun i => entry_t.lt llt i e) hd) hne
  refine ⟨hei, ?_, (List.pairwise_cons.mp h.2.1).2, inv_before_rest hl h⟩
  have h1 := h.1
  rw [← split_at_iit _ pre post hd] at h1
  have h2 := List.pairwise_append.mp h1
  refine List.pairwise_append.mpr ⟨h2.1, ?_, ?_⟩
  · refine List.pairwise_cons.mpr ⟨?_, h2.2.1⟩
    intro x hx
    rcases List.mem_cons.mp hx with rfl | hx
    · exact hei
    · exact entry_lt_trans hl hei ((List.pairwise_cons.mp h2.2.1).1 x hx)
  · intro p hp x hx
    rcases List.mem_cons.mp hx with rfl | hx
    · exact inv_before h p hp
    · exact h2.2.2 p hp x hx

theorem inv_tail {llt : label_t → label_t → Bool} (hl : label_order llt) {e : entry_t}
    {rest pre post : List entry_t} (h : merge_inv llt (e :: rest) pre post)
    (hd : post.dropWhile (fun i => entry_t.lt llt i e) = []) :
    strict llt (pre ++ post.takeWhile (fun i => entry_t.lt llt i e) ++ e :: rest) := by
  have h1 := h.1
  rw [← split_at_iit _ pre post hd, List.append_nil] at h1
  refine List.pairwise_append.mpr ⟨h1, h.2.1, ?_⟩
  intro p hp x hx
  rcases List.mem_cons.mp hx with rfl | hx
  · exact inv_before h p hp
  · exact inv_before_rest hl h p hp x hx

/-- From a state that satisfies the invariant, the loop of `merge` ends with this table strictly
sorted, and no assertion fails on the way. -/
theorem merge_loop_strict {llt : label_t → label_t → Bool} (hl : label_order llt) (name : String)
    (parent : Interface_ptr) :
    ∀ (os pre post : List entry_t) (af : Bool) (w : List warning_t) (a : Bool),
      merge_inv llt os pre post →
      strict llt (merge_loop llt name parent os pre post af w a).table._entries ∧
      (merge_loop llt name parent os pre post af w a).asserts = a
  | [], pre, post, af, w, a, h => by
    simp only [merge_loop]
    exact ⟨h.1, by rw [sorted_of_strict hl h.1, Bool.and_true]⟩
  | e :: rest, pre, post, af, w, a, h => by
    rw [merge_loop]
    split_ifs with hf
    · exact merge_loop_strict hl name parent rest pre post af w a (inv_skip h)
    · simp only
      split
      · rename_i hd
        have := inv_tail hl h hd
        exact ⟨this, by rw [sorted_of_strict hl this, Bool.and_true]⟩
      · rename_i i post1 hd
        split_ifs with heq hsil
        · exact merge_loop_strict hl name parent rest _ _ af w a (inv_collide hl h hd rfl)
        · split
          · have h1 := h.1
            rw [← split_at_iit _ pre post hd] at h1
            exact ⟨h1, rfl⟩
          · exact merge_loop_strict hl name parent rest _ _ false _ a (inv_collide hl h hd rfl)
        · have hne : entry_t.eq i e = false := by simpa using heq
          have h2 := inv_insert hl h hd hne
          have := merge_loop_strict hl name parent rest _ _ af w (a && entry_t.lt llt e i) h2.2
          rw [h2.1, Bool.and_true] at this
          rw [h2.1, Bool.and_true]
          exact this

end RoutingTable
end mpls2pda

/-! ## `RoutingTable::merge`: collisions -/

namespace mpls2pda
open Query RoutingTable
namespace RoutingTable

theorem eq_comm_entry (a b : entry_t) : entry_t.eq a b = entry_t.eq b a := by
  cases h : entry_t.eq b a
  · rw [eq_false_iff_key] at *; exact fun h1 => h h1.symm
  · rw [eq_iff_key] at *; exact h.symm

theorem key_collide (e i : entry_t) : key (collide e i) = key i := by
  unfold collide; split_ifs <;> rfl

theorem strict_key_inj {llt : label_t → label_t → Bool} (hl : label_order llt) :
    ∀ {l : List entry_t}, strict llt l → ∀ {x y : entry_t}, x ∈ l → y ∈ l → key x = key y → x = y
  | [], _, _, _, hx, _, _ => by cases hx
  | a :: l, h, x, y, hx, hy, hk => by
    have h1 := List.pairwise_cons.mp h
    have hxy : entry_t.eq x y = true := (eq_iff_key x y).mpr hk
    rcases List.mem_cons.mp hx with hxa | hx <;> rcases List.mem_cons.mp hy with hya | hy
    · rw [hxa, hya]
    · rw [hxa, entry_lt_ne hl (h1.1 y hy)] at hxy; exact Bool.noConfusion hxy
    · rw [hya, eq_comm_entry, entry_lt_ne hl (h1.1 x hx)] at hxy; exact Bool.noConfusion hxy
    · exact strict_key_inj hl h1.2 hx hy hk

theorem merged_entry_skip {parent : Interface_ptr} {e x : entry_t} (rest : List entry_t)
    (h : (!foreign parent e && entry_t.eq x e) = false) :
    merged_entry parent (e :: rest) x = merged_entry parent rest x := by
  unfold merged_entry
  rw [List.find?_cons_of_neg _ (by simp [h])]

theorem merged_entry_hit {parent : Interface_ptr} {e x : entry_t} (rest : List entry_t)
    (hf : foreign parent e = false) (h : entry_t.eq x e = true) :
    merged_entry parent (e :: rest) x = collide e x := by
  unfold merged_entry
  rw [List.find?_cons_of_pos _ (by simp [h, hf])]

theorem merged_entry_none {parent : Interface_ptr} {os : List entry_t} {x : entry_t}
    (h : ∀ e ∈ os, entry_t.eq x e = false) : merged_entry parent os x = x := by
  unfold merged_entry
  have : os.find? (fun e => !foreign parent e && entry_t.eq x e) = none := by
    rw [List.find?_eq_none]
    intro e he
    simp [h e he]
  rw [this]

/-- An entry with the key of `e` meets nothing in the entries that follow `e` in `other`. -/
theorem no_hit_after {llt : label_t → label_t → Bool} (hl : label_order llt) {e x : entry_t}
    {rest : List entry_t} (hs : strict llt (e :: rest)) (hk : key x = key e) :
    ∀ e1 ∈ rest, entry_t.eq x e1 = false := by
  intro e1 he1
  have := (List.pairwise_cons.mp hs).1 e1 he1
  rw [← entry_lt_congr llt hk rfl] at this
  exact entry_lt_ne hl this

/-- Every entry that was in this table when the loop of `merge` stood at `os` is in the final table,
as `merged_entry` describes it, provided `merge` returns. -/
theorem merge_loop_entries {llt : label_t → label_t → Bool} (hl : label_order llt) (name : String)
    (parent : Interface_ptr) (b : Bool) :
    ∀ (os pre post : List entry_t) (af : Bool) (w : List warning_t) (a : Bool),
      merge_inv llt os pre post →
      (merge_loop llt name parent os pre post af w a).ret = .ok b →
      ∀ x ∈ pre ++ post,
        merged_entry parent os x ∈ (merge_loop llt name parent os pre post af w a).table._entries
  | [], pre, post, af, w, a, _, _ => by
    intro x hx
    simpa [merge_loop, merged_entry] using hx
  | e :: rest, pre, post, af, w, a, h, hret => by
    intro x hx
    rw [merge_loop] at hret ⊢
    split_ifs at hret ⊢ with hf
    · rw [merged_entry_skip rest (by simp [hf])]
      exact merge_loop_entries hl name parent b rest pre post af w a (inv_skip h) hret x hx
    · have hf1 : foreign parent e = false := by simpa using hf
      simp only at hret ⊢
      split at hret
      · rename_i hd
        rw [← split_at_iit _ pre post hd, List.append_nil] at hx
        have hno : ∀ e1 ∈ e :: rest, entry_t.eq x e1 = false := by
          intro e1 he1
          rcases List.mem_cons.mp he1 with rfl | he1
          · exact entry_lt_ne hl (inv_before h x hx)
          · exact entry_lt_ne hl (inv_before_rest hl h x hx e1 he1)
        rw [merged_entry_none hno]
        exact List.mem_append_left _ hx
      · rename_i i post1 hd
        have hx1 := hx
        rw [← split_at_iit _ pre post hd] at hx1
        have hs1 := h.1
        rw [← split_at_iit _ pre post hd] at hs1
        have hi_mem : i ∈ (pre ++ post.takeWhile (fun i => entry_t.lt llt i e)) ++ i :: post1 :=
          List.mem_append_right _ (List.mem_cons_self _ _)
        split_ifs at hret ⊢ with heq hsil
        · -- silent collision
          have ih := merge_loop_entries hl name parent b rest _ _ af w a
            (inv_collide hl h hd rfl) hret x hx1
          by_cases hxe : entry_t.eq x e = true
          · have hxi : x = i := strict_key_inj hl hs1 hx1 hi_mem
              (((eq_iff_key x e).mp hxe).trans ((eq_iff_key i e).mp heq).symm)
            rw [merged_entry_hit rest hf1 hxe]
            rw [merged_entry_none (no_hit_after hl h.2.1 ((eq_iff_key x e).mp hxe))] at ih
            rw [hxi] at ih ⊢
            simpa [collide, hsil] using ih
          · rw [merged_entry_skip rest (by simp [hxe])]
            exact ih
        · split at hret
          · simp at hret
          · -- collision with the rules appended
            have hinv := inv_collide (j := { i with _rules := i._rules ++ e._rules }) hl h hd rfl
            by_cases hxe : entry_t.eq x e = true
            · have hxi : x = i := strict_key_inj hl hs1 hx1 hi_mem
                (((eq_iff_key x e).mp hxe).trans ((eq_iff_key i e).mp heq).symm)
              have ih := merge_loop_entries hl name parent b rest _ _ false _ a hinv hret
                { i with _rules := i._rules ++ e._rules }
                (List.mem_append_right _ (List.mem_cons_self _ _))
              rw [merged_entry_none (no_hit_after hl h.2.1
                (show key { i with _rules := i._rules ++ e._rules } = key e from
                  (eq_iff_key i e).mp heq))] at ih
              rw [merged_entry_hit rest hf1 hxe, hxi]
              simpa [collide, hsil] using ih
            · have hxi : x ≠ i := fun hc => hxe (hc ▸ heq)
              have hx2 : x ∈ (pre ++ post.takeWhile (fun i => entry_t.lt llt i e)) ++
                  { i with _rules := i._rules ++ e._rules } :: post1 := by
                rcases List.mem_append.mp hx1 with hx1 | hx1
                · exact List.mem_append_left _ hx1
                · rcases List.mem_cons.mp hx1 with hx1 | hx1
                  · exact absurd hx1 hxi
                  · exact List.mem_append_right _ (List.mem_cons_of_mem _ hx1)
              rw [merged_entry_skip rest (by simp [hxe])]
              exact merge_loop_entries hl name parent b rest _ _ false _ a hinv hret x hx2
        · -- insertion
          have hne : entry_t.eq i e = false := by simpa using heq
          have h2 := inv_insert hl h hd hne
          have hx2 : x ∈ (pre ++ post.takeWhile (fun i => entry_t.lt llt i e)) ++ e :: i :: post1 := by
            rcases List.mem_append.mp hx1 with hx1 | hx1
            · exact List.mem_append_left _ hx1
            · exact List.mem_append_right _ (List.mem_cons_of_mem _ hx1)
          have hxe : entry_t.eq x e = false := by
            rcases List.mem_append.mp hx1 with hx1 | hx1
            · exact entry_lt_ne hl (inv_before h x hx1)
            · rcases List.mem_cons.mp hx1 with hx1 | hx1
              · rw [hx1]; exact hne
              · have h3 := (List.pairwise_cons.mp (List.pairwise_append.mp hs1).2.1).1 x hx1
                rw [eq_comm_entry]
                exact entry_lt_ne hl (entry_lt_trans hl h2.1 h3)
          rw [merged_entry_skip rest (by simp [hxe])]
          exact merge_loop_entries hl name parent b rest _ _ af w _ h2.2 hret x hx2

end RoutingTable
end mpls2pda

/-! ## `RoutingTable::merge`: warnings and the value returned -/

namespace mpls2pda
open Query RoutingTable
namespace RoutingTable

theorem overlapping_false {parent : Interface_ptr} {l : List entry_t} {e : entry_t}
    (h : ∀ x ∈ l, entry_t.eq x e = true → silent e x = true) : overlapping parent l e = false := by
  unfold overlapping
  have : l.any (fun i => entry_t.eq i e && !silent e i) = false := by
    rw [List.any_eq_false]
    intro x hx
    cases hxe : entry_t.eq x e
    · simp
    · simp [h x hx hxe]
  rw [this, Bool.and_false]

theorem overlapping_true {parent : Interface_ptr} {l : List entry_t} {e i : entry_t}
    (hf : foreign parent e = false) (hi : i ∈ l) (heq : entry_t.eq i e = true)
    (hs : silent e i = false) : overlapping parent l e = true := by
  unfold overlapping
  rw [hf]
  simp only [Bool.not_false, Bool.true_and, List.any_eq_true]
  exact ⟨i, hi, by simp [heq, hs]⟩

/-- Replacing or adding entries that meet `e1` in no key does not change whether `e1` overlaps. -/
theorem overlapping_congr {parent : Interface_ptr} {l1 l2 mid1 mid2 : List entry_t} {e1 : entry_t}
    (h1 : ∀ x ∈ mid1, entry_t.eq x e1 = false) (h2 : ∀ x ∈ mid2, entry_t.eq x e1 = false) :
    overlapping parent (l1 ++ mid1 ++ l2) e1 = overlapping parent (l1 ++ mid2 ++ l2) e1 := by
  unfold overlapping
  have hm : ∀ mid : List entry_t, (∀ x ∈ mid, entry_t.eq x e1 = false) →
      mid.any (fun i => entry_t.eq i e1 && !silent e1 i) = false := by
    intro mid hmid
    rw [List.any_eq_false]
    intro x hx
    simp [hmid x hx]
  simp only [List.any_append, hm mid1 h1, hm mid2 h2]

theorem filter_overlapping_congr (parent : Interface_ptr) (l1 l2 mid1 mid2 rest : List entry_t)
    (h1 : ∀ e1 ∈ rest, ∀ x ∈ mid1, entry_t.eq x e1 = false)
    (h2 : ∀ e1 ∈ rest, ∀ x ∈ mid2, entry_t.eq x e1 = false) :
    rest.filter (overlapping parent (l1 ++ mid1 ++ l2)) =
      rest.filter (overlapping parent (l1 ++ mid2 ++ l2)) :=
  List.filter_congr (fun e1 he1 => overlapping_congr (h1 e1 he1) (h2 e1 he1))

/-- The only exception that leaves the loop of `merge` is the one of `print_label`. -/
theorem merge_loop_error (llt : label_t → label_t → Bool) (name : String)
    (parent : Interface_ptr) (err : base_error) :
    ∀ (os pre post : List entry_t) (af : Bool) (w : List warning_t) (a : Bool),
      (merge_loop llt name parent os pre post af w a).ret = .error err →
      err = base_error.interfaces_cannot_be_pushdown_labels
  | [], pre, post, af, w, a, h => by simp [merge_loop] at h
  | e :: rest, pre, post, af, w, a, h => by
    rw [merge_loop] at h
    split_ifs at h with hf
    · exact merge_loop_error llt name parent err rest pre post af w a h
    · simp only at h
      split at h
      · simp at h
      · split_ifs at h with heq hsil
        · exact merge_loop_error llt name parent err rest _ _ af w a h
        · split at h
          · rename_i e1 hprint
            simp only [Except.error.injEq] at h
            rw [← h]
            unfold entry_t.print_label at hprint
            split at hprint <;> simp_all
          · exact merge_loop_error llt name parent err rest _ _ false _ a h
        · exact merge_loop_error llt name parent err rest _ _ af w _ h

/-- The warnings written by the loop of `merge`, and the value it returns, when it returns: one
overlap line for each entry of `other` that overlaps, in order, and `all_fine` stays `true` only
when there is none; the label of each of these entries was printed. -/
theorem merge_loop_warnings {llt : label_t → label_t → Bool} (hl : label_order llt) (name : String)
    (parent : Interface_ptr) (b : Bool) :
    ∀ (os pre post : List entry_t) (af : Bool) (w : List warning_t) (a : Bool),
      merge_inv llt os pre post →
      (merge_loop llt name parent os pre post af w a).ret = .ok b →
      (merge_loop llt name parent os pre post af w a).warnings =
          w ++ (os.filter (overlapping parent (pre ++ post))).map
            (fun e => warning_t.overlap e._top_label parent) ∧
        b = (af && (os.filter (overlapping parent (pre ++ post))).isEmpty) ∧
        ∀ e ∈ os.filter (overlapping parent (pre ++ post)),
          entry_t.print_label e._top_label = .ok ()
  | [], pre, post, af, w, a, _, hret => by
    simp only [merge_loop, Except.ok.injEq] at hret
    simp [merge_loop, hret]
  | e :: rest, pre, post, af, w, a, h, hret => by
    rw [merge_loop] at hret ⊢
    split_ifs at hret ⊢ with hf
    · have hov : overlapping parent (pre ++ post) e = false := by simp [overlapping, hf]
      rw [List.filter_cons_of_neg (by simp [hov])]
      exact merge_loop_warnings hl name parent b rest pre post af w a (inv_skip h) hret
    · have hf1 : foreign parent e = false := by simpa using hf
      simp only at hret ⊢
      split at hret
      · rename_i hd
        have hall : ∀ e1 ∈ e :: rest, overlapping parent (pre ++ post) e1 = false := by
          intro e1 he1
          apply overlapping_false
          intro x hx hxe
          rw [← split_at_iit _ pre post hd, List.append_nil] at hx
          have hlt : entry_t.lt llt x e1 = true := by
            rcases List.mem_cons.mp he1 with he1 | he1
            · rw [he1]; exact inv_before h x hx
            · exact inv_before_rest hl h x hx e1 he1
          rw [entry_lt_ne hl hlt] at hxe
          exact Bool.noConfusion hxe
        have hnil : (e :: rest).filter (overlapping parent (pre ++ post)) = [] := by
          rw [List.filter_eq_nil_iff]
          intro e1 he1
          simp [hall e1 he1]
        simp only [Except.ok.injEq] at hret
        simp [hnil, hret]
      · rename_i i post1 hd
        have hs1 := h.1
        rw [← split_at_iit _ pre post hd] at hs1
        have hL : pre ++ post =
            pre ++ post.takeWhile (fun i => entry_t.lt llt i e) ++ [i] ++ post1 := by
          rw [← split_at_iit _ pre post hd]; simp
        have hi_mem : i ∈ (pre ++ post.takeWhile (fun i => entry_t.lt llt i e)) ++ i :: post1 :=
          List.mem_append_right _ (List.mem_cons_self _ _)
        split_ifs at hret ⊢ with heq hsil
        · -- silent collision
          have ih := merge_loop_warnings hl name parent b rest _ _ af w a
            (inv_collide hl h hd rfl) hret
          have hov : overlapping parent (pre ++ post) e = false := by
            apply overlapping_false
            intro x hx hxe
            rw [← split_at_iit _ pre post hd] at hx
            have hxi : x = i := strict_key_inj hl hs1 hx hi_mem
              (((eq_iff_key x e).mp hxe).trans ((eq_iff_key i e).mp heq).symm)
            rw [hxi]; exact hsil
          rw [List.filter_cons_of_neg (by simp [hov])]
          rw [split_at_iit _ pre post hd] at ih
          exact ih
        · split at hret
          · simp at hret
          · -- collision with the rules appended
            rename_i u hprint
            have hinv := inv_collide (j := { i with _rules := i._rules ++ e._rules }) hl h hd rfl
            have ih := merge_loop_warnings hl name parent b rest _ _ false _ a hinv hret
            have hsil1 : silent e i = false := by simpa using hsil
            have hov : overlapping parent (pre ++ post) e = true := by
              rw [← split_at_iit _ pre post hd]
              exact overlapping_true hf1 hi_mem heq hsil1
            have hcongr : rest.filter (overlapping parent
                (pre ++ post.takeWhile (fun i => entry_t.lt llt i e) ++
                  { i with _rules := i._rules ++ e._rules } :: post1)) =
                rest.filter (overlapping parent (pre ++ post)) := by
              rw [hL]
              have := filter_overlapping_congr parent
                (pre ++ post.takeWhile (fun i => entry_t.lt llt i e)) post1
                [{ i with _rules := i._rules ++ e._rules }] [i] rest
                (by
                  intro e1 he1 x hx
                  rw [List.mem_singleton] at hx
                  rw [hx]
                  exact no_hit_after hl h.2.1 ((eq_iff_key i e).mp heq) e1 he1)
                (by
                  intro e1 he1 x hx
                  rw [List.mem_singleton] at hx
                  rw [hx]
                  exact no_hit_after hl h.2.1 ((eq_iff_key i e).mp heq) e1 he1)
              simpa using this
            rw [hcongr] at ih
            rw [List.filter_cons_of_pos (by simp [hov])]
            simp only [List.map_cons, List.isEmpty_cons, Bool.and_false]
            refine ⟨?_, by simpa using ih.2.1, ?_⟩
            · rw [ih.1]; simp
            · intro e1 he1
              rcases List.mem_cons.mp he1 with he1 | he1
              · rw [he1, hprint]
              · exact ih.2.2 e1 he1
        · -- insertion
          have hne : entry_t.eq i e = false := by simpa using heq
          have h2 := inv_insert hl h hd hne
          have ih := merge_loop_warnings hl name parent b rest _ _ af w _ h2.2 hret
          have hov : overlapping parent (pre ++ post) e = false := by
            apply overlapping_false
            intro x hx hxe
            rw [← split_at_iit _ pre post hd] at hx
            exfalso
            have hxe1 : entry_t.eq x e = false := by
              rcases List.mem_append.mp hx with hx1 | hx1
              · exact entry_lt_ne hl (inv_before h x hx1)
              · rcases List.mem_cons.mp hx1 with hx1 | hx1
                · rw [hx1]; exact hne
                · have h3 := (List.pairwise_cons.mp (List.pairwise_append.mp hs1).2.1).1 x hx1
                  rw [eq_comm_entry]
                  exact entry_lt_ne hl (entry_lt_trans hl h2.1 h3)
            rw [hxe1] at hxe
            exact Bool.noConfusion hxe
          have hcongr : rest.filter (overlapping parent
              (pre ++ post.takeWhile (fun i => entry_t.lt llt i e) ++ e :: i :: post1)) =
              rest.filter (overlapping parent (pre ++ post)) := by
            rw [hL]
            have := filter_overlapping_congr parent
              (pre ++ post.takeWhile (fun i => entry_t.lt llt i e)) (i :: post1) [e] [] rest
              (by
                intro e1 he1 x hx
                rw [List.mem_singleton] at hx
                rw [hx]
                exact no_hit_after hl h.2.1 rfl e1 he1)
              (by intro e1 _ x hx; cases hx)
            simpa using this
          rw [hcongr] at ih
          rw [List.filter_cons_of_neg (by simp [hov])]
          exact ih

end RoutingTable
end mpls2pda

/-! ## `RoutingTable::merge`: the keys of the merged table -/

namespace mpls2pda
open Query RoutingTable
namespace RoutingTable

theorem merged_entry_of_mem {llt : label_t → label_t → Bool} (hl : label_order llt)
    (parent : Interface_ptr) (i e : entry_t) (hf : foreign parent e = false)
    (heq : entry_t.eq i e = true) :
    ∀ {os : List entry_t}, strict llt os → e ∈ os → merged_entry parent os i = collide e i
  | [], _, he => by cases he
  | a :: rest, hs, he => by
    by_cases hhit : (!foreign parent a && entry_t.eq i a) = true
    · have hia : entry_t.eq i a = true := by
        cases h : entry_t.eq i a
        · simp [h] at hhit
        · rfl
      have hae : a = e := strict_key_inj hl hs (List.mem_cons_self _ _) he
        (((eq_iff_key i a).mp hia).symm.trans ((eq_iff_key i e).mp heq))
      rw [hae]
      exact merged_entry_hit rest hf heq
    · have hhit1 : (!foreign parent a && entry_t.eq i a) = false := by simpa using hhit
      rw [merged_entry_skip rest hhit1]
      rcases List.mem_cons.mp he with hea | he
      · rw [← hea, hf, heq] at hhit1
        exact Bool.noConfusion hhit1
      · exact merged_entry_of_mem hl parent i e hf heq (List.pairwise_cons.mp hs).2 he

/-- The keys of this table after the loop of `merge`: none is lost, every entry of `other` that is
not skipped has its key in the table when `merge` returns, and every key comes from one of the
two tables. -/
theorem merge_loop_keys (llt : label_t → label_t → Bool) (name : String) (parent : Interface_ptr) :
    ∀ (os pre post : List entry_t) (af : Bool) (w : List warning_t) (a : Bool),
      (∀ x ∈ pre ++ post,
        key x ∈ (merge_loop llt name parent os pre post af w a).table._entries.map key) ∧
      (∀ b, (merge_loop llt name parent os pre post af w a).ret = .ok b →
        ∀ e ∈ os, foreign parent e = false →
          key e ∈ (merge_loop llt name parent os pre post af w a).table._entries.map key) ∧
      (∀ r ∈ (merge_loop llt name parent os pre post af w a).table._entries,
        key r ∈ (pre ++ post).map key ∨ key r ∈ os.map key)
  | [], pre, post, af, w, a => by
    simp only [merge_loop]
    refine ⟨fun x hx => List.mem_map_of_mem key hx, fun _ _ e he => (by cases he),
      fun r hr => Or.inl (List.mem_map_of_mem key hr)⟩
  | e :: rest, pre, post, af, w, a => by
    rw [merge_loop]
    split_ifs with hf
    · obtain ⟨h1, h2, h3⟩ := merge_loop_keys llt name parent rest pre post af w a
      refine ⟨h1, ?_, ?_⟩
      · intro b hb e1 he1 hf1
        rcases List.mem_cons.mp he1 with he1 | he1
        · rw [he1] at hf1; rw [hf1] at hf; exact absurd hf (by simp)
        · exact h2 b hb e1 he1 hf1
      · intro r hr
        rcases h3 r hr with h | h
        · exact Or.inl h
        · exact Or.inr (List.mem_map.mpr (by
            obtain ⟨y, hy, hyk⟩ := List.mem_map.mp h
            exact ⟨y, List.mem_cons_of_mem _ hy, hyk⟩))
    · simp only
      split
      · rename_i hd
        have hL := split_at_iit (fun i => entry_t.lt llt i e) pre post hd
        rw [List.append_nil] at hL
        simp only
        rw [hL]
        refine ⟨fun x hx => List.mem_map_of_mem key (List.mem_append_left _ hx), ?_, ?_⟩
        · intro _ _ e1 he1 _
          exact List.mem_map_of_mem key (List.mem_append_right _ he1)
        · intro r hr
          rcases List.mem_append.mp hr with hr | hr
          · exact Or.inl (List.mem_map_of_mem key hr)
          · exact Or.inr (List.mem_map_of_mem key hr)
      · rename_i i post1 hd
        have hL := split_at_iit (fun i => entry_t.lt llt i e) pre post hd
        split_ifs with heq hsil
        · obtain ⟨h1, h2, h3⟩ := merge_loop_keys llt name parent rest
            (pre ++ post.takeWhile (fun i => entry_t.lt llt i e)) (i :: post1) af w a
          rw [hL] at h1 h3
          refine ⟨h1, ?_, ?_⟩
          · intro b hb e1 he1 hf1
            rcases List.mem_cons.mp he1 with he1 | he1
            · rw [he1, ← (eq_iff_key i e).mp heq]
              exact h1 i (by rw [← hL]; exact List.mem_append_right _ (List.mem_cons_self _ _))
            · exact h2 b hb e1 he1 hf1
          · intro r hr
            rcases h3 r hr with h | h
            · exact Or.inl h
            · exact Or.inr (by rw [List.map_cons]; exact List.mem_cons_of_mem _ h)
        · split
          · simp only
            rw [hL]
            refine ⟨fun x hx => List.mem_map_of_mem key hx, ?_,
              fun r hr => Or.inl (List.mem_map_of_mem key hr)⟩
            intro b hb
            simp at hb
          · obtain ⟨h1, h2, h3⟩ := merge_loop_keys llt name parent rest
              (pre ++ post.takeWhile (fun i => entry_t.lt llt i e))
              ({ i with _rules := i._rules ++ e._rules } :: post1) false
              (w ++ [warning_t.overlap e._top_label parent]) a
            have hkeys : (pre ++ post.takeWhile (fun i => entry_t.lt llt i e) ++
                { i with _rules := i._rules ++ e._rules } :: post1).map key =
                (pre ++ post).map key := by
              rw [← hL]; simp [key]
            have h1a : ∀ x ∈ pre ++ post, key x ∈ List.map key (merge_loop llt name parent rest
                (pre ++ post.takeWhile (fun i => entry_t.lt llt i e))
                ({ i with _rules := i._rules ++ e._rules } :: post1) false
                (w ++ [warning_t.overlap e._top_label parent]) a).table._entries := by
              intro x hx
              have hx1 : key x ∈ (pre ++ post).map key := List.mem_map_of_mem key hx
              rw [← hkeys] at hx1
              obtain ⟨y, hy, hyk⟩ := List.mem_map.mp hx1
              rw [← hyk]
              exact h1 y hy
            refine ⟨h1a, ?_, ?_⟩
            · intro b hb e1 he1 hf1
              rcases List.mem_cons.mp he1 with he1 | he1
              · rw [he1, ← (eq_iff_key i e).mp heq]
                exact h1a i (by rw [← hL]; exact List.mem_append_right _ (List.mem_cons_self _ _))
              · exact h2 b hb e1 he1 hf1
            · intro r hr
              rcases h3 r hr with h | h
              · rw [hkeys] at h; exact Or.inl h
              · exact Or.inr (by rw [List.map_cons]; exact List.mem_cons_of_mem _ h)
        · obtain ⟨h1, h2, h3⟩ := merge_loop_keys llt name parent rest
            (pre ++ post.takeWhile (fun i => entry_t.lt llt i e)) (e :: i :: post1) af w
            (a && entry_t.lt llt e i)
          refine ⟨?_, ?_, ?_⟩
          · intro x hx
            rw [← hL] at hx
            apply h1
            rcases List.mem_append.mp hx with hx | hx
            · exact List.mem_append_left _ hx
            · exact List.mem_append_right _ (List.mem_cons_of_mem _ hx)
          · intro b hb e1 he1 hf1
            rcases List.mem_cons.mp he1 with he1 | he1
            · rw [he1]
              exact h1 e (List.mem_append_right _ (List.mem_cons_self _ _))
            · exact h2 b hb e1 he1 hf1
          · intro r hr
            rcases h3 r hr with h | h
            · obtain ⟨y, hy, hyk⟩ := List.mem_map.mp h
              rcases List.mem_append.mp hy with hy | hy
              · exact Or.inl (List.mem_map.mpr ⟨y, by
                  rw [← hL]; exact List.mem_append_left _ hy, hyk⟩)
              · rcases List.mem_cons.mp hy with hy | hy
                · exact Or.inr (by rw [← hyk, hy, List.map_cons]; exact List.mem_cons_self _ _)
                · exact Or.inl (List.mem_map.mpr ⟨y, by
                    rw [← hL]; exact List.mem_append_right _ hy, hyk⟩)
            · exact Or.inr (by rw [List.map_cons]; exact List.mem_cons_of_mem _ h)

theorem print_label_ok {l : label_t}
    (h : l._type ≠ Query.type_t.INTERFACE ∧ l._type ≠ Query.type_t.NONE) :
    entry_t.print_label l = .ok () := by
  unfold entry_t.print_label
  cases ht : l._type <;> simp_all

/-- The loop of `merge` returns when the labels of `other` can be printed. -/
theorem merge_loop_returns (llt : label_t → label_t → Bool) (name : String)
    (parent : Interface_ptr) :
    ∀ (os pre post : List entry_t) (af : Bool) (w : List warning_t) (a : Bool),
      (∀ e ∈ os, e._top_label._type ≠ Query.type_t.INTERFACE ∧
        e._top_label._type ≠ Query.type_t.NONE) →
      ∃ b, (merge_loop llt name parent os pre post af w a).ret = .ok b
  | [], pre, post, af, w, a, _ => ⟨af, rfl⟩
  | e :: rest, pre, post, af, w, a, h => by
    have hrest : ∀ x ∈ rest, x._top_label._type ≠ Query.type_t.INTERFACE ∧
        x._top_label._type ≠ Query.type_t.NONE := fun x hx => h x (List.mem_cons_of_mem _ hx)
    rw [merge_loop]
    split_ifs with hf
    · exact merge_loop_returns llt name parent rest pre post af w a hrest
    · simp only
      split
      · exact ⟨af, rfl⟩
      · split_ifs with heq hsil
        · exact merge_loop_returns llt name parent rest _ _ af w a hrest
        · rw [print_label_ok (h e (List.mem_cons_self _ _))]
          exact merge_loop_returns llt name parent rest _ _ false _ a hrest
        · exact merge_loop_returns llt name parent rest _ _ af w _ hrest

end RoutingTable
end mpls2pda

/-! ## `RoutingTable::merge`: the claims -/

namespace mpls2pda
open Query RoutingTable

namespace RoutingTable

/-- C2. `RoutingTable::merge` preserves the table invariant: when the entries of this table and
of `other` are sorted under `entry_t::operator<` with pairwise distinct keys, then for every
parent interface the entries of this table after the call are again sorted with pairwise distinct
keys, and none of the assertions of `merge` fails. -/
theorem merge_preserves_sorted_unique (llt : label_t → label_t → Bool) (hl : label_order llt)
    (this other : RoutingTable) (parent : Interface_ptr)
    (hs1 : is_sorted llt this._entries = true) (hd1 : distinct_keys this._entries)
    (hs2 : is_sorted llt other._entries = true) (hd2 : distinct_keys other._entries) :
    is_sorted llt (merge llt this other parent).table._entries = true ∧
      distinct_keys (merge llt this other parent).table._entries ∧
      (merge llt this other parent).asserts = true := by
  have hinv : merge_inv llt other._entries [] this._entries :=
    ⟨strict_of_sorted_distinct hl hs1 hd1, strict_of_sorted_distinct hl hs2 hd2,
      fun p hp => by cases hp⟩
  have h := merge_loop_strict hl this._name parent other._entries [] this._entries true []
    (is_sorted llt other._entries && is_sorted llt this._entries) hinv
  refine ⟨sorted_of_strict hl h.1, distinct_of_strict hl h.1, ?_⟩
  unfold merge
  rw [h.2, hs1, hs2]; rfl

/-- Witness for C2: `demo_other` merged into `demo_this` for the interface at address 5. -/
theorem merge_preserves_sorted_unique_witness :
    (is_sorted label_lex demo_this._entries = true ∧ distinct_keys demo_this._entries ∧
      is_sorted label_lex demo_other._entries = true ∧ distinct_keys demo_other._entries) ∧
    (is_sorted label_lex (merge label_lex demo_this demo_other 5).table._entries = true ∧
      distinct_keys (merge label_lex demo_this demo_other 5).table._entries ∧
      (merge label_lex demo_this demo_other 5).asserts = true) :=
  ⟨⟨by decide, by unfold distinct_keys; decide, by decide, by unfold distinct_keys; decide⟩,
    merge_preserves_sorted_unique label_lex label_lex_order demo_this demo_other 5
      (by decide) (by unfold distinct_keys; decide) (by decide) (by unfold distinct_keys; decide)⟩

/-- C1. For tables that are sorted with pairwise distinct keys, the top labels of `other` being
pushdown labels (not of type `INTERFACE` or `NONE`, which `print_label` asserts never to meet):
`merge` returns, and for every entry `e` of `other` whose ingress is unset or equal to `parent`
and every entry `i` of this table with the same key, if `e` and `i` each hold exactly one rule,
of the same kind, and that kind is not MPLS, then `i` is in the table unchanged, and otherwise
the entry in its place holds the rules of `i` followed by those of `e`; and the warnings written
are exactly one overlap line for each entry of `other` in a collision of the second sort, in the
order of `other`, and nothing else. -/
theorem merge_collision (llt : label_t → label_t → Bool) (hl : label_order llt)
    (this other : RoutingTable) (parent : Interface_ptr)
    (hs1 : is_sorted llt this._entries = true) (hd1 : distinct_keys this._entries)
    (hs2 : is_sorted llt other._entries = true) (hd2 : distinct_keys other._entries)
    (hp : ∀ e ∈ other._entries, e._top_label._type ≠ Query.type_t.INTERFACE ∧
      e._top_label._type ≠ Query.type_t.NONE) :
    ∃ b, (merge llt this other parent).ret = .ok b ∧
      (∀ i ∈ this._entries, ∀ e ∈ other._entries,
        foreign parent e = false → entry_t.eq i e = true →
          (silent e i = true → i ∈ (merge llt this other parent).table._entries) ∧
          (silent e i = false →
            { i with _rules := i._rules ++ e._rules } ∈
              (merge llt this other parent).table._entries)) ∧
      (merge llt this other parent).warnings =
        (other._entries.filter (fun e => !foreign parent e &&
            this._entries.any (fun i => entry_t.eq i e && !silent e i))).map
          (fun e => warning_t.overlap e._top_label parent) := by
  have hinv : merge_inv llt other._entries [] this._entries :=
    ⟨strict_of_sorted_distinct hl hs1 hd1, strict_of_sorted_distinct hl hs2 hd2,
      fun p hp => by cases hp⟩
  obtain ⟨b, hret0⟩ := merge_loop_returns llt this._name parent other._entries []
    this._entries true [] (is_sorted llt other._entries && is_sorted llt this._entries) hp
  have hret : (merge llt this other parent).ret = .ok b := hret0
  refine ⟨b, hret, ?_, ?_⟩
  · intro i hi e he hf heq
    have h := merge_loop_entries hl this._name parent b other._entries [] this._entries true []
      (is_sorted llt other._entries && is_sorted llt this._entries) hinv hret i hi
    rw [merged_entry_of_mem hl parent i e hf heq hinv.2.1 he] at h
    constructor
    · intro hsil
      simpa [collide, hsil] using h
    · intro hsil
      simpa [collide, hsil] using h
  · have h := (merge_loop_warnings hl this._name parent b other._entries [] this._entries true []
      (is_sorted llt other._entries && is_sorted llt this._entries) hinv hret).1
    simpa [overlapping] using h

/-- Witness for C1: `demo_other` merged into `demo_this` for the interface at address 5. The
entry for label 11 collides and takes the rule of `other` after its own, the entry for label 13
collides silently, and one warning is written. -/
theorem merge_collision_witness :
    ∃ b, (merge label_lex demo_this demo_other 5).ret = .ok b ∧
      demo_entry 0 11 [demo_swap 21 7, demo_swap 31 8] ∈
        (merge label_lex demo_this demo_other 5).table._entries ∧
      demo_entry 0 13 [demo_discard] ∈ (merge label_lex demo_this demo_other 5).table._entries ∧
      (merge label_lex demo_this demo_other 5).warnings =
        [warning_t.overlap ⟨Query.type_t.MPLS, 0, 11⟩ 5] := by
  obtain ⟨b, h1, h2, h3⟩ := merge_collision label_lex label_lex_order demo_this demo_other 5
    (by decide) (by unfold distinct_keys; decide) (by decide)
    (by unfold distinct_keys; decide) (by decide)
  exact ⟨b, h1,
    (h2 (demo_entry 0 11 [demo_swap 21 7]) (by decide) (demo_entry 0 11 [demo_swap 31 8])
      (by decide) (by decide) (by decide)).2 (by decide),
    (h2 (demo_entry 0 13 [demo_discard]) (by decide) (demo_entry 0 13 [demo_discard])
      (by decide) (by decide) (by decide)).1 (by decide),
    h3.trans (by decide)⟩

/-- C10, as stated, fails: an entry of `other` bound to another interface than `parent` is
skipped, so its key is a key of `other` and not of the merged table. -/
theorem merge_keys_counterexample :
    is_sorted label_lex [demo_entry 5 11 [demo_swap 22 7]] = true ∧
    is_sorted label_lex [demo_entry 3 1 [demo_swap 33 8]] = true ∧
    key (demo_entry 3 1 [demo_swap 33 8]) ∈ [demo_entry 3 1 [demo_swap 33 8]].map key ∧
    key (demo_entry 3 1 [demo_swap 33 8]) ∉
      (merge label_lex ⟨"this", [demo_entry 5 11 [demo_swap 22 7]]⟩
        ⟨"other", [demo_entry 3 1 [demo_swap 33 8]]⟩ 5).table._entries.map key := by
  refine ⟨by decide, by decide, by decide, by decide⟩

/-- C10 (amended). For every pair of routing tables and every parent interface: `merge` returns
when no top label of `other` has type `INTERFACE` or `NONE`; and whenever it returns, the keys of
this table after the call include every key it had before and the key of every entry of `other`
whose ingress is unset or equal to `parent`, and each of them is a key this table had before or a
key of `other`. -/
theorem merge_keys (llt : label_t → label_t → Bool) (this other : RoutingTable)
    (parent : Interface_ptr) :
    ((∀ e ∈ other._entries, e._top_label._type ≠ Query.type_t.INTERFACE ∧
        e._top_label._type ≠ Query.type_t.NONE) →
      ∃ b, (merge llt this other parent).ret = .ok b) ∧
    (∀ b, (merge llt this other parent).ret = .ok b →
      (∀ k ∈ this._entries.map key, k ∈ (merge llt this other parent).table._entries.map key) ∧
      (∀ e ∈ other._entries, (e._ingoing = nullptr ∨ e._ingoing = parent) →
        key e ∈ (merge llt this other parent).table._entries.map key) ∧
      (∀ k ∈ (merge llt this other parent).table._entries.map key,
        k ∈ this._entries.map key ∨ k ∈ other._entries.map key)) := by
  refine ⟨fun hlab => merge_loop_returns llt this._name parent other._entries [] this._entries
    true [] _ hlab, ?_⟩
  intro b hret
  obtain ⟨h1, h2, h3⟩ := merge_loop_keys llt this._name parent other._entries [] this._entries
    true [] (is_sorted llt other._entries && is_sorted llt this._entries)
  refine ⟨?_, ?_, ?_⟩
  · intro k hk
    obtain ⟨x, hx, hxk⟩ := List.mem_map.mp hk
    rw [← hxk]
    exact h1 x hx
  · intro e he hing
    apply h2 b hret e he
    unfold foreign
    rcases hing with h | h <;> simp [h]
  · intro k hk
    obtain ⟨r, hr, hrk⟩ := List.mem_map.mp hk
    rw [← hrk]
    exact h3 r hr

/-- Witness for C10 (amended): `demo_other` merged into `demo_this` for the interface at
address 5. The call returns; the key of the entry of `other` for label 12 is in the table, and
every key of the table is a key of one of the two tables. -/
theorem merge_keys_witness :
    (merge label_lex demo_this demo_other 5).ret = .ok false ∧
    key (demo_entry 0 12 [demo_swap 32 8]) ∈
      (merge label_lex demo_this demo_other 5).table._entries.map key ∧
    (∀ k ∈ (merge label_lex demo_this demo_other 5).table._entries.map key,
      k ∈ demo_this._entries.map key ∨ k ∈ demo_other._entries.map key) :=
  have h := (merge_keys label_lex demo_this demo_other 5).2 false rfl
  ⟨rfl, h.2.1 (demo_entry 0 12 [demo_swap 32 8]) (by decide) (Or.inl rfl), h.2.2⟩

end RoutingTable
end mpls2pda

/-! ## `RoutingTable::parse`: the table returned is sorted, with distinct keys -/

namespace mpls2pda
open Query
namespace RoutingTable

/-- Not being greater is transitive for a total order. -/
theorem entry_le_trans {llt : label_t → label_t → Bool} (hl : label_order llt) {a b c : entry_t}
    (hab : entry_t.lt llt b a = false) (hbc : entry_t.lt llt c b = false) :
    entry_t.lt llt c a = false := by
  by_contra h
  have hca : entry_t.lt llt c a = true := by simpa using h
  cases hk : entry_t.eq a b with
  | true =>
    rw [eq_iff_key] at hk
    rw [entry_lt_congr llt rfl hk, hbc] at hca
    exact Bool.noConfusion hca
  | false =>
    have hab1 : entry_t.lt llt a b = true := entry_lt_total hl hab (by rw [eq_comm_entry]; exact hk)
    have := entry_lt_trans hl hca hab1
    rw [hbc] at this
    exact Bool.noConfusion this

/-- The adjacent test of `std::is_sorted` amounts to the pairwise one. -/
theorem is_sorted_iff_pairwise {llt : label_t → label_t → Bool} (hl : label_order llt) :
    ∀ l : List entry_t,
      is_sorted llt l = true ↔ l.Pairwise (fun a b => entry_t.lt llt b a = false)
  | [] => by simp [is_sorted]
  | [_] => by simp [is_sorted]
  | a :: b :: rest => by
    have ih := is_sorted_iff_pairwise hl (b :: rest)
    simp only [is_sorted, Bool.and_eq_true, Bool.not_eq_true']
    rw [ih]
    constructor
    · rintro ⟨hab, hp⟩
      refine List.pairwise_cons.mpr ⟨?_, hp⟩
      intro x hx
      rcases List.mem_cons.mp hx with rfl | hx
      · exact hab
      · exact entry_le_trans hl hab ((List.pairwise_cons.mp hp).1 x hx)
    · intro hp
      have h1 := List.pairwise_cons.mp hp
      exact ⟨h1.1 b (List.mem_cons_self _ _), h1.2⟩

theorem mem_insert_sorted (llt : label_t → label_t → Bool) (e x : entry_t) :
    ∀ l : List entry_t, x ∈ insert_sorted llt e l ↔ x = e ∨ x ∈ l
  | [] => by simp [insert_sorted]
  | y :: ys => by
    unfold insert_sorted
    split_ifs
    · simp
    · simp only [List.mem_cons, mem_insert_sorted llt e x ys]
      tauto

theorem pairwise_insert_sorted {llt : label_t → label_t → Bool} (hl : label_order llt)
    (e : entry_t) :
    ∀ l : List entry_t, l.Pairwise (fun a b => entry_t.lt llt b a = false) →
      (insert_sorted llt e l).Pairwise (fun a b => entry_t.lt llt b a = false)
  | [], _ => by simp [insert_sorted]
  | y :: ys, h => by
    have h1 := List.pairwise_cons.mp h
    unfold insert_sorted
    split_ifs with hlt
    · refine List.pairwise_cons.mpr ⟨?_, h⟩
      intro x hx
      have hye : entry_t.lt llt y e = false := entry_lt_asymm hl hlt
      rcases List.mem_cons.mp hx with rfl | hx
      · exact hye
      · exact entry_le_trans hl hye (h1.1 x hx)
    · refine List.pairwise_cons.mpr ⟨?_, pairwise_insert_sorted hl e ys h1.2⟩
      intro x hx
      rcases (mem_insert_sorted llt e x ys).mp hx with rfl | hx
      · simpa using hlt
      · exact h1.1 x hx

theorem perm_insert_sorted (llt : label_t → label_t → Bool) (e : entry_t) :
    ∀ l : List entry_t, (insert_sorted llt e l).Perm (e :: l)
  | [] => List.Perm.refl _
  | y :: ys => by
    unfold insert_sorted
    split_ifs
    · exact List.Perm.refl _
    · exact ((perm_insert_sorted llt e ys).cons y).trans (List.Perm.swap e y ys)

theorem perm_sort (llt : label_t → label_t → Bool) : ∀ l : List entry_t, (sort llt l).Perm l
  | [] => List.Perm.refl _
  | e :: es => (perm_insert_sorted llt e (sort llt es)).trans ((perm_sort llt es).cons e)

theorem sorted_sort {llt : label_t → label_t → Bool} (hl : label_order llt) :
    ∀ l : List entry_t, is_sorted llt (sort llt l) = true
  | [] => rfl
  | e :: es => by
    rw [is_sorted_iff_pairwise hl]
    exact pairwise_insert_sorted hl e _ ((is_sorted_iff_pairwise hl _).mp (sorted_sort hl es))

/-- A sorted list without equal neighbours is strictly sorted. -/
theorem strict_of_sorted_neighbours {llt : label_t → label_t → Bool} (hl : label_order llt) :
    ∀ {l : List entry_t}, is_sorted llt l = true → some_equal_neighbours l = false →
      strict llt l
  | [], _, _ => List.Pairwise.nil
  | [_], _, _ => List.pairwise_singleton _ _
  | a :: b :: rest, hs, hn => by
    simp only [is_sorted, Bool.and_eq_true, Bool.not_eq_true'] at hs
    simp only [some_equal_neighbours, Bool.or_eq_false_iff] at hn
    have ih : strict llt (b :: rest) := strict_of_sorted_neighbours hl hs.2 hn.2
    have hab : entry_t.lt llt a b = true :=
      entry_lt_total hl hs.1 (by rw [eq_comm_entry]; exact hn.1)
    refine List.pairwise_cons.mpr ⟨?_, ih⟩
    intro x hx
    rcases List.mem_cons.mp hx with rfl | hx
    · exact hab
    · exact entry_lt_trans hl hab ((List.pairwise_cons.mp ih).1 x hx)

/-- Entries of which two have equal keys come out of the sort with two equal neighbours. -/
theorem neighbours_of_not_distinct {llt : label_t → label_t → Bool} (hl : label_order llt)
    {es : List entry_t} (h : ¬ distinct_keys es) : some_equal_neighbours (sort llt es) = true := by
  by_contra hn
  have hn1 : some_equal_neighbours (sort llt es) = false := by simpa using hn
  have hd := distinct_of_strict hl (strict_of_sorted_neighbours hl (sorted_sort hl es) hn1)
  apply h
  unfold distinct_keys at hd ⊢
  have hsymm : ∀ {a b : entry_t}, entry_t.eq a b = false → entry_t.eq b a = false := by
    intro a b hab; rw [eq_comm_entry]; exact hab
  exact ((perm_sort llt es).pairwise_iff hsymm).mp hd

/-- C3, as stated, fails: in `demo_node_clash` two rt-entries yield equal keys, and `parse`
fails with the error for an entry without `<nh>`, raised at the third rt-entry before the
entries are sorted and compared, not with the nondeterministic-routing-table error. -/
theorem parse_nondeterministic_counterexample :
    (∃ e1 e2,
      parse_entry demo_decls demo_router [] false (demo_rt_entry "17" "discard")
        = .ok (some e1, []) ∧
      parse_entry demo_decls demo_router [] false (demo_rt_entry "17" "discard")
        = .ok (some e2, []) ∧
      entry_t.eq e1 e2 = true) ∧
    parse label_lex demo_decls (some demo_node_clash) [] demo_router false =
      .error (fault.throws base_error.no_nh) :=
  ⟨⟨_, _, rfl, rfl, rfl⟩, rfl⟩

/-- C3 (amended). Whenever `parse` returns a table, the entries of the table are sorted under
`entry_t::operator<` and no two of them have equal keys. An input with two rt-entries, not
`default`, that yield equal keys makes `parse` fail: with the nondeterministic-routing-table
error when the address family is absent or `MPLS` and every rt-entry is read without error, and
otherwise with the error that is met first. -/
theorem parse_sorted_unique (llt : label_t → label_t → Bool) (hl : label_order llt) (D : decls)
    (node : Option rt_node) (indirect : List (String × String × String)) (parent : Router)
    (skip_pfe : Bool) :
    (∀ T w, parse llt D node indirect parent skip_pfe = .ok (T, w) →
      is_sorted llt T._entries = true ∧ distinct_keys T._entries) ∧
    (∀ rt es w, node = some rt →
      (rt.address_family = none ∨ rt.address_family = some "MPLS") →
      parse_entries D parent indirect skip_pfe rt.rt_entry = .ok (es, w) →
      ¬ distinct_keys es →
      parse llt D node indirect parent skip_pfe =
        .error (fault.throws base_error.nondeterministic)) ∧
    (∀ rt, node = some rt →
      ¬ (rt.address_family = none ∨ rt.address_family = some "MPLS") →
      parse llt D node indirect parent skip_pfe =
        .error (fault.throws base_error.not_mpls_address_family)) ∧
    (∀ rt f, node = some rt →
      (rt.address_family = none ∨ rt.address_family = some "MPLS") →
      parse_entries D parent indirect skip_pfe rt.rt_entry = .error f →
      parse llt D node indirect parent skip_pfe = .error f) := by
  have hfam : ∀ rt : rt_node, (rt.address_family = none ∨ rt.address_family = some "MPLS") →
      ¬ (rt.address_family.isSome = true ∧ rt.address_family ≠ some "MPLS") := by
    intro rt h
    rcases h with h | h <;> simp [h]
  refine ⟨?_, ?_, ?_, ?_⟩
  · intro T w h
    cases node with
    | none =>
      simp only [parse, Except.ok.injEq, Prod.mk.injEq] at h
      rw [← h.1]
      exact ⟨rfl, List.Pairwise.nil⟩
    | some rt =>
      simp only [parse] at h
      split_ifs at h with h1 h2
      split at h
      · cases h
      · rename_i es w1 hes
        split_ifs at h with h3
        simp only [Except.ok.injEq, Prod.mk.injEq] at h
        rw [← h.1]
        have hn : some_equal_neighbours (sort llt es) = false := by simpa using h3
        have hst := strict_of_sorted_neighbours hl (sorted_sort hl es) hn
        exact ⟨sorted_sort hl es, distinct_of_strict hl hst⟩
  · intro rt es w hnode hf hes hd
    subst hnode
    have hne : rt.rt_entry ≠ [] := by
      intro h0
      rw [h0] at hes
      simp only [parse_entries, Except.ok.injEq, Prod.mk.injEq] at hes
      apply hd
      rw [← hes.1]
      exact List.Pairwise.nil
    simp only [parse, if_neg (hfam rt hf), if_neg hne, hes,
      neighbours_of_not_distinct hl hd, if_true]
  · intro rt hnode hf
    subst hnode
    have : rt.address_family.isSome = true ∧ rt.address_family ≠ some "MPLS" := by
      cases h : rt.address_family with
      | none => exact absurd (Or.inl h) hf
      | some v => exact ⟨rfl, fun hv => hf (Or.inr (by rw [h, hv]))⟩
    simp only [parse, if_pos this]
  · intro rt f hnode hf hes
    subst hnode
    have hne : rt.rt_entry ≠ [] := by
      intro h0
      rw [h0] at hes
      simp [parse_entries] at hes
    simp only [parse, if_neg (hfam rt hf), if_neg hne, hes]

/-- Witness for C3 (amended): `demo_node` is parsed into a table of three entries, sorted and
with distinct keys. -/
theorem parse_sorted_unique_witness :
    ∃ T w, parse label_lex demo_decls (some demo_node) [] demo_router false = .ok (T, w) ∧
      T._entries.length = 3 ∧
      is_sorted label_lex T._entries = true ∧ distinct_keys T._entries :=
  ⟨_, _, rfl, rfl,
    (parse_sorted_unique label_lex label_lex_order demo_decls (some demo_node) [] demo_router
      false).1 _ _ rfl⟩

end RoutingTable
end mpls2pda

/-! ## `forward_t::parse_ops` on the canonical rendering -/

namespace mpls2pda
open Query
namespace RoutingTable

theorem digitChar_isDigit (k : Nat) (hk : k < 10) :
    (Nat.digitChar k).isDigit = true ∧ (Nat.digitChar k).toNat - '0'.toNat = k := by
  interval_cases k <;> exact ⟨by decide, by decide⟩

/-- The digits written by `Nat.toDigitsCore`, read back. -/
theorem toDigitsCore_spec :
    ∀ (fuel n : Nat) (ds : List Char), n < fuel → (∀ c ∈ ds, c.isDigit = true) →
      (∀ c ∈ Nat.toDigitsCore 10 fuel n ds, c.isDigit = true) ∧
      Nat.toDigitsCore 10 fuel n ds ≠ [] ∧
      (Nat.toDigitsCore 10 fuel n ds).foldl (fun v c => 10 * v + (c.toNat - '0'.toNat)) 0 =
        ds.foldl (fun v c => 10 * v + (c.toNat - '0'.toNat)) n
  | 0, n, ds, h, _ => by omega
  | fuel + 1, n, ds, h, hds => by
    have hd := digitChar_isDigit (n % 10) (Nat.mod_lt _ (by decide))
    have hds1 : ∀ c ∈ Nat.digitChar (n % 10) :: ds, c.isDigit = true := by
      intro c hc
      rcases List.mem_cons.mp hc with rfl | hc
      · exact hd.1
      · exact hds c hc
    rw [Nat.toDigitsCore]
    by_cases h0 : n / 10 = 0
    · simp only [h0, if_true]
      refine ⟨hds1, by simp, ?_⟩
      rw [List.foldl_cons, hd.2]
      have : n % 10 = n := Nat.mod_eq_of_lt (by omega)
      simp [this]
    · simp only [h0, if_false]
      have ih := toDigitsCore_spec fuel (n / 10) (Nat.digitChar (n % 10) :: ds) (by omega) hds1
      refine ⟨ih.1, ih.2.1, ?_⟩
      rw [ih.2.2, List.foldl_cons, hd.2]
      have : 10 * (n / 10) + n % 10 = n := Nat.div_add_mod n 10
      rw [this]

/-- The decimal rendering of `n` is a non-empty string of digits whose value is `n`. -/
theorem toDigits_spec (n : Nat) :
    (∀ c ∈ Nat.toDigits 10 n, c.isDigit = true) ∧ Nat.toDigits 10 n ≠ [] ∧
      digits_value (Nat.toDigits 10 n) = n := by
  have h := toDigitsCore_spec (n + 1) n [] (by omega) (by intro c hc; cases hc)
  exact ⟨h.1, h.2.1, by simpa [digits_value, Nat.toDigits] using h.2.2⟩

theorem atoi_u64_small {ds : List Char} {n : Nat} (h : digits_value ds = n) (hn : n < 2 ^ 31) :
    atoi_u64 ds = n := by
  unfold atoi_u64
  rw [h]
  have h1 : min n (2 ^ 63 - 1) = n := Nat.min_eq_left (by omega)
  have h2 : n % 2 ^ 32 = n := Nat.mod_eq_of_lt (by omega)
  simp only [h1, h2, if_pos hn]

theorem takeWhile_digits (ds r : List Char) (hds : ∀ c ∈ ds, c.isDigit = true)
    (hr : no_digit_ahead r) :
    (ds ++ r).takeWhile Char.isDigit = ds ∧ (ds ++ r).dropWhile Char.isDigit = r := by
  induction ds with
  | nil =>
    cases r with
    | nil => simp
    | cons c r =>
      have : c.isDigit = false := hr c (by simp)
      simp [List.takeWhile_cons, List.dropWhile_cons, this]
  | cons a ds ih =>
    have ha : a.isDigit = true := hds a (List.mem_cons_self _ _)
    have := ih (fun c hc => hds c (List.mem_cons_of_mem _ hc))
    simp [List.takeWhile_cons, List.dropWhile_cons, ha, this]

theorem sep_no_digit {r : List Char} (h : seps r) : no_digit_ahead r := by
  intro c hc
  cases r with
  | nil => simp at hc
  | cons a r =>
    simp only [List.head?_cons, Option.mem_def, Option.some.injEq] at hc
    subst hc
    rcases h a (List.mem_cons_self _ _) with h | h <;> rw [h] <;> decide

theorem seps_drop {r : List Char} (h : seps r) (k : Nat) : seps (r.drop k) :=
  fun c hc => h c (List.mem_of_mem_drop hc)

/-- The loop skips spaces and commas. -/
theorem loop_seps (d : action_t) :
    ∀ (pre : List Char) (fuel : Nat) (r : List Char) (done : List action_t), seps pre →
      parse_ops_loop d (fuel + pre.length) (pre ++ r) done = parse_ops_loop d fuel r done
  | [], fuel, r, done, _ => rfl
  | c :: pre, fuel, r, done, h => by
    have ih := loop_seps d pre fuel r done (fun x hx => h x (List.mem_cons_of_mem _ hx))
    have hc := h c (List.mem_cons_self _ _)
    rw [List.length_cons, ← Nat.add_assoc, List.cons_append, parse_ops_loop]
    rcases hc with hc | hc
    · rw [if_pos hc]; exact ih
    · have : ¬ c = ' ' := by rw [hc]; decide
      rw [if_neg this, if_pos hc]; exact ih

/-- One pass of the loop over `Swap` or `Push` followed by a space and a string of digits. -/
theorem loop_label (d : action_t) (fuel : Nat) (ds r : List Char) (done : List action_t)
    (hne : ds ≠ []) (hds : ∀ c ∈ ds, c.isDigit = true) (hr : no_digit_ahead r) :
    parse_ops_loop d (fuel + 1) ("Swap ".toList ++ ds ++ r) done =
        parse_ops_loop d fuel (r.drop 1) (done ++ [⟨op_t.SWAP, { d._op_label with
          _type := Query.type_t.MPLS, _value := atoi_u64 ds }⟩]) ∧
      parse_ops_loop d (fuel + 1) ("Push ".toList ++ ds ++ r) done =
        parse_ops_loop d fuel (r.drop 1) (done ++ [⟨op_t.PUSH, { d._op_label with
          _type := Query.type_t.MPLS, _value := atoi_u64 ds }⟩]) := by
  obtain ⟨c1, ds1, rfl⟩ := List.exists_cons_of_ne_nil hne
  have hc1 : c1.isDigit = true := hds c1 (List.mem_cons_self _ _)
  have hsp : ¬ c1 = ' ' := by
    intro h; rw [h] at hc1; exact absurd hc1 (by decide)
  have htd := takeWhile_digits (c1 :: ds1) r hds hr
  rw [List.cons_append] at htd
  constructor
  · simp only [String.toList, List.cons_append, List.nil_append, parse_ops_loop]
    simp [keyword, hsp, hc1, htd.1, htd.2, List.dropWhile_cons]
  · simp only [String.toList, List.cons_append, List.nil_append, parse_ops_loop]
    simp [keyword, hsp, hc1, htd.1, htd.2, List.dropWhile_cons]

/-- One pass of the loop over `Pop`. -/
theorem loop_pop (d : action_t) (fuel : Nat) (r : List Char) (done : List action_t) :
    parse_ops_loop d (fuel + 1) ("Pop".toList ++ r) done =
      parse_ops_loop d fuel r (done ++ [{ d with _op := op_t.POP }]) := by
  simp [String.toList, parse_ops_loop]

/-- What follows a rendered operation is, up to separators, the rendering of the operations that
follow it; so is what follows once its first character is dropped. -/
theorem rest_shape (os : List op_spec) (tail : List Char) (ht : seps tail) :
    no_digit_ahead (render_rest os ++ tail) ∧
    (∃ pre1, seps pre1 ∧ render_rest os ++ tail = pre1 ++ render_ops os ++ tail) ∧
    (∃ pre1 tail1, seps pre1 ∧ seps tail1 ∧
      (render_rest os ++ tail).drop 1 = pre1 ++ render_ops os ++ tail1) := by
  cases os with
  | nil =>
    refine ⟨sep_no_digit ht, ⟨[], (by intro c hc; cases hc), rfl⟩,
      ⟨[], tail.drop 1, (by intro c hc; cases hc), seps_drop ht 1, rfl⟩⟩
  | cons o os =>
    refine ⟨?_, ⟨", ".toList, ?_, ?_⟩, ⟨" ".toList, tail, ?_, ht, ?_⟩⟩
    · intro c hc
      simp only [render_rest, String.toList, List.cons_append, List.head?_cons, Option.mem_def,
        Option.some.injEq] at hc
      subst hc; decide
    · intro c hc
      simp only [String.toList, List.mem_cons, List.mem_singleton] at hc
      rcases hc with hc | hc | hc
      · exact Or.inr hc
      · exact Or.inl hc
      · cases hc
    · simp [render_rest, render_ops, List.append_assoc]
    · intro c hc
      simp only [String.toList, List.mem_cons, List.mem_singleton] at hc
      rcases hc with hc | hc
      · exact Or.inl hc
      · cases hc
    · simp [render_rest, render_ops, String.toList, List.append_assoc]

/-- The loop of `parse_ops` on a canonical rendering, between separators. -/
theorem loop_render (d : action_t) :
    ∀ (os : List op_spec) (fuel : Nat) (done : List action_t) (pre tail : List Char),
      seps pre → seps tail →
      (∀ n, (op_spec.SWAP n ∈ os ∨ op_spec.PUSH n ∈ os) → n < 2 ^ 31) →
      (pre ++ render_ops os ++ tail).length ≤ fuel →
      parse_ops_loop d fuel (pre ++ render_ops os ++ tail) done =
        .ok (done ++ os.map (action_of d))
  | [], fuel, done, pre, tail, hp, ht, _, hf => by
    have hs : seps (pre ++ tail) := by
      intro c hc
      rcases List.mem_append.mp hc with hc | hc
      · exact hp c hc
      · exact ht c hc
    have h := loop_seps d (pre ++ tail) (fuel - (pre ++ tail).length) [] done hs
    simp only [render_ops, List.append_nil] at hf ⊢
    rw [List.append_nil, Nat.sub_add_cancel hf] at h
    rw [h, parse_ops_loop]
    simp
  | o :: os, fuel, done, pre, tail, hp, ht, hb, hf => by
    have hb1 : ∀ n, (op_spec.SWAP n ∈ os ∨ op_spec.PUSH n ∈ os) → n < 2 ^ 31 := by
      intro n hn
      apply hb n
      rcases hn with hn | hn
      · exact Or.inl (List.mem_cons_of_mem _ hn)
      · exact Or.inr (List.mem_cons_of_mem _ hn)
    obtain ⟨hnd, ⟨pre1, hp1, hs1⟩, ⟨pre2, tail2, hp2, ht2, hs2⟩⟩ := rest_shape os tail ht
    have hlen : (pre ++ render_ops (o :: os) ++ tail).length =
        (render_op o).length + ((render_rest os).length + tail.length) + pre.length := by
      simp [render_ops]; omega
    have hdrop : ((render_rest os ++ tail).drop 1).length ≤
        (render_rest os).length + tail.length := by
      rw [List.length_drop, List.length_append]; omega
    rw [hlen] at hf
    have hstr : pre ++ render_ops (o :: os) ++ tail =
        pre ++ (render_op o ++ (render_rest os ++ tail)) := by
      simp [render_ops, List.append_assoc]
    cases o with
    | SWAP n =>
      obtain ⟨hd1, hd2, hd3⟩ := toDigits_spec n
      have hl : 1 ≤ (render_op (op_spec.SWAP n)).length := by simp [render_op, String.toList]
      obtain ⟨f2, hf2⟩ : ∃ f2, fuel = f2 + 1 + pre.length := ⟨fuel - 1 - pre.length, by omega⟩
      rw [hstr, hf2, loop_seps d pre (f2 + 1) _ done hp, render_op, List.append_assoc,
        ← List.append_assoc, (loop_label d f2 _ _ done hd2 hd1 hnd).1,
        atoi_u64_small hd3 (hb n (Or.inl (List.mem_cons_self _ _))), hs2,
        loop_render d os f2 _ pre2 tail2 hp2 ht2 hb1 (by
          rw [← hs2]
          simp only [render_op, String.toList, List.length_append, List.length_cons,
            List.length_nil] at hf
          omega)]
      simp [action_of]
    | PUSH n =>
      obtain ⟨hd1, hd2, hd3⟩ := toDigits_spec n
      have hl : 1 ≤ (render_op (op_spec.PUSH n)).length := by simp [render_op, String.toList]
      obtain ⟨f2, hf2⟩ : ∃ f2, fuel = f2 + 1 + pre.length := ⟨fuel - 1 - pre.length, by omega⟩
      rw [hstr, hf2, loop_seps d pre (f2 + 1) _ done hp, render_op, List.append_assoc,
        ← List.append_assoc, (loop_label d f2 _ _ done hd2 hd1 hnd).2,
        atoi_u64_small hd3 (hb n (Or.inr (List.mem_cons_self _ _))), hs2,
        loop_render d os f2 _ pre2 tail2 hp2 ht2 hb1 (by
          rw [← hs2]
          simp only [render_op, String.toList, List.length_append, List.length_cons,
            List.length_nil] at hf
          omega)]
      simp [action_of]
    | POP =>
      have hl : 1 ≤ (render_op op_spec.POP).length := by simp [render_op, String.toList]
      obtain ⟨f2, hf2⟩ : ∃ f2, fuel = f2 + 1 + pre.length := ⟨fuel - 1 - pre.length, by omega⟩
      rw [hstr, hf2, loop_seps d pre (f2 + 1) _ done hp, render_op, loop_pop, hs1,
        loop_render d os f2 _ pre1 tail hp1 ht hb1 (by
          rw [← hs1, List.length_append]
          simp only [render_op, String.toList, List.length_cons, List.length_nil] at hf
          omega)]
      simp [action_of]

/-- In front of a string without an opening parenthesis, `(top)` is found where it is found
behind it. -/
theorem find_top_append :
    ∀ (s t : List Char), (∀ c ∈ s, c ≠ '(') →
      find "(top)".toList (s ++ t) = (find "(top)".toList t).map (· + s.length)
  | [], t, _ => by simp
  | c :: s, t, h => by
    have hc : c ≠ '(' := h c (List.mem_cons_self _ _)
    have hc1 : ('(' == c) = false := by
      rw [beq_eq_false_iff_ne]; exact fun h1 => hc h1.symm
    have ih := find_top_append s t (fun x hx => h x (List.mem_cons_of_mem _ hx))
    rw [List.cons_append, find]
    have hp : ("(top)".toList).isPrefixOf (c :: (s ++ t)) = false := by
      simp [String.toList, List.isPrefixOf, hc1]
    rw [hp, ih]
    simp [Option.map_map, Function.comp_def, Nat.add_assoc]

theorem render_no_paren : ∀ (os : List op_spec),
    (∀ c ∈ render_rest os, c ≠ '(') ∧ (∀ c ∈ render_ops os, c ≠ '(') := by
  have hdig : ∀ n, ∀ c ∈ Nat.toDigits 10 n, c ≠ '(' := by
    intro n c hc h
    have := (toDigits_spec n).1 c hc
    rw [h] at this
    exact absurd this (by decide)
  have hop : ∀ o, ∀ c ∈ render_op o, c ≠ '(' := by
    intro o c hc
    cases o with
    | SWAP n =>
      rcases List.mem_append.mp hc with hc | hc
      · simp only [String.toList, List.mem_cons, List.mem_singleton] at hc
        rcases hc with h | h | h | h | h | h <;> first | (rw [h]; decide) | cases h
      · exact hdig n c hc
    | PUSH n =>
      rcases List.mem_append.mp hc with hc | hc
      · simp only [String.toList, List.mem_cons, List.mem_singleton] at hc
        rcases hc with h | h | h | h | h | h <;> first | (rw [h]; decide) | cases h
      · exact hdig n c hc
    | POP =>
      simp only [render_op, String.toList, List.mem_cons, List.mem_singleton] at hc
      rcases hc with h | h | h | h <;> first | (rw [h]; decide) | cases h
  have hrest : ∀ os, ∀ c ∈ render_rest os, c ≠ '(' := by
    intro os
    induction os with
    | nil => intro c hc; cases hc
    | cons o os ih =>
      intro c hc
      rcases List.mem_append.mp hc with hc | hc
      · rcases List.mem_append.mp hc with hc | hc
        · simp only [String.toList, List.mem_cons, List.mem_singleton] at hc
          rcases hc with h | h | h <;> first | (rw [h]; decide) | cases h
        · exact hop o c hc
      · exact ih c hc
  intro os
  refine ⟨hrest os, ?_⟩
  cases os with
  | nil => intro c hc; cases hc
  | cons o os =>
    intro c hc
    rcases List.mem_append.mp hc with hc | hc
    · exact hop o c hc
    · exact hrest os c hc

/-- The rendering of a list of operations is the renderings of the operations joined with a
comma and a space. -/
theorem render_ops_intercalate :
    ∀ os : List op_spec, render_ops os = List.intercalate ", ".toList (os.map render_op)
  | [] => rfl
  | [o] => by simp [render_ops, render_rest, List.intercalate, List.intersperse]
  | o :: o1 :: os => by
    have ih := render_ops_intercalate (o1 :: os)
    simp only [List.map_cons] at ih
    simp only [List.map_cons, List.intercalate, List.intersperse, List.flatten_cons]
    simp only [List.intercalate] at ih
    rw [← ih]
    simp [render_ops, render_rest, List.append_assoc]

/-- C4. `parse_ops` inverts the canonical rendering of a list of operations: for every finite
sequence of operations `SWAP(n)`, `PUSH(n)`, `POP` with every `n` below `2 ^ 31`, parsing the
rendering (each operation as `Swap n`, `Push n` or `Pop`, joined with `, `), also when it is
followed by ` (top)`, yields exactly that sequence, in order, each `SWAP`/`PUSH` label of type
`MPLS` and value `n`. In particular `Swap 17, Push 3, Pop, Swap 9 (top)` yields
`[SWAP 17, PUSH 3, POP, SWAP 9]` and the empty string yields the empty list. -/
theorem parse_ops_render (d : action_t) (os : List op_spec)
    (hb : ∀ n, (op_spec.SWAP n ∈ os ∨ op_spec.PUSH n ∈ os) → n < 2 ^ 31) :
    render_ops os = List.intercalate ", ".toList (os.map render_op) ∧
    forward_t.parse_ops d (render_ops os) = .ok (os.map (action_of d)) ∧
    forward_t.parse_ops d (render_ops os ++ " (top)".toList) = .ok (os.map (action_of d)) ∧
    forward_t.parse_ops d "Swap 17, Push 3, Pop, Swap 9 (top)".toList =
      .ok ([op_spec.SWAP 17, op_spec.PUSH 3, op_spec.POP, op_spec.SWAP 9].map (action_of d)) ∧
    forward_t.parse_ops d "".toList = .ok [] := by
  have hnp := (render_no_paren os).2
  have hsp : seps [' '] := by
    intro c hc
    rw [List.mem_singleton] at hc
    exact Or.inl hc
  have hnil : seps [] := by intro c hc; cases hc
  refine ⟨render_ops_intercalate os, ?_, ?_, rfl, rfl⟩
  · have hfind : find "(top)".toList (render_ops os) = none := by
      have := find_top_append (render_ops os) [] hnp
      rw [List.append_nil] at this
      rw [this]; rfl
    unfold forward_t.parse_ops
    rw [hfind]
    have := loop_render d os (render_ops os).length [] [] [] hnil hnil hb (by simp)
    simpa using this
  · have hstr : render_ops os ++ " (top)".toList = (render_ops os ++ [' ']) ++ "(top)".toList := by
      simp [String.toList]
    have hnp1 : ∀ c ∈ render_ops os ++ [' '], c ≠ '(' := by
      intro c hc
      rcases List.mem_append.mp hc with hc | hc
      · exact hnp c hc
      · rw [List.mem_singleton] at hc; rw [hc]; decide
    have hfind : find "(top)".toList (render_ops os ++ " (top)".toList) =
        some ((render_ops os).length + 1) := by
      rw [hstr, find_top_append _ _ hnp1]
      have : find "(top)".toList "(top)".toList = some 0 := by decide
      rw [this]
      simp
    have hlen : (render_ops os ++ " (top)".toList).length - 5 = (render_ops os).length + 1 := by
      simp [String.toList]
    have htake : (render_ops os ++ " (top)".toList).take ((render_ops os).length + 1) =
        render_ops os ++ [' '] := by
      rw [hstr]
      have : (render_ops os).length + 1 = (render_ops os ++ [' ']).length := by simp
      rw [this, List.take_left]
    unfold forward_t.parse_ops
    rw [hfind]
    simp only [hlen, ne_eq, not_true_eq_false, if_false, htake]
    have := loop_render d os (render_ops os ++ [' ']).length [] [] [' '] hnil hsp hb (by simp)
    simpa using this

/-- Witness for C4: the list `[SWAP 17, PUSH 3, POP, SWAP 9]`. -/
theorem parse_ops_render_witness :
    forward_t.parse_ops demo_action
        (render_ops [op_spec.SWAP 17, op_spec.PUSH 3, op_spec.POP, op_spec.SWAP 9]) =
      .ok ([op_spec.SWAP 17, op_spec.PUSH 3, op_spec.POP, op_spec.SWAP 9].map
        (action_of demo_action)) ∧
    render_ops [op_spec.SWAP 17, op_spec.PUSH 3, op_spec.POP, op_spec.SWAP 9] =
      "Swap 17, Push 3, Pop, Swap 9".toList :=
  ⟨(parse_ops_render demo_action [op_spec.SWAP 17, op_spec.PUSH 3, op_spec.POP, op_spec.SWAP 9]
    (by
      intro n hn
      simp only [List.mem_cons, op_spec.SWAP.injEq, op_spec.PUSH.injEq, List.mem_singleton,
        reduceCtorEq, or_false, false_or, List.not_mem_nil] at hn
      omega)).2.1, by decide⟩

end RoutingTable
end mpls2pda

/-! ## `forward_t::parse_ops` on malformed strings -/

namespace mpls2pda
open Query
namespace RoutingTable

theorem takeWhile_space_spec (r : List Char) :
    ∀ x ∈ r.takeWhile (fun x => decide (x = ' ')), x = ' ' := by
  intro x hx
  have := List.mem_takeWhile_imp hx
  simpa using this

theorem tokens_after {r : List Char} (h : code_tokens (r.drop 1)) (hnd : no_digit_ahead r) :
    r = [] ∨ ∃ x s, r = x :: s ∧ x.isDigit = false ∧ code_tokens s := by
  cases r with
  | nil => exact Or.inl rfl
  | cons x s => exact Or.inr ⟨x, s, rfl, hnd x (by simp), by simpa using h⟩

theorem dropWhile_digit_ahead (r : List Char) : no_digit_ahead (r.dropWhile Char.isDigit) := by
  intro c hc
  cases hd : r.dropWhile Char.isDigit with
  | nil => rw [hd] at hc; simp at hc
  | cons a t =>
    rw [hd] at hc
    simp only [List.head?_cons, Option.mem_def, Option.some.injEq] at hc
    subst hc
    exact dropWhile_head_false Char.isDigit hd

/-- An op-string on which the loop of `parse_ops` ends with a list of operations is a string of
tokens with keywords known by their first letters. -/
theorem loop_ok_tokens (d : action_t) :
    ∀ (fuel : Nat) (s : List Char) (done ops : List action_t),
      parse_ops_loop d fuel s done = .ok ops → code_tokens s
  | _, [], _, _, _ => code_tokens.nil
  | 0, _ :: _, _, _, h => by simp [parse_ops_loop] at h
  | fuel + 1, c :: cs, done, ops, h => by
    rw [parse_ops_loop] at h
    by_cases h1 : c = ' '
    · rw [if_pos h1] at h
      exact code_tokens.sep c cs (Or.inl h1) (loop_ok_tokens d fuel cs done ops h)
    rw [if_neg h1] at h
    by_cases h2 : c = ','
    · rw [if_pos h2] at h
      exact code_tokens.sep c cs (Or.inr h2) (loop_ok_tokens d fuel cs done ops h)
    rw [if_neg h2] at h
    by_cases h3 : c = 'P' ∧ cs.head? = some 'o'
    · rw [if_pos h3] at h
      obtain ⟨hc, ho⟩ := h3
      have ih := loop_ok_tokens d fuel _ _ ops h
      cases cs with
      | nil => simp at ho
      | cons o cs1 =>
        simp only [List.head?_cons, Option.some.injEq] at ho
        subst hc; subst ho
        cases cs1 with
        | nil => exact code_tokens.pop_last
        | cons x s => exact code_tokens.pop x s (by simpa using ih)
    rw [if_neg h3] at h
    cases hkw : keyword c cs with
    | none => rw [hkw] at h; simp at h
    | some op =>
      rw [hkw] at h
      simp only at h
      by_cases hlen : cs.length < 3
      · rw [if_pos hlen] at h; simp at h
      rw [if_neg hlen] at h
      split at h
      · simp at h
      · rename_i c1 r hdw
        by_cases hdig : c1.isDigit = true
        · rw [if_pos hdig] at h
          have ih := loop_ok_tokens d fuel _ _ ops h
          obtain ⟨a, cs2, rfl⟩ : ∃ a cs2, cs = a :: cs2 := by
            cases cs with
            | nil => simp at hlen
            | cons a cs2 => exact ⟨a, cs2, rfl⟩
          obtain ⟨b, cs3, rfl⟩ : ∃ b cs3, cs2 = b :: cs3 := by
            cases cs2 with
            | nil => simp at hlen
            | cons b cs3 => exact ⟨b, cs3, rfl⟩
          obtain ⟨c3, rest, rfl⟩ : ∃ c3 rest, cs3 = c3 :: rest := by
            cases cs3 with
            | nil => simp at hlen
            | cons c3 rest => exact ⟨c3, rest, rfl⟩
          simp only [List.drop_succ_cons, List.drop_zero] at hdw
          have hrest : rest = rest.takeWhile (fun x => decide (x = ' ')) ++
              ((c1 :: r).takeWhile Char.isDigit ++ (c1 :: r).dropWhile Char.isDigit) := by
            rw [List.takeWhile_append_dropWhile, ← hdw, List.takeWhile_append_dropWhile]
          have hsp := takeWhile_space_spec rest
          have hds : ∀ x ∈ (c1 :: r).takeWhile Char.isDigit, x.isDigit = true :=
            fun x hx => List.mem_takeWhile_imp hx
          have hne : (c1 :: r).takeWhile Char.isDigit ≠ [] := by
            rw [List.takeWhile_cons, if_pos hdig]; simp
          have htl := tokens_after ih (dropWhile_digit_ahead (c1 :: r))
          have hkey : (c = 'S') ∨ (c = 'P' ∧ a = 'u') := by
            by_cases hS : c = 'S'
            · exact Or.inl hS
            · right
              simp only [keyword, hS, if_false, List.head?_cons, Option.some.injEq] at hkw
              split_ifs at hkw with hP
              exact hP
          rw [hrest]
          rcases hkey with hS | ⟨hP, hu⟩
          · subst hS
            rcases htl with htl | ⟨x, s, htl, hx, hls⟩
            · rw [htl, List.append_nil]
              exact code_tokens.swap_last a b c3 _ _ hsp hne hds
            · rw [htl, ← List.append_assoc]
              exact code_tokens.swap a b c3 _ _ x s hsp hne hds hx hls
          · subst hP; subst hu
            rcases htl with htl | ⟨x, s, htl, hx, hls⟩
            · rw [htl, List.append_nil]
              exact code_tokens.push_last b c3 _ _ hsp hne hds
            · rw [htl, ← List.append_assoc]
              exact code_tokens.push b c3 _ _ x s hsp hne hds hx hls
        · rw [if_neg hdig] at h; simp at h

theorem dropWhile_length_le {α : Type} (p : α → Bool) :
    ∀ l : List α, (l.dropWhile p).length ≤ l.length
  | [] => by simp
  | a :: l => by
    rw [List.dropWhile_cons]
    split_ifs
    · exact le_trans (dropWhile_length_le p l) (by simp)
    · exact le_refl _

/-- The loop of `parse_ops` does not run longer than its string. -/
theorem loop_fuel (d : action_t) :
    ∀ (fuel : Nat) (s : List Char) (done : List action_t), s.length ≤ fuel →
      parse_ops_loop d fuel s done ≠ .out_of_fuel
  | _, [], _, _ => by simp [parse_ops_loop]
  | 0, _ :: _, _, h => by simp at h
  | fuel + 1, c :: cs, done, h => by
    have hcs : cs.length ≤ fuel := by simpa using h
    rw [parse_ops_loop]
    by_cases h1 : c = ' '
    · rw [if_pos h1]; exact loop_fuel d fuel cs done hcs
    rw [if_neg h1]
    by_cases h2 : c = ','
    · rw [if_pos h2]; exact loop_fuel d fuel cs done hcs
    rw [if_neg h2]
    by_cases h3 : c = 'P' ∧ cs.head? = some 'o'
    · rw [if_pos h3]
      exact loop_fuel d fuel _ _ (by rw [List.length_drop]; omega)
    rw [if_neg h3]
    cases hkw : keyword c cs with
    | none => simp
    | some op =>
      simp only
      by_cases hlen : cs.length < 3
      · rw [if_pos hlen]; simp
      rw [if_neg hlen]
      split
      · simp
      · rename_i c1 r hdw
        by_cases hdig : c1.isDigit = true
        · rw [if_pos hdig]
          apply loop_fuel d fuel
          have h5 : (c1 :: r).length ≤ cs.length := by
            rw [← hdw]
            exact le_trans (dropWhile_length_le _ _) (by rw [List.length_drop]; omega)
          have h6 := dropWhile_length_le Char.isDigit (c1 :: r)
          rw [List.length_drop]
          omega
        · rw [if_neg hdig]; simp

/-- The only exception thrown by the loop of `parse_ops` is the one for an unexpected operation
type. -/
theorem loop_error (d : action_t) :
    ∀ (fuel : Nat) (s : List Char) (done : List action_t) (e : base_error),
      parse_ops_loop d fuel s done = .error e → e = base_error.unexpected_operation_type
  | _, [], _, _, h => by simp [parse_ops_loop] at h
  | 0, _ :: _, _, _, h => by simp [parse_ops_loop] at h
  | fuel + 1, c :: cs, done, e, h => by
    rw [parse_ops_loop] at h
    by_cases h1 : c = ' '
    · rw [if_pos h1] at h; exact loop_error d fuel cs done e h
    rw [if_neg h1] at h
    by_cases h2 : c = ','
    · rw [if_pos h2] at h; exact loop_error d fuel cs done e h
    rw [if_neg h2] at h
    by_cases h3 : c = 'P' ∧ cs.head? = some 'o'
    · rw [if_pos h3] at h; exact loop_error d fuel _ _ e h
    rw [if_neg h3] at h
    cases hkw : keyword c cs with
    | none =>
      rw [hkw] at h
      simp only [ops_result.error.injEq] at h
      exact h.symm
    | some op =>
      rw [hkw] at h
      simp only at h
      by_cases hlen : cs.length < 3
      · rw [if_pos hlen] at h; simp at h
      rw [if_neg hlen] at h
      split at h
      · simp only [ops_result.error.injEq] at h
        exact h.symm
      · rename_i c1 r hdw
        by_cases hdig : c1.isDigit = true
        · rw [if_pos hdig] at h; exact loop_error d fuel _ _ e h
        · rw [if_neg hdig] at h
          simp only [ops_result.error.injEq] at h
          exact h.symm

/-- Where `find` finds the pattern, the pattern stands. -/
theorem find_spec (pat : List Char) :
    ∀ (s : List Char) (pos : Nat), find pat s = some pos → ∃ t, s.drop pos = pat ++ t
  | [], pos, h => by
    unfold find at h
    split_ifs at h with hp
    simp only [Option.some.injEq] at h
    subst h; subst hp
    exact ⟨[], rfl⟩
  | c :: cs, pos, h => by
    unfold find at h
    split_ifs at h with hp
    · simp only [Option.some.injEq] at h
      subst h
      rw [List.isPrefixOf_iff_prefix] at hp
      obtain ⟨t, ht⟩ := hp
      exact ⟨t, ht.symm⟩
    · cases hf : find pat cs with
      | none => rw [hf] at h; simp at h
      | some p =>
        rw [hf] at h
        simp only [Option.map_some', Option.some.injEq] at h
        subst h
        exact find_spec pat cs p hf

/-- A string in which `(top)` is found five characters before the end ends with `(top)`. -/
theorem find_top_at_end (s : List Char) (pos : Nat) (h : find "(top)".toList s = some pos)
    (hpos : pos = s.length - 5) : s = s.take pos ++ "(top)".toList := by
  obtain ⟨t, ht⟩ := find_spec _ s pos h
  have hlen := congrArg List.length ht
  simp only [List.length_drop, List.length_append, String.toList, List.length_cons,
    List.length_nil] at hlen
  have ht0 : t = [] := List.eq_nil_of_length_eq_zero (by omega)
  rw [ht0, List.append_nil] at ht
  rw [← ht, List.take_append_drop]

theorem spec_tokens_no_x : ∀ {s : List Char}, spec_tokens s → ∀ c ∈ s, c ≠ 'x' := by
  have hsep : ∀ c : Char, (c = ' ' ∨ c = ',') → c ≠ 'x' := by
    intro c hc
    rcases hc with hc | hc <;> rw [hc] <;> decide
  have hsp : ∀ sp : List Char, (∀ x ∈ sp, x = ' ') → ∀ c ∈ sp, c ≠ 'x' := by
    intro sp h c hc
    rw [h c hc]; decide
  have hds : ∀ ds : List Char, (∀ x ∈ ds, x.isDigit = true) → ∀ c ∈ ds, c ≠ 'x' := by
    intro ds h c hc hx
    have := h c hc
    rw [hx] at this
    exact absurd this (by decide)
  have hlit : ∀ c ∈ "Pop".toList ++ "Swap".toList ++ "Push".toList, c ≠ 'x' := by decide
  intro s h
  induction h with
  | nil => intro c hc; cases hc
  | sep c s hc _ ih =>
    intro x hx
    rcases List.mem_cons.mp hx with rfl | hx
    · exact hsep _ hc
    · exact ih x hx
  | pop_last => intro c hc; exact hlit c (by simp at hc ⊢; tauto)
  | pop c s hc _ ih =>
    intro x hx
    rcases List.mem_append.mp hx with hx | hx
    · exact hlit x (by simp at hx ⊢; tauto)
    · rcases List.mem_cons.mp hx with rfl | hx
      · exact hsep _ hc
      · exact ih x hx
  | swap_last sp ds h1 _ h3 =>
    intro x hx
    rcases List.mem_append.mp hx with hx | hx
    · rcases List.mem_append.mp hx with hx | hx
      · exact hlit x (by simp at hx ⊢; tauto)
      · exact hsp sp h1 x hx
    · exact hds ds h3 x hx
  | swap sp ds c s h1 _ h3 hc _ ih =>
    intro x hx
    rcases List.mem_append.mp hx with hx | hx
    · rcases List.mem_append.mp hx with hx | hx
      · rcases List.mem_append.mp hx with hx | hx
        · exact hlit x (by simp at hx ⊢; tauto)
        · exact hsp sp h1 x hx
      · exact hds ds h3 x hx
    · rcases List.mem_cons.mp hx with rfl | hx
      · exact hsep _ hc
      · exact ih x hx
  | push_last sp ds h1 _ h3 =>
    intro x hx
    rcases List.mem_append.mp hx with hx | hx
    · rcases List.mem_append.mp hx with hx | hx
      · exact hlit x (by simp at hx ⊢; tauto)
      · exact hsp sp h1 x hx
    · exact hds ds h3 x hx
  | push sp ds c s h1 _ h3 hc _ ih =>
    intro x hx
    rcases List.mem_append.mp hx with hx | hx
    · rcases List.mem_append.mp hx with hx | hx
      · rcases List.mem_append.mp hx with hx | hx
        · exact hlit x (by simp at hx ⊢; tauto)
        · exact hsp sp h1 x hx
      · exact hds ds h3 x hx
    · rcases List.mem_cons.mp hx with rfl | hx
      · exact hsep _ hc
      · exact ih x hx

theorem code_tokens_head {c : Char} {s : List Char} (h : code_tokens (c :: s)) :
    c = ' ' ∨ c = ',' ∨ c = 'S' ∨ c = 'P' := by
  generalize hl : c :: s = l at h
  cases h with
  | nil => cases hl
  | sep c1 s1 hc _ =>
    injection hl with h1 _
    rcases hc with hc | hc
    · exact Or.inl (h1.trans hc)
    · exact Or.inr (Or.inl (h1.trans hc))
  | pop_last => injection hl with h1 _; exact Or.inr (Or.inr (Or.inr h1))
  | pop _ _ _ => injection hl with h1 _; exact Or.inr (Or.inr (Or.inr h1))
  | swap_last _ _ _ _ _ _ _ _ => injection hl with h1 _; exact Or.inr (Or.inr (Or.inl h1))
  | swap _ _ _ _ _ _ _ _ _ _ _ _ => injection hl with h1 _; exact Or.inr (Or.inr (Or.inl h1))
  | push_last _ _ _ _ _ _ _ => injection hl with h1 _; exact Or.inr (Or.inr (Or.inr h1))
  | push _ _ _ _ _ _ _ _ _ _ _ => injection hl with h1 _; exact Or.inr (Or.inr (Or.inr h1))

theorem not_ends_with_top {s body : List Char} (h : s = body ++ "(top)".toList) :
    s.reverse.head? = some ')' := by
  rw [h]; simp [String.toList]

end RoutingTable
end mpls2pda

/-! ## `forward_t::parse_ops`: the strings it accepts -/

namespace mpls2pda
open Query
namespace RoutingTable

theorem dropWhile_spaces (sp r : List Char) (hsp : ∀ x ∈ sp, x = ' ')
    (hr : ∀ c ∈ r.head?, c ≠ ' ') :
    (sp ++ r).dropWhile (fun x => decide (x = ' ')) = r := by
  induction sp with
  | nil =>
    cases r with
    | nil => rfl
    | cons c r =>
      have : c ≠ ' ' := hr c (by simp)
      simp [List.dropWhile_cons, this]
  | cons a sp ih =>
    have ha : a = ' ' := hsp a (List.mem_cons_self _ _)
    have := ih (fun x hx => hsp x (List.mem_cons_of_mem _ hx))
    simp [List.dropWhile_cons, ha, this]

/-- One pass of the loop over a keyword known by its first letters, spaces and a number. -/
theorem loop_keyword (d : action_t) (fuel : Nat) (c a b3 c3 : Char) (sp ds tl : List Char)
    (done : List action_t) (op : op_t) (hc1 : c ≠ ' ') (hc2 : c ≠ ',')
    (hpop : ¬ (c = 'P' ∧ a = 'o')) (hkw : keyword c (a :: b3 :: c3 :: (sp ++ ds ++ tl)) = some op)
    (hsp : ∀ x ∈ sp, x = ' ') (hne : ds ≠ []) (hds : ∀ x ∈ ds, x.isDigit = true)
    (htl : no_digit_ahead tl) :
    parse_ops_loop d (fuel + 1) (c :: a :: b3 :: c3 :: (sp ++ ds ++ tl)) done =
      parse_ops_loop d fuel (tl.drop 1) (done ++ [⟨op, { d._op_label with
        _type := Query.type_t.MPLS, _value := atoi_u64 ds }⟩]) := by
  obtain ⟨c1, ds1, rfl⟩ := List.exists_cons_of_ne_nil hne
  have hd1 : c1.isDigit = true := hds c1 (List.mem_cons_self _ _)
  have hsp1 : c1 ≠ ' ' := by
    intro h; rw [h] at hd1; exact absurd hd1 (by decide)
  have hdw : (sp ++ (c1 :: ds1 ++ tl)).dropWhile (fun x => decide (x = ' ')) =
      c1 :: (ds1 ++ tl) := by
    rw [dropWhile_spaces sp _ hsp (by intro x hx; simp at hx; rw [← hx]; exact hsp1)]
    rfl
  have htd := takeWhile_digits (c1 :: ds1) tl hds htl
  rw [List.cons_append] at htd
  have hpop1 : ¬ (c = 'P' ∧ (a :: b3 :: c3 :: (sp ++ (c1 :: ds1) ++ tl)).head? = some 'o') := by
    simpa using hpop
  rw [parse_ops_loop, if_neg hc1, if_neg hc2, if_neg hpop1, hkw]
  simp only [List.length_cons, List.drop_succ_cons, List.drop_zero]
  rw [if_neg (by omega), List.append_assoc, hdw]
  simp only [hd1, if_true, htd.1, htd.2]

/-- The loop of `parse_ops` ends with a list of operations on every string of tokens with
keywords known by their first letters. -/
theorem loop_accepts (d : action_t) {s : List Char} (h : code_tokens s) :
    ∀ (fuel : Nat) (done : List action_t), s.length ≤ fuel →
      ∃ ops, parse_ops_loop d fuel s done = .ok ops := by
  induction h with
  | nil => intro fuel done _; exact ⟨done, by simp [parse_ops_loop]⟩
  | sep c s hc _ ih =>
    intro fuel done hf
    obtain ⟨f, rfl⟩ : ∃ f, fuel = f + 1 := ⟨fuel - 1, by simp at hf; omega⟩
    have hs : seps [c] := by
      intro x hx
      rw [List.mem_singleton] at hx
      rw [hx]; exact hc
    have := loop_seps d [c] f s done hs
    simp only [List.length_singleton, List.singleton_append] at this
    rw [this]
    exact ih f done (by simp at hf; omega)
  | pop_last =>
    intro fuel done hf
    obtain ⟨f, rfl⟩ : ∃ f, fuel = f + 1 := ⟨fuel - 1, by simp at hf; omega⟩
    exact ⟨done ++ [{ d with _op := op_t.POP }], by simp [parse_ops_loop]⟩
  | pop x s _ ih =>
    intro fuel done hf
    obtain ⟨f, rfl⟩ : ∃ f, fuel = f + 1 := ⟨fuel - 1, by simp at hf; omega⟩
    obtain ⟨ops, hops⟩ := ih f (done ++ [{ d with _op := op_t.POP }]) (by simp at hf; omega)
    exact ⟨ops, by simpa [parse_ops_loop] using hops⟩
  | swap_last a b c sp ds hsp hne hds =>
    intro fuel done hf
    obtain ⟨f, rfl⟩ : ∃ f, fuel = f + 1 := ⟨fuel - 1, by simp at hf; omega⟩
    have := loop_keyword d f 'S' a b c sp ds [] done op_t.SWAP (by decide) (by decide)
      (fun h => absurd h.1 (by decide)) (by simp [keyword]) hsp hne hds
      (by intro x hx; simp at hx)
    rw [List.append_nil] at this
    rw [this]
    exact ⟨_, by rw [List.drop_nil, parse_ops_loop]⟩
  | swap a b c sp ds x s hsp hne hds hx _ ih =>
    intro fuel done hf
    obtain ⟨f, rfl⟩ : ∃ f, fuel = f + 1 := ⟨fuel - 1, by simp at hf; omega⟩
    rw [loop_keyword d f 'S' a b c sp ds (x :: s) done op_t.SWAP (by decide) (by decide)
      (fun h => absurd h.1 (by decide)) (by simp [keyword]) hsp hne hds
      (by intro y hy; simp at hy; rw [← hy]; exact hx)]
    exact ih f _ (by simp at hf ⊢; omega)
  | push_last b c sp ds hsp hne hds =>
    intro fuel done hf
    obtain ⟨f, rfl⟩ : ∃ f, fuel = f + 1 := ⟨fuel - 1, by simp at hf; omega⟩
    have := loop_keyword d f 'P' 'u' b c sp ds [] done op_t.PUSH (by decide) (by decide)
      (fun h => absurd h.2 (by decide)) (by simp [keyword]) hsp hne hds
      (by intro x hx; simp at hx)
    rw [List.append_nil] at this
    rw [this]
    exact ⟨_, by rw [List.drop_nil, parse_ops_loop]⟩
  | push b c sp ds x s hsp hne hds hx _ ih =>
    intro fuel done hf
    obtain ⟨f, rfl⟩ : ∃ f, fuel = f + 1 := ⟨fuel - 1, by simp at hf; omega⟩
    rw [loop_keyword d f 'P' 'u' b c sp ds (x :: s) done op_t.PUSH (by decide) (by decide)
      (fun h => absurd h.2 (by decide)) (by simp [keyword]) hsp hne hds
      (by intro y hy; simp at hy; rw [← hy]; exact hx)]
    exact ih f _ (by simp at hf ⊢; omega)

theorem find_none_cons {c : Char} {cs : List Char}
    (hp : ("(top)".toList).isPrefixOf (c :: cs) = false)
    (h : find "(top)".toList cs = none) : find "(top)".toList (c :: cs) = none := by
  rw [find, hp, h]; rfl

theorem find_none_append {s t : List Char} (hs : ∀ c ∈ s, c ≠ '(')
    (h : find "(top)".toList t = none) : find "(top)".toList (s ++ t) = none := by
  rw [find_top_append s t hs, h]; rfl

/-- Spaces followed by a number start with a character that is none of `t`, `o`, `p`, and hold no
opening parenthesis. -/
theorem number_head {sp ds : List Char} (tl : List Char) (hsp : ∀ x ∈ sp, x = ' ')
    (hne : ds ≠ []) (hds : ∀ x ∈ ds, x.isDigit = true) :
    (∀ c ∈ sp ++ ds, c ≠ '(') ∧
    ∃ h t, sp ++ ds ++ tl = h :: t ∧ ('t' == h) = false ∧ ('o' == h) = false ∧
      ('p' == h) = false := by
  have hok : ∀ c ∈ sp ++ ds, c = ' ' ∨ c.isDigit = true := by
    intro c hc
    rcases List.mem_append.mp hc with hc | hc
    · exact Or.inl (hsp c hc)
    · exact Or.inr (hds c hc)
  have hbad : ∀ c : Char, (c = ' ' ∨ c.isDigit = true) →
      c ≠ '(' ∧ ('t' == c) = false ∧ ('o' == c) = false ∧ ('p' == c) = false := by
    intro c hc
    rcases hc with hc | hc
    · rw [hc]; decide
    · refine ⟨?_, ?_, ?_, ?_⟩
      · intro h; rw [h] at hc; exact absurd hc (by decide)
      · rw [beq_eq_false_iff_ne]; intro h; rw [← h] at hc; exact absurd hc (by decide)
      · rw [beq_eq_false_iff_ne]; intro h; rw [← h] at hc; exact absurd hc (by decide)
      · rw [beq_eq_false_iff_ne]; intro h; rw [← h] at hc; exact absurd hc (by decide)
  refine ⟨fun c hc => (hbad c (hok c hc)).1, ?_⟩
  cases hsd : sp ++ ds with
  | nil =>
    have := List.append_eq_nil.mp hsd
    exact absurd this.2 hne
  | cons h t =>
    have hh := hbad h (hok h (by rw [hsd]; exact List.mem_cons_self _ _))
    exact ⟨h, t ++ tl, by simp, hh.2.1, hh.2.2.1, hh.2.2.2⟩

/-- In a string of tokens with keywords known by their first letters, `(top)` does not occur. -/
theorem tokens_top_free {s : List Char} (h : code_tokens s) : find "(top)".toList s = none := by
  have hnext : ∀ (x : Char) (s : List Char), code_tokens s →
      ("(top)".toList).isPrefixOf (x :: s) = false := by
    intro x s hs
    cases s with
    | nil => simp [String.toList, List.isPrefixOf]
    | cons y r =>
      have hy := code_tokens_head hs
      have : ('t' == y) = false := by
        rw [beq_eq_false_iff_ne]
        intro h
        rw [← h] at hy
        revert hy
        decide
      simp [String.toList, List.isPrefixOf, this]
  have hlabel : ∀ (k a b c : Char) (sp ds tl : List Char), k ≠ '(' → (∀ x ∈ sp, x = ' ') →
      ds ≠ [] → (∀ x ∈ ds, x.isDigit = true) → find "(top)".toList tl = none →
      find "(top)".toList (k :: a :: b :: c :: (sp ++ ds ++ tl)) = none := by
    intro k a b c sp ds tl hk hsp hne hds htl
    obtain ⟨hnp, h, t, hht, h1, h2, h3⟩ := number_head tl hsp hne hds
    have hrest : find "(top)".toList (sp ++ ds ++ tl) = none := find_none_append hnp htl
    have hk1 : ('(' == k) = false := by
      rw [beq_eq_false_iff_ne]; exact fun h => hk h.symm
    rw [hht] at hrest ⊢
    refine find_none_cons (by simp [String.toList, List.isPrefixOf, hk1]) ?_
    refine find_none_cons (by simp [String.toList, List.isPrefixOf, h3]) ?_
    refine find_none_cons (by simp [String.toList, List.isPrefixOf, h2]) ?_
    exact find_none_cons (by simp [String.toList, List.isPrefixOf, h1]) hrest
  induction h with
  | nil => rfl
  | sep c s hc _ ih =>
    refine find_none_cons ?_ ih
    have : ('(' == c) = false := by
      rw [beq_eq_false_iff_ne]
      rcases hc with hc | hc <;> rw [hc] <;> decide
    simp [String.toList, List.isPrefixOf, this]
  | pop_last => decide
  | pop x s hs ih =>
    refine find_none_cons (by simp [String.toList, List.isPrefixOf]) ?_
    refine find_none_cons (by simp [String.toList, List.isPrefixOf]) ?_
    exact find_none_cons (hnext x s hs) ih
  | swap_last a b c sp ds hsp hne hds =>
    have := hlabel 'S' a b c sp ds [] (by decide) hsp hne hds rfl
    rwa [List.append_nil] at this
  | swap a b c sp ds x s hsp hne hds _ hs ih =>
    exact hlabel 'S' a b c sp ds (x :: s) (by decide) hsp hne hds
      (find_none_cons (hnext x s hs) ih)
  | push_last b c sp ds hsp hne hds =>
    have := hlabel 'P' 'u' b c sp ds [] (by decide) hsp hne hds rfl
    rwa [List.append_nil] at this
  | push b c sp ds x s hsp hne hds _ hs ih =>
    exact hlabel 'P' 'u' b c sp ds (x :: s) (by decide) hsp hne hds
      (find_none_cons (hnext x s hs) ih)

/-- An occurrence of `(top)` at the start of a string followed by `(top)` is one at the start of
the string itself. -/
theorem prefix_top_stable (c : Char) (cs : List Char)
    (h : ("(top)".toList).isPrefixOf (c :: cs) = false) :
    ("(top)".toList).isPrefixOf (c :: (cs ++ "(top)".toList)) = false := by
  rcases cs with _ | ⟨c1, cs⟩
  · simp [String.toList, List.isPrefixOf]
  rcases cs with _ | ⟨c2, cs⟩
  · simp [String.toList, List.isPrefixOf]
  rcases cs with _ | ⟨c3, cs⟩
  · simp [String.toList, List.isPrefixOf]
  rcases cs with _ | ⟨c4, cs⟩
  · simp [String.toList, List.isPrefixOf]
  · simp only [String.toList, List.isPrefixOf, List.cons_append] at h ⊢
    exact h

/-- Behind a string in which `(top)` does not occur, `(top)` is found at the end of the string. -/
theorem find_top_after :
    ∀ (body : List Char), find "(top)".toList body = none →
      find "(top)".toList (body ++ "(top)".toList) = some body.length
  | [], _ => by decide
  | c :: cs, h => by
    rw [find] at h
    by_cases hp : ("(top)".toList).isPrefixOf (c :: cs) = true
    · rw [if_pos hp] at h; cases h
    · rw [if_neg hp] at h
      have hcs : find "(top)".toList cs = none := by
        cases hf : find "(top)".toList cs with
        | none => rfl
        | some p => rw [hf] at h; simp at h
      have hp1 : ("(top)".toList).isPrefixOf (c :: cs) = false := by
        cases hb : ("(top)".toList).isPrefixOf (c :: cs) with
        | false => rfl
        | true => exact absurd hb hp
      rw [List.cons_append, find, prefix_top_stable c cs hp1, find_top_after cs hcs]
      rfl

/-- The strings accepted: `parse_ops` returns a list of operations for every string that is,
with or without a trailing `(top)`, a sequence of tokens with keywords known by their first
letters. -/
theorem parse_ops_accepts (d : action_t) (s : List Char) (h : code_op_string s) :
    ∃ ops, forward_t.parse_ops d s = .ok ops := by
  unfold forward_t.parse_ops
  rcases h with h | ⟨body, hs, hb⟩
  · rw [tokens_top_free h]
    exact loop_accepts d h _ [] (le_refl _)
  · have hfind := find_top_after body (tokens_top_free hb)
    rw [← hs] at hfind
    have hlen : s.length - 5 = body.length := by
      rw [hs]; simp [String.toList]
    have htake : s.take body.length = body := by
      rw [hs, List.take_left]
    rw [hfind]
    simp only [hlen, ne_eq, not_true_eq_false, if_false, htake]
    exact loop_accepts d hb _ [] (le_refl _)

/-- C5, as stated, fails: `Sxyz 5` is not a sequence of the tokens `Swap <decimal>`,
`Push <decimal>` and `Pop`, with or without a trailing `(top)`, and `parse_ops` returns the list
with the one operation `SWAP 5` for it. -/
theorem parse_ops_malformed_counterexample :
    ¬ spec_op_string "Sxyz 5".toList ∧
    forward_t.parse_ops demo_action "Sxyz 5".toList =
      .ok [⟨op_t.SWAP, ⟨Query.type_t.MPLS, 0, 5⟩⟩] := by
  refine ⟨?_, by decide⟩
  rintro (h | ⟨body, hb, _⟩)
  · exact spec_tokens_no_x h 'x' (by decide) rfl
  · have := not_ends_with_top hb
    exact absurd this (by decide)

/-- C5 (amended). `parse_ops` returns no op list for a string that, after removing an optional
trailing `(top)`, is not a sequence, separated by commas and spaces, of tokens with keywords
known by their first letters (`S` and any three characters, spaces, a decimal number; `Pu` and
any two characters, spaces, a decimal number; `Po`; the character after a number or after `Po`
being any character): it fails with one of its two parse errors, or reads beyond the end of the
string. For every string that is such a sequence it returns an op list. -/
theorem parse_ops_rejects (d : action_t) (s : List Char) :
    (¬ code_op_string s →
      forward_t.parse_ops d s = .error base_error.unexpected_operation_type ∨
      forward_t.parse_ops d s = .error base_error.top_not_at_end ∨
      forward_t.parse_ops d s = .out_of_bounds) ∧
    (code_op_string s → ∃ ops, forward_t.parse_ops d s = .ok ops) := by
  refine ⟨?_, parse_ops_accepts d s⟩
  intro h
  have hloop : ∀ body : List Char, ¬ code_tokens body →
      parse_ops_loop d body.length body [] = .error base_error.unexpected_operation_type ∨
      parse_ops_loop d body.length body [] = .out_of_bounds := by
    intro body hbody
    cases hres : parse_ops_loop d body.length body [] with
    | ok ops => exact absurd (loop_ok_tokens d _ _ _ _ hres) hbody
    | error e => rw [loop_error d _ _ _ e hres]; exact Or.inl rfl
    | out_of_bounds => exact Or.inr rfl
    | out_of_fuel => exact absurd hres (loop_fuel d _ _ _ (le_refl _))
  unfold forward_t.parse_ops
  cases hf : find "(top)".toList s with
  | none =>
    simp only
    rcases hloop s (fun hs => h (Or.inl hs)) with h1 | h1
    · exact Or.inl h1
    · exact Or.inr (Or.inr h1)
  | some pos =>
    simp only
    by_cases hpos : pos = s.length - 5
    · rw [if_neg (by simpa using hpos)]
      have hs := find_top_at_end s pos hf hpos
      rcases hloop (s.take pos) (fun hb => h (Or.inr ⟨_, hs, hb⟩)) with h1 | h1
      · exact Or.inl h1
      · exact Or.inr (Or.inr h1)
    · rw [if_pos hpos]
      exact Or.inr (Or.inl rfl)

/-- Witness for C5 (amended): `Drop 5` starts with no keyword letter and is rejected. -/
theorem parse_ops_rejects_witness :
    ¬ code_op_string "Drop 5".toList ∧
    (forward_t.parse_ops demo_action "Drop 5".toList =
        .error base_error.unexpected_operation_type ∨
      forward_t.parse_ops demo_action "Drop 5".toList = .error base_error.top_not_at_end ∨
      forward_t.parse_ops demo_action "Drop 5".toList = .out_of_bounds) :=
  have hno : ¬ code_op_string "Drop 5".toList := by
    rintro (h | ⟨body, hb, _⟩)
    · have := code_tokens_head h
      revert this
      decide
    · have := not_ends_with_top hb
      exact absurd this (by decide)
  ⟨hno, (parse_ops_rejects demo_action "Drop 5".toList).1 hno⟩

end RoutingTable
end mpls2pda

/-! ## `Verifier::run_once`: how the result is resolved -/

namespace aalwines
open mpls2pda (base_error)
open Query utils
namespace Verifier

/-- The state after the body of the loop for mode `m`, before the test for `break`. -/
theorem run_modes_cons (V : Verifier) (pipe : pipeline_t) (w : Bool) (m : mode_t)
    (ms : List mode_t) (s : loop_state) (he : V._engine = 1 ∨ V._engine = 2) :
    run_modes V pipe w (m :: ms) s =
      if (resolve m (engine_outcome V pipe w (start_mode V pipe m s).q)
          (if engine_outcome V pipe w (start_mode V pipe m s).q
            then with_trace V pipe w (start_mode V pipe m s)
            else start_mode V pipe m s)).result ≠ outcome_t.MAYBE
      then .ok { resolve m (engine_outcome V pipe w (start_mode V pipe m s).q)
          (if engine_outcome V pipe w (start_mode V pipe m s).q
            then with_trace V pipe w (start_mode V pipe m s)
            else start_mode V pipe m s) with mode := m }
      else run_modes V pipe w ms (resolve m (engine_outcome V pipe w (start_mode V pipe m s).q)
          (if engine_outcome V pipe w (start_mode V pipe m s).q
            then with_trace V pipe w (start_mode V pipe m s)
            else start_mode V pipe m s)) := by
  rw [run_modes, if_pos he]

/-- The result after the body of the loop for mode `m`, entered with result `MAYBE`. -/
theorem step_result (V : Verifier) (pipe : pipeline_t) (w : Bool) (m : mode_t) (s : loop_state)
    (hs : s.result = outcome_t.MAYBE) (eo : Bool) :
    (resolve m eo (if eo then with_trace V pipe w (start_mode V pipe m s)
        else start_mode V pipe m s)).result =
      if s.q.number_of_failures = 0 then (if eo then outcome_t.YES else outcome_t.NO)
      else if eo = true ∧
          (pipe.write_json_trace V._engine V._reduction w { s.q with approximation := m }).1 = true
        then outcome_t.YES
      else if m = mode_t.OVER ∧ eo = false then outcome_t.NO
      else outcome_t.MAYBE := by
  cases eo
  · by_cases hk : s.q.number_of_failures = 0 <;> by_cases hm : m = mode_t.OVER <;>
      simp [resolve, start_mode, hs, hk, hm]
  · by_cases hk : s.q.number_of_failures = 0 <;>
      cases hw : (pipe.write_json_trace V._engine V._reduction w
        { s.q with approximation := m }).1 <;>
      simp [resolve, start_mode, with_trace, hs, hk, hw]

theorem step_q (V : Verifier) (pipe : pipeline_t) (w : Bool) (m : mode_t) (s : loop_state)
    (eo : Bool) :
    (resolve m eo (if eo then with_trace V pipe w (start_mode V pipe m s)
        else start_mode V pipe m s)).q = { s.q with approximation := m } := by
  cases eo <;> rfl

theorem step_runs (V : Verifier) (pipe : pipeline_t) (w : Bool) (m : mode_t) (s : loop_state)
    (eo : Bool) :
    (resolve m eo (if eo then with_trace V pipe w (start_mode V pipe m s)
        else start_mode V pipe m s)).runs = s.runs ++ [m] := by
  cases eo <;> rfl

/-- One pass of the loop from a state with result `MAYBE`: the state it leaves. -/
theorem step_spec (V : Verifier) (pipe : pipeline_t) (w : Bool) (m : mode_t) (s : loop_state)
    (hs : s.result = outcome_t.MAYBE) :
    ∃ s4 : loop_state,
      s4 = resolve m (engine_outcome V pipe w (start_mode V pipe m s).q)
          (if engine_outcome V pipe w (start_mode V pipe m s).q
            then with_trace V pipe w (start_mode V pipe m s)
            else start_mode V pipe m s) ∧
      s4.result = mode_result s.q.number_of_failures m
        (engine_outcome V pipe w { s.q with approximation := m })
        (pipe.write_json_trace V._engine V._reduction w { s.q with approximation := m }).1 ∧
      s4.q = { s.q with approximation := m } ∧ s4.runs = s.runs ++ [m] := by
  refine ⟨_, rfl, ?_, step_q V pipe w m s _, step_runs V pipe w m s _⟩
  rw [step_result V pipe w m s hs]
  rfl

/-- A pass of the loop that leaves a conclusive result ends the loop. -/
theorem run_modes_stop (V : Verifier) (pipe : pipeline_t) (w : Bool) (m : mode_t)
    (ms : List mode_t) (s : loop_state) (he : V._engine = 1 ∨ V._engine = 2)
    (hs : s.result = outcome_t.MAYBE)
    (hc : mode_result s.q.number_of_failures m
        (engine_outcome V pipe w { s.q with approximation := m })
        (pipe.write_json_trace V._engine V._reduction w { s.q with approximation := m }).1
      ≠ outcome_t.MAYBE) :
    ∃ s1, run_modes V pipe w (m :: ms) s = .ok s1 ∧
      s1.result = mode_result s.q.number_of_failures m
        (engine_outcome V pipe w { s.q with approximation := m })
        (pipe.write_json_trace V._engine V._reduction w { s.q with approximation := m }).1 ∧
      s1.q = { s.q with approximation := m } ∧ s1.runs = s.runs ++ [m] ∧ s1.mode = m := by
  obtain ⟨s4, h4, hr, hq, hruns⟩ := step_spec V pipe w m s hs
  rw [run_modes_cons V pipe w m ms s he, ← h4, if_pos (by rw [hr]; exact hc)]
  exact ⟨_, rfl, hr, hq, hruns, rfl⟩

/-- A pass of the loop that leaves the result `MAYBE` goes on to the next mode. -/
theorem run_modes_next (V : Verifier) (pipe : pipeline_t) (w : Bool) (m : mode_t)
    (ms : List mode_t) (s : loop_state) (he : V._engine = 1 ∨ V._engine = 2)
    (hs : s.result = outcome_t.MAYBE)
    (hc : mode_result s.q.number_of_failures m
        (engine_outcome V pipe w { s.q with approximation := m })
        (pipe.write_json_trace V._engine V._reduction w { s.q with approximation := m }).1
      = outcome_t.MAYBE) :
    ∃ s4, run_modes V pipe w (m :: ms) s = run_modes V pipe w ms s4 ∧
      s4.result = outcome_t.MAYBE ∧
      s4.q = { s.q with approximation := m } ∧ s4.runs = s.runs ++ [m] ∧ s4.mode = s.mode := by
  obtain ⟨s4, h4, hr, hq, hruns⟩ := step_spec V pipe w m s hs
  rw [run_modes_cons V pipe w m ms s he, ← h4, if_neg (by rw [hr, hc]; simp)]
  refine ⟨_, rfl, by rw [hr, hc], hq, hruns, ?_⟩
  rw [h4]
  cases engine_outcome V pipe w (start_mode V pipe m s).q <;> rfl

/-- What `run_once` returns when its loop ends in state `s`. -/
theorem run_once_of_modes (V : Verifier) (pipe : pipeline_t) (q : Query) (pt w : Bool)
    (s : loop_state)
    (h : run_modes V pipe w (modes q) ⟨q, q.approximation, none, outcome_t.MAYBE, "", [], []⟩
      = .ok s) :
    ∃ r, run_once V pipe q pt w = .ok r ∧ r.output.result = s.result ∧ r.runs = s.runs ∧
      r.q = s.q ∧ r.output.mode = s.mode := by
  unfold run_once
  rw [h]
  exact ⟨_, rfl, rfl, rfl, rfl, rfl⟩

/-- The run of a query that is not `DUAL`: one pass, in the mode of the query. -/
theorem run_once_single (V : Verifier) (pipe : pipeline_t) (q : Query) (pt w : Bool)
    (he : V._engine = 1 ∨ V._engine = 2) (hd : q.approximation ≠ mode_t.DUAL) :
    ∃ r, run_once V pipe q pt w = .ok r ∧ r.runs = [q.approximation] ∧
      r.output.result = mode_result q.number_of_failures q.approximation
        (engine_outcome V pipe w q) (pipe.write_json_trace V._engine V._reduction w q).1 := by
  have hq : ({ q with approximation := q.approximation } : Query) = q := by cases q; rfl
  have hm : modes q = [q.approximation] := by simp [modes, hd]
  by_cases hc : mode_result q.number_of_failures q.approximation
      (engine_outcome V pipe w q) (pipe.write_json_trace V._engine V._reduction w q).1
      = outcome_t.MAYBE
  · obtain ⟨s4, h4, hr, _, hruns, _⟩ := run_modes_next V pipe w q.approximation []
      ⟨q, q.approximation, none, outcome_t.MAYBE, "", [], []⟩ he rfl (by simpa [hq] using hc)
    rw [run_modes] at h4
    rw [← hm] at h4
    obtain ⟨r, h1, h2, h3, _⟩ := run_once_of_modes V pipe q pt w s4 h4
    exact ⟨r, h1, by rw [h3, hruns]; rfl, by rw [h2, hr, hc]⟩
  · obtain ⟨s1, h4, hr, _, hruns, _⟩ := run_modes_stop V pipe w q.approximation []
      ⟨q, q.approximation, none, outcome_t.MAYBE, "", [], []⟩ he rfl (by simpa [hq] using hc)
    rw [← hm] at h4
    obtain ⟨r, h1, h2, h3, _⟩ := run_once_of_modes V pipe q pt w s1 h4
    refine ⟨r, h1, by rw [h3, hruns]; rfl, ?_⟩
    rw [h2, hr]

/-- The run of a `DUAL` query: a pass in mode `OVER`, and a pass in mode `UNDER` when the first
left the result `MAYBE`. -/
theorem run_once_dual (V : Verifier) (pipe : pipeline_t) (q : Query) (pt w : Bool)
    (he : V._engine = 1 ∨ V._engine = 2) (hd : q.approximation = mode_t.DUAL) :
    ∃ r, run_once V pipe q pt w = .ok r ∧
      ((mode_result q.number_of_failures mode_t.OVER
            (engine_outcome V pipe w { q with approximation := mode_t.OVER })
            (pipe.write_json_trace V._engine V._reduction w
              { q with approximation := mode_t.OVER }).1 ≠ outcome_t.MAYBE ∧
          r.runs = [mode_t.OVER] ∧
          r.output.result = mode_result q.number_of_failures mode_t.OVER
            (engine_outcome V pipe w { q with approximation := mode_t.OVER })
            (pipe.write_json_trace V._engine V._reduction w
              { q with approximation := mode_t.OVER }).1) ∨
        (mode_result q.number_of_failures mode_t.OVER
            (engine_outcome V pipe w { q with approximation := mode_t.OVER })
            (pipe.write_json_trace V._engine V._reduction w
              { q with approximation := mode_t.OVER }).1 = outcome_t.MAYBE ∧
          r.runs = [mode_t.OVER, mode_t.UNDER] ∧
          r.output.result = mode_result q.number_of_failures mode_t.UNDER
            (engine_outcome V pipe w { q with approximation := mode_t.UNDER })
            (pipe.write_json_trace V._engine V._reduction w
              { q with approximation := mode_t.UNDER }).1)) := by
  have hm : modes q = [mode_t.OVER, mode_t.UNDER] := by simp [modes, hd]
  by_cases hc : mode_result q.number_of_failures mode_t.OVER
      (engine_outcome V pipe w { q with approximation := mode_t.OVER })
      (pipe.write_json_trace V._engine V._reduction w
        { q with approximation := mode_t.OVER }).1 = outcome_t.MAYBE
  · obtain ⟨s4, h4, hr4, hq4, hruns4, _⟩ := run_modes_next V pipe w mode_t.OVER [mode_t.UNDER]
      ⟨q, q.approximation, none, outcome_t.MAYBE, "", [], []⟩ he rfl hc
    have hq5 : ({ s4.q with approximation := mode_t.UNDER } : Query) =
        { q with approximation := mode_t.UNDER } := by rw [hq4]
    have hk5 : s4.q.number_of_failures = q.number_of_failures := by rw [hq4]
    by_cases hc2 : mode_result q.number_of_failures mode_t.UNDER
        (engine_outcome V pipe w { q with approximation := mode_t.UNDER })
        (pipe.write_json_trace V._engine V._reduction w
          { q with approximation := mode_t.UNDER }).1 = outcome_t.MAYBE
    · obtain ⟨s5, h5, hr5, _, hruns5, _⟩ := run_modes_next V pipe w mode_t.UNDER []
        s4 he hr4 (by rw [hq5, hk5]; exact hc2)
      rw [run_modes] at h5
      rw [h5, ← hm] at h4
      obtain ⟨r, h1, h2, h3, _⟩ := run_once_of_modes V pipe q pt w s5 h4
      exact ⟨r, h1, Or.inr ⟨hc, by rw [h3, hruns5, hruns4]; rfl, by rw [h2, hr5, hc2]⟩⟩
    · obtain ⟨s5, h5, hr5, _, hruns5, _⟩ := run_modes_stop V pipe w mode_t.UNDER []
        s4 he hr4 (by rw [hq5, hk5]; exact hc2)
      rw [h5, ← hm] at h4
      obtain ⟨r, h1, h2, h3, _⟩ := run_once_of_modes V pipe q pt w s5 h4
      exact ⟨r, h1, Or.inr ⟨hc, by rw [h3, hruns5, hruns4]; rfl, by rw [h2, hr5, hq5, hk5]⟩⟩
  · obtain ⟨s1, h4, hr, _, hruns, _⟩ := run_modes_stop V pipe w mode_t.OVER [mode_t.UNDER]
      ⟨q, q.approximation, none, outcome_t.MAYBE, "", [], []⟩ he rfl hc
    rw [← hm] at h4
    obtain ⟨r, h1, h2, h3, _⟩ := run_once_of_modes V pipe q pt w s1 h4
    exact ⟨r, h1, Or.inl ⟨hc, by rw [h3, hruns]; rfl, by rw [h2, hr]⟩⟩

/-- C6. For every query with failure bound `k = 0`, every approximation mode and engine 1 or 2,
`run_once` returns after the first mode of its list, and its result is `YES` when the engine
outcome of that run is positive and `NO` when it is negative; it is never `MAYBE`. -/
theorem run_once_no_failures (V : Verifier) (pipe : pipeline_t) (q : Query)
    (print_timing is_weighted : Bool) (hk : q.number_of_failures = 0)
    (he : V._engine = 1 ∨ V._engine = 2) :
    ∃ r m, run_once V pipe q print_timing is_weighted = .ok r ∧
      (modes q).head? = some m ∧ r.runs = [m] ∧
      r.output.result =
        (if engine_outcome V pipe is_weighted { q with approximation := m } = true
          then outcome_t.YES else outcome_t.NO) ∧
      r.output.result ≠ outcome_t.MAYBE := by
  have hres : ∀ (m : mode_t) (eo wr : Bool),
      mode_result q.number_of_failures m eo wr =
        (if eo = true then outcome_t.YES else outcome_t.NO) := by
    intro m eo wr; simp [mode_result, hk]
  have hne : ∀ eo : Bool, (if eo = true then outcome_t.YES else outcome_t.NO) ≠ outcome_t.MAYBE := by
    intro eo; cases eo <;> simp
  by_cases hd : q.approximation = mode_t.DUAL
  · obtain ⟨r, h1, h2 | h2⟩ := run_once_dual V pipe q print_timing is_weighted he hd
    · refine ⟨r, mode_t.OVER, h1, by simp [modes, hd], h2.2.1, ?_, ?_⟩
      · rw [h2.2.2, hres]
      · rw [h2.2.2, hres]; exact hne _
    · rw [hres] at h2
      exact absurd h2.1 (hne _)
  · obtain ⟨r, h1, h2, h3⟩ := run_once_single V pipe q print_timing is_weighted he hd
    have hq : ({ q with approximation := q.approximation } : Query) = q := by cases q; rfl
    refine ⟨r, q.approximation, h1, by simp [modes, hd], h2, ?_, ?_⟩
    · rw [h3, hres, hq]
    · rw [h3, hres]; exact hne _

/-- Witness for C6: a `DUAL` query with `k = 0` on the default settings (engine 1), the engine
positive in mode `OVER`. -/
theorem run_once_no_failures_witness :
    ∃ r m, run_once {} (demo_pipeline [mode_t.OVER] []) ⟨mode_t.DUAL, 0, 0⟩ true false = .ok r ∧
      (modes ⟨mode_t.DUAL, 0, 0⟩).head? = some m ∧ r.runs = [m] ∧
      r.output.result =
        (if engine_outcome {} (demo_pipeline [mode_t.OVER] []) false
            { (⟨mode_t.DUAL, 0, 0⟩ : Query) with approximation := m } = true
          then outcome_t.YES else outcome_t.NO) ∧
      r.output.result ≠ outcome_t.MAYBE :=
  run_once_no_failures {} (demo_pipeline [mode_t.OVER] []) ⟨mode_t.DUAL, 0, 0⟩ true false rfl
    (Or.inl rfl)

/-- C7. For every query that is not `DUAL`, with failure bound `k > 0` and engine 1 or 2,
`run_once` runs exactly one mode, the mode of the query, and its result is `YES` iff the engine
outcome is positive and the trace was written, `NO` iff the mode is `OVER` and the engine outcome
is negative, and `MAYBE` in every other case. -/
theorem run_once_single_mode (V : Verifier) (pipe : pipeline_t) (q : Query)
    (print_timing is_weighted : Bool) (hk : 0 < q.number_of_failures)
    (hd : q.approximation ≠ mode_t.DUAL) (he : V._engine = 1 ∨ V._engine = 2) :
    ∃ r, run_once V pipe q print_timing is_weighted = .ok r ∧
      r.runs = [q.approximation] ∧
      (r.output.result = outcome_t.YES ↔
        (engine_outcome V pipe is_weighted q = true ∧
          (pipe.write_json_trace V._engine V._reduction is_weighted q).1 = true)) ∧
      (r.output.result = outcome_t.NO ↔
        (q.approximation = mode_t.OVER ∧ engine_outcome V pipe is_weighted q = false)) ∧
      (r.output.result = outcome_t.MAYBE ↔
        (¬ (engine_outcome V pipe is_weighted q = true ∧
            (pipe.write_json_trace V._engine V._reduction is_weighted q).1 = true) ∧
          ¬ (q.approximation = mode_t.OVER ∧ engine_outcome V pipe is_weighted q = false))) := by
  obtain ⟨r, h1, h2, h3⟩ := run_once_single V pipe q print_timing is_weighted he hd
  refine ⟨r, h1, h2, ?_⟩
  rw [h3]
  have hk0 : q.number_of_failures ≠ 0 := Nat.pos_iff_ne_zero.mp hk
  unfold mode_result
  rw [if_neg hk0]
  cases engine_outcome V pipe is_weighted q <;>
    cases (pipe.write_json_trace V._engine V._reduction is_weighted q).1 <;>
    by_cases hm : q.approximation = mode_t.OVER <;> simp [hm]

/-- Witness for C7: an `UNDER` query with `k = 2` on the default settings, the engine positive
and the trace written. -/
theorem run_once_single_mode_witness :
    ∃ r, run_once {} (demo_pipeline [mode_t.UNDER] [mode_t.UNDER]) ⟨mode_t.UNDER, 2, 0⟩ true false
        = .ok r ∧
      r.runs = [mode_t.UNDER] ∧
      (r.output.result = outcome_t.YES ↔
        (engine_outcome {} (demo_pipeline [mode_t.UNDER] [mode_t.UNDER]) false
            ⟨mode_t.UNDER, 2, 0⟩ = true ∧
          ((demo_pipeline [mode_t.UNDER] [mode_t.UNDER]).write_json_trace 1 0 false
            ⟨mode_t.UNDER, 2, 0⟩).1 = true)) ∧
      (r.output.result = outcome_t.NO ↔
        (mode_t.UNDER = mode_t.OVER ∧
          engine_outcome {} (demo_pipeline [mode_t.UNDER] [mode_t.UNDER]) false
            ⟨mode_t.UNDER, 2, 0⟩ = false)) ∧
      (r.output.result = outcome_t.MAYBE ↔
        (¬ (engine_outcome {} (demo_pipeline [mode_t.UNDER] [mode_t.UNDER]) false
              ⟨mode_t.UNDER, 2, 0⟩ = true ∧
            ((demo_pipeline [mode_t.UNDER] [mode_t.UNDER]).write_json_trace 1 0 false
              ⟨mode_t.UNDER, 2, 0⟩).1 = true) ∧
          ¬ (mode_t.UNDER = mode_t.OVER ∧
            engine_outcome {} (demo_pipeline [mode_t.UNDER] [mode_t.UNDER]) false
              ⟨mode_t.UNDER, 2, 0⟩ = false))) :=
  run_once_single_mode {} (demo_pipeline [mode_t.UNDER] [mode_t.UNDER]) ⟨mode_t.UNDER, 2, 0⟩
    true false (by decide) (by decide) (Or.inl rfl)

/-- C8, as stated, fails. With `k = 1` and the default settings: when the engine is positive in
mode `OVER` and the trace is written, the `DUAL` query is answered `YES` after the `OVER` run alone
(here the engine is negative in mode `UNDER`, which is never run); and when the engine is positive
in both modes and no trace is written, the answer after the `UNDER` run is `MAYBE`. -/
theorem run_once_dual_counterexample :
    (engine_outcome {} (demo_pipeline [mode_t.OVER] [mode_t.OVER]) false ⟨mode_t.OVER, 1, 0⟩ = true ∧
      engine_outcome {} (demo_pipeline [mode_t.OVER] [mode_t.OVER]) false ⟨mode_t.UNDER, 1, 0⟩
        = false ∧
      ∃ r, run_once {} (demo_pipeline [mode_t.OVER] [mode_t.OVER]) ⟨mode_t.DUAL, 1, 0⟩ true false
          = .ok r ∧ r.runs = [mode_t.OVER] ∧ r.output.result = outcome_t.YES) ∧
    (engine_outcome {} (demo_pipeline [mode_t.OVER, mode_t.UNDER] []) false ⟨mode_t.OVER, 1, 0⟩
        = true ∧
      engine_outcome {} (demo_pipeline [mode_t.OVER, mode_t.UNDER] []) false ⟨mode_t.UNDER, 1, 0⟩
        = true ∧
      ∃ r, run_once {} (demo_pipeline [mode_t.OVER, mode_t.UNDER] []) ⟨mode_t.DUAL, 1, 0⟩ true false
          = .ok r ∧ r.runs = [mode_t.OVER, mode_t.UNDER] ∧ r.output.result = outcome_t.MAYBE) :=
  ⟨⟨by decide, by decide, _, rfl, by decide, by decide⟩,
    ⟨by decide, by decide, _, rfl, by decide, by decide⟩⟩

/-- C8 (amended). For every `DUAL` query with `k > 0` and engine 1 or 2, `run_once` first runs
`OVER`. If the `OVER` engine outcome is negative it reports `NO`; if it is positive and the trace
was written it reports `YES`; in both cases `UNDER` is not run. If the `OVER` engine outcome is
positive and the trace was not written it runs `UNDER`, and reports `YES` when the `UNDER` engine
outcome is positive and its trace was written, and `MAYBE` otherwise. -/
theorem run_once_dual_mode (V : Verifier) (pipe : pipeline_t) (q : Query)
    (print_timing is_weighted : Bool) (hk : 0 < q.number_of_failures)
    (hd : q.approximation = mode_t.DUAL) (he : V._engine = 1 ∨ V._engine = 2) :
    ∃ r, run_once V pipe q print_timing is_weighted = .ok r ∧
      (engine_outcome V pipe is_weighted { q with approximation := mode_t.OVER } = false →
        r.runs = [mode_t.OVER] ∧ r.output.result = outcome_t.NO) ∧
      (engine_outcome V pipe is_weighted { q with approximation := mode_t.OVER } = true →
        (pipe.write_json_trace V._engine V._reduction is_weighted
          { q with approximation := mode_t.OVER }).1 = true →
        r.runs = [mode_t.OVER] ∧ r.output.result = outcome_t.YES) ∧
      (engine_outcome V pipe is_weighted { q with approximation := mode_t.OVER } = true →
        (pipe.write_json_trace V._engine V._reduction is_weighted
          { q with approximation := mode_t.OVER }).1 = false →
        r.runs = [mode_t.OVER, mode_t.UNDER] ∧
        (r.output.result = outcome_t.YES ↔
          (engine_outcome V pipe is_weighted { q with approximation := mode_t.UNDER } = true ∧
            (pipe.write_json_trace V._engine V._reduction is_weighted
              { q with approximation := mode_t.UNDER }).1 = true)) ∧
        (r.output.result = outcome_t.MAYBE ↔
          ¬ (engine_outcome V pipe is_weighted { q with approximation := mode_t.UNDER } = true ∧
            (pipe.write_json_trace V._engine V._reduction is_weighted
              { q with approximation := mode_t.UNDER }).1 = true))) := by
  have hk0 : q.number_of_failures ≠ 0 := Nat.pos_iff_ne_zero.mp hk
  obtain ⟨r, h1, h2⟩ := run_once_dual V pipe q print_timing is_weighted he hd
  refine ⟨r, h1, ?_⟩
  unfold mode_result at h2
  simp only [if_neg hk0] at h2
  generalize engine_outcome V pipe is_weighted { q with approximation := mode_t.OVER } = eo1 at h2 ⊢
  generalize (pipe.write_json_trace V._engine V._reduction is_weighted
    { q with approximation := mode_t.OVER }).1 = wr1 at h2 ⊢
  generalize engine_outcome V pipe is_weighted { q with approximation := mode_t.UNDER } = eo2 at h2 ⊢
  generalize (pipe.write_json_trace V._engine V._reduction is_weighted
    { q with approximation := mode_t.UNDER }).1 = wr2 at h2 ⊢
  rcases h2 with ⟨h3, h4, h5⟩ | ⟨h3, h4, h5⟩
  · cases eo1 <;> cases wr1 <;> simp_all
  · cases eo1 <;> cases wr1 <;> cases eo2 <;> cases wr2 <;> simp_all

/-- Witness for C8 (amended): `k = 1`, default settings, the engine positive in both modes and
the trace written in mode `UNDER` only. -/
theorem run_once_dual_mode_witness :
    ∃ r, run_once {} (demo_pipeline [mode_t.OVER, mode_t.UNDER] [mode_t.UNDER])
        ⟨mode_t.DUAL, 1, 0⟩ true false = .ok r ∧
      r.runs = [mode_t.OVER, mode_t.UNDER] ∧ r.output.result = outcome_t.YES := by
  obtain ⟨r, h1, _, _, h4⟩ := run_once_dual_mode {}
    (demo_pipeline [mode_t.OVER, mode_t.UNDER] [mode_t.UNDER]) ⟨mode_t.DUAL, 1, 0⟩ true false
    (by decide) rfl (Or.inl rfl)
  obtain ⟨h5, h6, _⟩ := h4 (by decide) (by decide)
  exact ⟨r, h1, h5, h6.mpr ⟨by decide, by decide⟩⟩

/-- C9, as stated, fails: an `EXACT` query with `k = 1` on the default settings, the engine
outcome negative; the result is `MAYBE`, not `NO`. -/
theorem run_once_exact_counterexample :
    engine_outcome {} (demo_pipeline [] []) false ⟨mode_t.EXACT, 1, 0⟩ = false ∧
    ∃ r, run_once {} (demo_pipeline [] []) ⟨mode_t.EXACT, 1, 0⟩ true false = .ok r ∧
      r.output.result = outcome_t.MAYBE :=
  ⟨by decide, _, rfl, by decide⟩

/-- C9 (amended). For every query with approximation `EXACT` and engine 1 or 2: with failure
bound `k = 0`, `run_once` reports `YES` when the engine outcome is positive and `NO` when it is
negative; with `k > 0` it reports `YES` when the engine outcome is positive and the trace was
written and `MAYBE` otherwise, and never `NO`. -/
theorem run_once_exact (V : Verifier) (pipe : pipeline_t) (q : Query)
    (print_timing is_weighted : Bool) (hx : q.approximation = mode_t.EXACT)
    (he : V._engine = 1 ∨ V._engine = 2) :
    ∃ r, run_once V pipe q print_timing is_weighted = .ok r ∧
      (q.number_of_failures = 0 →
        r.output.result =
          (if engine_outcome V pipe is_weighted q = true then outcome_t.YES else outcome_t.NO)) ∧
      (0 < q.number_of_failures →
        r.output.result =
          (if engine_outcome V pipe is_weighted q = true ∧
              (pipe.write_json_trace V._engine V._reduction is_weighted q).1 = true
            then outcome_t.YES else outcome_t.MAYBE)) := by
  obtain ⟨r, h1, _, h3⟩ := run_once_single V pipe q print_timing is_weighted he
    (by rw [hx]; decide)
  refine ⟨r, h1, ?_, ?_⟩
  · intro hk
    rw [h3]
    simp [mode_result, hk]
  · intro hk
    have hk0 : q.number_of_failures ≠ 0 := Nat.pos_iff_ne_zero.mp hk
    rw [h3]
    simp [mode_result, hk0, hx]

/-- Witness for C9 (amended): an `EXACT` query with `k = 1` on the default settings, the engine
positive and the trace written. -/
theorem run_once_exact_witness :
    ∃ r, run_once {} (demo_pipeline [mode_t.EXACT] [mode_t.EXACT]) ⟨mode_t.EXACT, 1, 0⟩ true false
        = .ok r ∧ r.output.result = outcome_t.YES := by
  obtain ⟨r, h1, _, h3⟩ := run_once_exact {} (demo_pipeline [mode_t.EXACT] [mode_t.EXACT])
    ⟨mode_t.EXACT, 1, 0⟩ true false rfl (Or.inl rfl)
  exact ⟨r, h1, by rw [h3 (by decide)]; decide⟩

end Verifier
end aalwines

/-! ## `RoutingTable::merge`: where the entries of the merged table come from -/

namespace mpls2pda
open Query
namespace RoutingTable

/-- Every entry of this table after the loop of `merge`, when `merge` returns, is an entry that
was in this table, as `merged_entry` describes it, or an entry of `other` whose key no entry of
this table had. -/
theorem merge_loop_sound {llt : label_t → label_t → Bool} (hl : label_order llt) (name : String)
    (parent : Interface_ptr) (b : Bool) :
    ∀ (os pre post : List entry_t) (af : Bool) (w : List warning_t) (a : Bool),
      merge_inv llt os pre post →
      (merge_loop llt name parent os pre post af w a).ret = .ok b →
      ∀ r ∈ (merge_loop llt name parent os pre post af w a).table._entries,
        (∃ x ∈ pre ++ post, r = merged_entry parent os x) ∨
        (r ∈ os ∧ ∀ x ∈ pre ++ post, entry_t.eq x r = false)
  | [], pre, post, af, w, a, _, _ => by
    intro r hr
    simp only [merge_loop] at hr
    exact Or.inl ⟨r, hr, by simp [merged_entry]⟩
  | e :: rest, pre, post, af, w, a, h, hret => by
    intro r hr
    rw [merge_loop] at hret hr
    split_ifs at hret hr with hf
    · rcases merge_loop_sound hl name parent b rest pre post af w a (inv_skip h) hret r hr with
        ⟨x, hx, hrx⟩ | ⟨hr1, hr2⟩
      · exact Or.inl ⟨x, hx, by rw [merged_entry_skip rest (by simp [hf])]; exact hrx⟩
      · exact Or.inr ⟨List.mem_cons_of_mem _ hr1, hr2⟩
    · have hf1 : foreign parent e = false := by simpa using hf
      simp only at hret hr
      split at hret
      · rename_i hd
        rw [hd] at hr
        simp only at hr
        have hpp : pre ++ post = pre ++ post.takeWhile (fun i => entry_t.lt llt i e) := by
          have := split_at_iit _ pre post hd
          rw [List.append_nil] at this
          exact this.symm
        have hlt : ∀ x ∈ pre ++ post, ∀ e1 ∈ e :: rest, entry_t.lt llt x e1 = true := by
          intro x hx e1 he1
          rw [hpp] at hx
          rcases List.mem_cons.mp he1 with rfl | he1
          · exact inv_before h x hx
          · exact inv_before_rest hl h x hx e1 he1
        rcases List.mem_append.mp hr with hr1 | hr1
        · rw [← hpp] at hr1
          refine Or.inl ⟨r, hr1, ?_⟩
          rw [merged_entry_none (fun e1 he1 => entry_lt_ne hl (hlt r hr1 e1 he1))]
        · exact Or.inr ⟨hr1, fun x hx => entry_lt_ne hl (hlt x hx r hr1)⟩
      · rename_i i post1 hd
        rw [hd] at hr
        simp only at hr
        have hsplit := split_at_iit _ pre post hd
        have hs1 := h.1
        rw [← hsplit] at hs1
        have hi_mem : i ∈ (pre ++ post.takeWhile (fun i => entry_t.lt llt i e)) ++ i :: post1 :=
          List.mem_append_right _ (List.mem_cons_self _ _)
        split_ifs at hret hr with heq hsil
        · -- silent collision
          rcases merge_loop_sound hl name parent b rest _ _ af w a
            (inv_collide hl h hd rfl) hret r hr with ⟨x, hx, hrx⟩ | ⟨hr1, hr2⟩
          · refine Or.inl ⟨x, by rw [← hsplit]; exact hx, ?_⟩
            by_cases hxe : entry_t.eq x e = true
            · have hxi : x = i := strict_key_inj hl hs1 hx hi_mem
                (((eq_iff_key x e).mp hxe).trans ((eq_iff_key i e).mp heq).symm)
              rw [merged_entry_none (no_hit_after hl h.2.1 ((eq_iff_key x e).mp hxe))] at hrx
              rw [merged_entry_hit rest hf1 hxe, hrx, hxi]
              simp [collide, hsil]
            · rw [merged_entry_skip rest (by simp [hxe])]
              exact hrx
          · exact Or.inr ⟨List.mem_cons_of_mem _ hr1, by rw [← hsplit]; exact hr2⟩
        · split at hret
          · simp at hret
          · -- collision with the rules appended
            rename_i u hprint
            rw [hprint] at hr
            simp only at hr
            have hsil1 : silent e i = false := by simpa using hsil
            have hinv := inv_collide (j := { i with _rules := i._rules ++ e._rules }) hl h hd rfl
            have hj_mem : ({ i with _rules := i._rules ++ e._rules } : entry_t) ∈
                (pre ++ post.takeWhile (fun i => entry_t.lt llt i e)) ++
                  { i with _rules := i._rules ++ e._rules } :: post1 :=
              List.mem_append_right _ (List.mem_cons_self _ _)
            have hkj : key ({ i with _rules := i._rules ++ e._rules } : entry_t) = key e :=
              (eq_iff_key i e).mp heq
            rcases merge_loop_sound hl name parent b rest _ _ false _ a hinv hret r hr with
              ⟨x, hx, hrx⟩ | ⟨hr1, hr2⟩
            · by_cases hxe : entry_t.eq x e = true
              · have hxj : x = { i with _rules := i._rules ++ e._rules } :=
                  strict_key_inj hl hinv.1 hx hj_mem (((eq_iff_key x e).mp hxe).trans hkj.symm)
                refine Or.inl ⟨i, by rw [← hsplit]; exact hi_mem, ?_⟩
                rw [merged_entry_none (no_hit_after hl h.2.1 ((eq_iff_key x e).mp hxe))] at hrx
                rw [merged_entry_hit rest hf1 heq, hrx, hxj]
                simp [collide, hsil1]
              · have hxj : x ≠ { i with _rules := i._rules ++ e._rules } := by
                  intro hc
                  apply hxe
                  rw [eq_iff_key, hc]
                  exact hkj
                have hx2 : x ∈ pre ++ post := by
                  rw [← hsplit]
                  rcases List.mem_append.mp hx with hx1 | hx1
                  · exact List.mem_append_left _ hx1
                  · rcases List.mem_cons.mp hx1 with hx1 | hx1
                    · exact absurd hx1 hxj
                    · exact List.mem_append_right _ (List.mem_cons_of_mem _ hx1)
                refine Or.inl ⟨x, hx2, ?_⟩
                rw [merged_entry_skip rest (by simp [hxe])]
                exact hrx
            · refine Or.inr ⟨List.mem_cons_of_mem _ hr1, ?_⟩
              intro x hx
              rw [← hsplit] at hx
              rcases List.mem_append.mp hx with hx1 | hx1
              · exact hr2 x (List.mem_append_left _ hx1)
              · rcases List.mem_cons.mp hx1 with hx1 | hx1
                · have := hr2 _ hj_mem
                  rw [eq_false_iff_key] at this ⊢
                  rw [hx1]
                  exact this
                · exact hr2 x (List.mem_append_right _ (List.mem_cons_of_mem _ hx1))
        · -- insertion
          have hne : entry_t.eq i e = false := by simpa using heq
          have h2 := inv_insert hl h hd hne
          have he_mem : e ∈ (pre ++ post.takeWhile (fun i => entry_t.lt llt i e)) ++
              e :: i :: post1 := List.mem_append_right _ (List.mem_cons_self _ _)
          have hnoe : ∀ x ∈ pre ++ post, entry_t.eq x e = false := by
            intro x hx
            rw [← hsplit] at hx
            rcases List.mem_append.mp hx with hx1 | hx1
            · exact entry_lt_ne hl (inv_before h x hx1)
            · rcases List.mem_cons.mp hx1 with hx1 | hx1
              · rw [hx1]; exact hne
              · have h3 := (List.pairwise_cons.mp (List.pairwise_append.mp hs1).2.1).1 x hx1
                rw [eq_comm_entry]
                exact entry_lt_ne hl (entry_lt_trans hl h2.1 h3)
          rcases merge_loop_sound hl name parent b rest _ _ af w _ h2.2 hret r hr with
            ⟨x, hx, hrx⟩ | ⟨hr1, hr2⟩
          · by_cases hxe : entry_t.eq x e = true
            · have hxe1 : x = e := strict_key_inj hl h2.2.1 hx he_mem ((eq_iff_key x e).mp hxe)
              rw [merged_entry_none (no_hit_after hl h.2.1 ((eq_iff_key x e).mp hxe))] at hrx
              rw [hrx, hxe1]
              exact Or.inr ⟨List.mem_cons_self _ _, hnoe⟩
            · have hx2 : x ∈ pre ++ post := by
                rw [← hsplit]
                rcases List.mem_append.mp hx with hx1 | hx1
                · exact List.mem_append_left _ hx1
                · rcases List.mem_cons.mp hx1 with hx1 | hx1
                  · rw [hx1] at hxe
                    exact absurd ((eq_iff_key e e).mpr rfl) hxe
                  · exact List.mem_append_right _ hx1
              refine Or.inl ⟨x, hx2, ?_⟩
              rw [merged_entry_skip rest (by simp [hxe])]
              exact hrx
          · refine Or.inr ⟨List.mem_cons_of_mem _ hr1, ?_⟩
            intro x hx
            rw [← hsplit] at hx
            rcases List.mem_append.mp hx with hx1 | hx1
            · exact hr2 x (List.mem_append_left _ hx1)
            · exact hr2 x (List.mem_append_right _ (List.mem_cons_of_mem _ hx1))

/-- No entry of a strictly sorted list has the key of an entry in front of it. -/
theorem strict_head_key {llt : label_t → label_t → Bool} (hl : label_order llt) {a : entry_t}
    {t : List entry_t} (h : strict llt (a :: t)) : key a ∉ t.map key := by
  intro hmem
  obtain ⟨z, hz, hzk⟩ := List.mem_map.mp hmem
  have hlt := (List.pairwise_cons.mp h).1 z hz
  rw [entry_lt_congr llt rfl hzk, entry_lt_irrefl hl] at hlt
  exact Bool.noConfusion hlt

/-- Two strictly sorted lists with the same set of keys have the same sequence of keys. -/
theorem strict_keys_ext {llt : label_t → label_t → Bool} (hl : label_order llt) :
    ∀ (l1 l2 : List entry_t), strict llt l1 → strict llt l2 →
      (∀ k, k ∈ l1.map key ↔ k ∈ l2.map key) → l1.map key = l2.map key
  | [], [], _, _, _ => rfl
  | [], c :: t2, _, _, h => by
    have := (h (key c)).mpr (by simp)
    simp at this
  | a :: t1, [], _, _, h => by
    have := (h (key a)).mp (by simp)
    simp at this
  | a :: t1, c :: t2, h1, h2, h => by
    have hac : key a = key c := by
      by_contra hne
      have hca : entry_t.lt llt c a = true := by
        have := (h (key a)).mp (by simp)
        rcases List.mem_cons.mp this with h3 | h3
        · exact absurd h3 hne
        · obtain ⟨y, hy, hyk⟩ := List.mem_map.mp h3
          rw [← entry_lt_congr llt rfl hyk]
          exact (List.pairwise_cons.mp h2).1 y hy
      have hac1 : entry_t.lt llt a c = true := by
        have := (h (key c)).mpr (by simp)
        rcases List.mem_cons.mp this with h3 | h3
        · exact absurd h3.symm hne
        · obtain ⟨z, hz, hzk⟩ := List.mem_map.mp h3
          rw [← entry_lt_congr llt rfl hzk]
          exact (List.pairwise_cons.mp h1).1 z hz
      rw [entry_lt_asymm hl hca] at hac1
      exact Bool.noConfusion hac1
    have htl : ∀ k, k ∈ t1.map key ↔ k ∈ t2.map key := by
      intro k
      constructor
      · intro hk
        have := (h k).mp (List.mem_cons_of_mem _ hk)
        rcases List.mem_cons.mp this with h3 | h3
        · rw [h3, ← hac] at hk
          exact absurd hk (strict_head_key hl h1)
        · exact h3
      · intro hk
        have := (h k).mpr (List.mem_cons_of_mem _ hk)
        rcases List.mem_cons.mp this with h3 | h3
        · rw [h3, hac] at hk
          exact absurd hk (strict_head_key hl h2)
        · exact h3
    rw [List.map_cons, List.map_cons, hac,
      strict_keys_ext hl t1 t2 (List.pairwise_cons.mp h1).2 (List.pairwise_cons.mp h2).2 htl]

/-- The test for a silent collision does not depend on the side. -/
theorem silent_comm (e i : entry_t) : silent e i = silent i e := by
  unfold silent
  rcases he : e._rules with _ | ⟨re, _ | ⟨re1, rs⟩⟩ <;>
    rcases hi : i._rules with _ | ⟨ri, _ | ⟨ri1, rs1⟩⟩ <;> simp only
  by_cases h : re._type = ri._type
  · simp [h]
  · have h1 : ¬ ri._type = re._type := fun h2 => h h2.symm
    simp [h, h1]

/-- An entry without an ingress other than `parent` is not skipped by `merge`. -/
theorem not_foreign {parent : Interface_ptr} {e : entry_t}
    (h : e._ingoing = nullptr ∨ e._ingoing = parent) : foreign parent e = false := by
  unfold foreign
  rcases h with h | h <;> simp [h]

/-- The keys of this table after `merge`, when it returns and no entry of `other` is skipped:
those of this table and those of `other`. -/
theorem merge_key_set (llt : label_t → label_t → Bool) (this other : RoutingTable)
    (parent : Interface_ptr) (b : Bool)
    (ho : ∀ e ∈ other._entries, e._ingoing = nullptr ∨ e._ingoing = parent)
    (hret : (merge llt this other parent).ret = .ok b) (k : Interface_ptr × label_t × Bool) :
    k ∈ (merge llt this other parent).table._entries.map key ↔
      k ∈ this._entries.map key ∨ k ∈ other._entries.map key := by
  obtain ⟨h1, h2, h3⟩ := merge_loop_keys llt this._name parent other._entries [] this._entries
    true [] (is_sorted llt other._entries && is_sorted llt this._entries)
  constructor
  · intro hk
    obtain ⟨r, hr, hrk⟩ := List.mem_map.mp hk
    rw [← hrk]
    exact h3 r hr
  · rintro (hk | hk)
    · obtain ⟨x, hx, hxk⟩ := List.mem_map.mp hk
      rw [← hxk]
      exact h1 x hx
    · obtain ⟨e, he, hek⟩ := List.mem_map.mp hk
      rw [← hek]
      exact h2 b hret e he (not_foreign (ho e he))

/-- The rules of an entry of the table merged one way and of the entry with the same key of the
table merged the other way. -/
theorem merge_rules_comm {llt : label_t → label_t → Bool} (hl : label_order llt)
    (A B : RoutingTable) (parent : Interface_ptr) (hA : strict llt A._entries)
    (hB : strict llt B._entries)
    (hiA : ∀ e ∈ A._entries, e._ingoing = nullptr ∨ e._ingoing = parent)
    (hiB : ∀ e ∈ B._entries, e._ingoing = nullptr ∨ e._ingoing = parent)
    (x y : entry_t)
    (hx : (∃ i ∈ A._entries, x = merged_entry parent B._entries i) ∨
      (x ∈ B._entries ∧ ∀ i ∈ A._entries, entry_t.eq i x = false))
    (hy : (∃ j ∈ B._entries, y = merged_entry parent A._entries j) ∨
      (y ∈ A._entries ∧ ∀ j ∈ B._entries, entry_t.eq j y = false))
    (hk : key x = key y) :
    x._rules.Perm y._rules ∨ (x ∈ A._entries ∧ y ∈ B._entries ∧ silent y x = true) := by
  have hkm : ∀ (os : List entry_t) (i : entry_t), key (merged_entry parent os i) = key i := by
    intro os i
    unfold merged_entry
    split
    · rfl
    · exact key_collide _ _
  rcases hx with ⟨i, hi, hxi⟩ | ⟨hxB, hxno⟩ <;> rcases hy with ⟨j, hj, hyj⟩ | ⟨hyA, hyno⟩
  · -- an entry of each table, of the same key
    have hij : key i = key j := by
      rw [← hkm B._entries i, ← hxi, hk, hyj, hkm]
    have heq : entry_t.eq i j = true := (eq_iff_key i j).mpr hij
    have heq1 : entry_t.eq j i = true := (eq_iff_key j i).mpr hij.symm
    rw [merged_entry_of_mem hl parent i j (not_foreign (hiB j hj)) heq hB hj] at hxi
    rw [merged_entry_of_mem hl parent j i (not_foreign (hiA i hi)) heq1 hA hi] at hyj
    cases hsil : silent j i with
    | true =>
      right
      have hsil1 : silent i j = true := by rw [silent_comm]; exact hsil
      have hx1 : x = i := by rw [hxi]; simp [collide, hsil]
      have hy1 : y = j := by rw [hyj]; simp [collide, hsil1]
      rw [hx1, hy1]
      exact ⟨hi, hj, hsil⟩
    | false =>
      left
      have hsil1 : silent i j = false := by rw [silent_comm]; exact hsil
      have hx1 : x._rules = i._rules ++ j._rules := by rw [hxi]; simp [collide, hsil]
      have hy1 : y._rules = j._rules ++ i._rules := by rw [hyj]; simp [collide, hsil1]
      rw [hx1, hy1]
      exact List.perm_append_comm
  · -- an entry of `A` alone
    left
    have hiy : i = y := strict_key_inj hl hA hi hyA (by rw [← hkm B._entries i, ← hxi, hk])
    have : merged_entry parent B._entries i = i := by
      apply merged_entry_none
      intro e he
      rw [hiy, eq_comm_entry]
      exact hyno e he
    rw [hxi, this, hiy]
  · -- an entry of `B` alone
    left
    have hjx : j = x := strict_key_inj hl hB hj hxB (by rw [← hkm A._entries j, ← hyj, hk])
    have : merged_entry parent A._entries j = j := by
      apply merged_entry_none
      intro e he
      rw [hjx, eq_comm_entry]
      exact hxno e he
    rw [hyj, this, hjx]
  · exfalso
    have := hxno y hyA
    rw [eq_false_iff_key] at this
    exact this hk.symm

/-- C11, as stated, fails. An entry bound to another interface than `parent` stays in the table
it is in and is skipped when that table is merged into another one: the two merged tables have
different sequences of keys. Where two entries collide silently, each merged table keeps the
rule of its own entry: here two `DISCARD` rules of different weight. And where `print_label`
throws at a collision, each table is left with its own rules. -/
theorem merge_commutes_counterexample :
    (is_sorted label_lex [demo_entry 3 1 [demo_swap 33 8]] = true ∧
      (merge label_lex ⟨"a", [demo_entry 3 1 [demo_swap 33 8]]⟩ ⟨"b", []⟩ 5).ret = .ok true ∧
      (merge label_lex ⟨"b", []⟩ ⟨"a", [demo_entry 3 1 [demo_swap 33 8]]⟩ 5).ret = .ok true ∧
      (merge label_lex ⟨"a", [demo_entry 3 1 [demo_swap 33 8]]⟩ ⟨"b", []⟩ 5).table._entries.map
          key ≠
        (merge label_lex ⟨"b", []⟩ ⟨"a", [demo_entry 3 1 [demo_swap 33 8]]⟩ 5).table._entries.map
          key) ∧
    (is_sorted label_lex [demo_entry 0 13 [demo_discard]] = true ∧
      is_sorted label_lex [demo_entry 0 13 [⟨type_t.DISCARD, [], nullptr, 1⟩]] = true ∧
      (merge label_lex ⟨"a", [demo_entry 0 13 [demo_discard]]⟩
        ⟨"b", [demo_entry 0 13 [⟨type_t.DISCARD, [], nullptr, 1⟩]]⟩ 5).table._entries =
        [demo_entry 0 13 [demo_discard]] ∧
      (merge label_lex ⟨"b", [demo_entry 0 13 [⟨type_t.DISCARD, [], nullptr, 1⟩]]⟩
        ⟨"a", [demo_entry 0 13 [demo_discard]]⟩ 5).table._entries =
        [demo_entry 0 13 [⟨type_t.DISCARD, [], nullptr, 1⟩]] ∧
      ¬ (demo_entry 0 13 [demo_discard])._rules.Perm
        (demo_entry 0 13 [⟨type_t.DISCARD, [], nullptr, 1⟩])._rules) ∧
    ((merge label_lex ⟨"a", [⟨⟨Query.type_t.INTERFACE, 0, 2⟩, false, nullptr, [demo_swap 21 7]⟩]⟩
        ⟨"b", [⟨⟨Query.type_t.INTERFACE, 0, 2⟩, false, nullptr, [demo_swap 31 8]⟩]⟩
        5).table._entries =
        [⟨⟨Query.type_t.INTERFACE, 0, 2⟩, false, nullptr, [demo_swap 21 7]⟩] ∧
      (merge label_lex ⟨"b", [⟨⟨Query.type_t.INTERFACE, 0, 2⟩, false, nullptr, [demo_swap 31 8]⟩]⟩
        ⟨"a", [⟨⟨Query.type_t.INTERFACE, 0, 2⟩, false, nullptr, [demo_swap 21 7]⟩]⟩
        5).table._entries =
        [⟨⟨Query.type_t.INTERFACE, 0, 2⟩, false, nullptr, [demo_swap 31 8]⟩] ∧
      ¬ [demo_swap 21 7].Perm [demo_swap 31 8]) :=
  ⟨⟨by decide, rfl, rfl, by decide⟩, ⟨by decide, by decide, by decide, by decide, by decide⟩,
    ⟨by decide, by decide, by decide⟩⟩

/-- C11 (amended). `merge` is commutative up to rule order for tables whose entries are bound to
no other interface than `parent`: for every pair of sorted tables `A` and `B` with pairwise
distinct keys, all of whose entries have an ingress that is unset or equal to `parent`, when
both merges return, the table produced by merging `B` into `A` and the one produced by merging
`A` into `B` have the same sequence of entry keys, and for each key the same multiset of rules,
except where the two entries of that key are a silently deduplicated pair: there the first table
keeps the entry of `A` and the second one the entry of `B`, each with its single rule, the two
rules being of the same kind. -/
theorem merge_commutes (llt : label_t → label_t → Bool) (hl : label_order llt)
    (A B : RoutingTable) (parent : Interface_ptr)
    (hsA : is_sorted llt A._entries = true) (hdA : distinct_keys A._entries)
    (hsB : is_sorted llt B._entries = true) (hdB : distinct_keys B._entries)
    (hiA : ∀ e ∈ A._entries, e._ingoing = nullptr ∨ e._ingoing = parent)
    (hiB : ∀ e ∈ B._entries, e._ingoing = nullptr ∨ e._ingoing = parent)
    (b1 b2 : Bool) (h1 : (merge llt A B parent).ret = .ok b1)
    (h2 : (merge llt B A parent).ret = .ok b2) :
    (merge llt A B parent).table._entries.map key =
      (merge llt B A parent).table._entries.map key ∧
    ∀ x ∈ (merge llt A B parent).table._entries, ∀ y ∈ (merge llt B A parent).table._entries,
      key x = key y →
        x._rules.Perm y._rules ∨ (x ∈ A._entries ∧ y ∈ B._entries ∧ silent y x = true) := by
  have hA := strict_of_sorted_distinct hl hsA hdA
  have hB := strict_of_sorted_distinct hl hsB hdB
  have hinv1 : merge_inv llt B._entries [] A._entries := ⟨hA, hB, fun p hp => by cases hp⟩
  have hinv2 : merge_inv llt A._entries [] B._entries := ⟨hB, hA, fun p hp => by cases hp⟩
  constructor
  · apply strict_keys_ext hl
    · exact (merge_loop_strict hl A._name parent B._entries [] A._entries true [] _ hinv1).1
    · exact (merge_loop_strict hl B._name parent A._entries [] B._entries true [] _ hinv2).1
    · intro k
      rw [merge_key_set llt A B parent b1 hiB h1 k, merge_key_set llt B A parent b2 hiA h2 k]
      exact Or.comm
  · intro x hx y hy hk
    have hx1 := merge_loop_sound hl A._name parent b1 B._entries [] A._entries true [] _ hinv1
      h1 x hx
    have hy1 := merge_loop_sound hl B._name parent b2 A._entries [] B._entries true [] _ hinv2
      h2 y hy
    simp only [List.nil_append] at hx1 hy1
    exact merge_rules_comm hl A B parent hA hB hiA hiB x y hx1 hy1 hk

/-- Witness for C11 (amended): `demo_this` and `demo_near`, merged either way for the interface
at address 5. The entries for label 11 collide and those for label 13 collide silently. -/
theorem merge_commutes_witness :
    (merge label_lex demo_this demo_near 5).table._entries.map key =
      (merge label_lex demo_near demo_this 5).table._entries.map key ∧
    ∀ x ∈ (merge label_lex demo_this demo_near 5).table._entries,
      ∀ y ∈ (merge label_lex demo_near demo_this 5).table._entries,
        key x = key y →
          x._rules.Perm y._rules ∨
            (x ∈ demo_this._entries ∧ y ∈ demo_near._entries ∧ silent y x = true) :=
  merge_commutes label_lex label_lex_order demo_this demo_near 5
    (by decide) (by unfold distinct_keys; decide) (by decide) (by unfold distinct_keys; decide)
    (by decide) (by decide) false false rfl rfl

end RoutingTable
end mpls2pda

/-! ## `RoutingTable::merge`: when it throws, and what the value returned tells -/

namespace mpls2pda
open Query
namespace RoutingTable

/-- When the loop of `merge` throws, an entry of `other` that overlaps has a label that
`print_label` does not print. -/
theorem merge_loop_throws {llt : label_t → label_t → Bool} (hl : label_order llt) (name : String)
    (parent : Interface_ptr) (err : base_error) :
    ∀ (os pre post : List entry_t) (af : Bool) (w : List warning_t) (a : Bool),
      merge_inv llt os pre post →
      (merge_loop llt name parent os pre post af w a).ret = .error err →
      ∃ e ∈ os.filter (overlapping parent (pre ++ post)),
        entry_t.print_label e._top_label = .error err
  | [], pre, post, af, w, a, _, hret => by
    simp [merge_loop] at hret
  | e :: rest, pre, post, af, w, a, h, hret => by
    rw [merge_loop] at hret
    split_ifs at hret with hf
    · obtain ⟨e1, he1, hp⟩ :=
        merge_loop_throws hl name parent err rest pre post af w a (inv_skip h) hret
      exact ⟨e1, List.mem_filter.mpr ⟨List.mem_cons_of_mem _ (List.mem_filter.mp he1).1,
        (List.mem_filter.mp he1).2⟩, hp⟩
    · have hf1 : foreign parent e = false := by simpa using hf
      simp only at hret
      split at hret
      · simp at hret
      · rename_i i post1 hd
        have hs1 := h.1
        rw [← split_at_iit _ pre post hd] at hs1
        have hL : pre ++ post =
            pre ++ post.takeWhile (fun i => entry_t.lt llt i e) ++ [i] ++ post1 := by
          rw [← split_at_iit _ pre post hd]; simp
        have hi_mem : i ∈ (pre ++ post.takeWhile (fun i => entry_t.lt llt i e)) ++ i :: post1 :=
          List.mem_append_right _ (List.mem_cons_self _ _)
        split_ifs at hret with heq hsil
        · -- silent collision
          obtain ⟨e1, he1, hp⟩ := merge_loop_throws hl name parent err rest _ _ af w a
            (inv_collide hl h hd rfl) hret
          rw [split_at_iit _ pre post hd] at he1
          exact ⟨e1, List.mem_filter.mpr ⟨List.mem_cons_of_mem _ (List.mem_filter.mp he1).1,
            (List.mem_filter.mp he1).2⟩, hp⟩
        · have hsil1 : silent e i = false := by simpa using hsil
          have hov : overlapping parent (pre ++ post) e = true := by
            rw [← split_at_iit _ pre post hd]
            exact overlapping_true hf1 hi_mem heq hsil1
          split at hret
          · -- `print_label` throws
            rename_i err1 hprint
            simp only [Except.error.injEq] at hret
            rw [hret] at hprint
            exact ⟨e, List.mem_filter.mpr ⟨List.mem_cons_self _ _, hov⟩, hprint⟩
          · -- collision with the rules appended
            have hinv := inv_collide (j := { i with _rules := i._rules ++ e._rules }) hl h hd rfl
            obtain ⟨e1, he1, hp⟩ :=
              merge_loop_throws hl name parent err rest _ _ false _ a hinv hret
            have hcongr : rest.filter (overlapping parent
                (pre ++ post.takeWhile (fun i => entry_t.lt llt i e) ++
                  { i with _rules := i._rules ++ e._rules } :: post1)) =
                rest.filter (overlapping parent (pre ++ post)) := by
              rw [hL]
              have := filter_overlapping_congr parent
                (pre ++ post.takeWhile (fun i => entry_t.lt llt i e)) post1
                [{ i with _rules := i._rules ++ e._rules }] [i] rest
                (by
                  intro e1 he1 x hx
                  rw [List.mem_singleton] at hx
                  rw [hx]
                  exact no_hit_after hl h.2.1 ((eq_iff_key i e).mp heq) e1 he1)
                (by
                  intro e1 he1 x hx
                  rw [List.mem_singleton] at hx
                  rw [hx]
                  exact no_hit_after hl h.2.1 ((eq_iff_key i e).mp heq) e1 he1)
              simpa using this
            rw [hcongr] at he1
            exact ⟨e1, List.mem_filter.mpr ⟨List.mem_cons_of_mem _ (List.mem_filter.mp he1).1,
              (List.mem_filter.mp he1).2⟩, hp⟩
        · -- insertion
          have hne : entry_t.eq i e = false := by simpa using heq
          have h2 := inv_insert hl h hd hne
          obtain ⟨e1, he1, hp⟩ := merge_loop_throws hl name parent err rest _ _ af w _ h2.2 hret
          have hcongr : rest.filter (overlapping parent
              (pre ++ post.takeWhile (fun i => entry_t.lt llt i e) ++ e :: i :: post1)) =
              rest.filter (overlapping parent (pre ++ post)) := by
            rw [hL]
            have := filter_overlapping_congr parent
              (pre ++ post.takeWhile (fun i => entry_t.lt llt i e)) (i :: post1) [e] [] rest
              (by
                intro e1 he1 x hx
                rw [List.mem_singleton] at hx
                rw [hx]
                exact no_hit_after hl h.2.1 rfl e1 he1)
              (by intro e1 _ x hx; cases hx)
            simpa using this
          rw [hcongr] at he1
          exact ⟨e1, List.mem_filter.mpr ⟨List.mem_cons_of_mem _ (List.mem_filter.mp he1).1,
            (List.mem_filter.mp he1).2⟩, hp⟩

/-- What it is for an entry of `other` to overlap. -/
theorem overlapping_iff (parent : Interface_ptr) (l : List entry_t) (e : entry_t) :
    overlapping parent l e = true ↔
      foreign parent e = false ∧ ∃ i ∈ l, entry_t.eq i e = true ∧ silent e i = false := by
  unfold overlapping
  simp only [Bool.and_eq_true, Bool.not_eq_true', List.any_eq_true]

/-- What it is for `print_label` to throw. -/
theorem print_label_error (l : label_t) (err : base_error)
    (h : entry_t.print_label l = .error err) :
    err = base_error.interfaces_cannot_be_pushdown_labels ∧
      (l._type = Query.type_t.INTERFACE ∨ l._type = Query.type_t.NONE) := by
  unfold entry_t.print_label at h
  cases ht : l._type <;> rw [ht] at h <;> simp at h <;> simp [h]

/-- C12. For tables that are sorted with pairwise distinct keys, the top labels of `other` being
pushdown labels (not of type `INTERFACE` or `NONE`, which `print_label` asserts never to meet),
`merge` does not fail: it returns, and its boolean result reports overlaps exactly. It returns
`false` iff it wrote at least one overlap warning, which happens iff some entry of `other` with
ingress unset or equal to `parent` has the key of an entry of this table and the pair is not a
silently deduplicated one; otherwise it returns `true` and writes nothing. -/
theorem merge_reports (llt : label_t → label_t → Bool) (hl : label_order llt)
    (this other : RoutingTable) (parent : Interface_ptr)
    (hs1 : is_sorted llt this._entries = true) (hd1 : distinct_keys this._entries)
    (hs2 : is_sorted llt other._entries = true) (hd2 : distinct_keys other._entries)
    (hp : ∀ e ∈ other._entries, e._top_label._type ≠ Query.type_t.INTERFACE ∧
      e._top_label._type ≠ Query.type_t.NONE) :
    ∃ b, (merge llt this other parent).ret = .ok b ∧
      (b = false ↔ (merge llt this other parent).warnings ≠ []) ∧
      ((merge llt this other parent).warnings ≠ [] ↔
        ∃ e ∈ other._entries, ∃ i ∈ this._entries,
          (e._ingoing = nullptr ∨ e._ingoing = parent) ∧ entry_t.eq i e = true ∧
          silent e i = false) ∧
      (b = true → (merge llt this other parent).warnings = []) := by
  have hinv : merge_inv llt other._entries [] this._entries :=
    ⟨strict_of_sorted_distinct hl hs1 hd1, strict_of_sorted_distinct hl hs2 hd2,
      fun p hp => by cases hp⟩
  have hfor : ∀ e : entry_t, foreign parent e = false ↔
      (e._ingoing = nullptr ∨ e._ingoing = parent) := by
    intro e
    unfold foreign
    by_cases h1 : e._ingoing = nullptr <;> by_cases h2 : e._ingoing = parent <;> simp [h1, h2]
  obtain ⟨b, hret0⟩ := merge_loop_returns llt this._name parent other._entries []
    this._entries true [] (is_sorted llt other._entries && is_sorted llt this._entries) hp
  have hret : (merge llt this other parent).ret = .ok b := hret0
  refine ⟨b, hret, ?_⟩
  obtain ⟨hw, hb, _⟩ := merge_loop_warnings hl this._name parent b other._entries []
    this._entries true [] (is_sorted llt other._entries && is_sorted llt this._entries)
    hinv hret
  have hw1 : (merge llt this other parent).warnings =
      (other._entries.filter (overlapping parent this._entries)).map
        (fun e => warning_t.overlap e._top_label parent) := by
    simpa using hw
  have hb1 : b = (other._entries.filter (overlapping parent this._entries)).isEmpty := by
    simpa using hb
  have hne : (merge llt this other parent).warnings ≠ [] ↔
      other._entries.filter (overlapping parent this._entries) ≠ [] := by
    rw [hw1]; simp
  have hex : other._entries.filter (overlapping parent this._entries) ≠ [] ↔
      ∃ e ∈ other._entries, ∃ i ∈ this._entries,
        (e._ingoing = nullptr ∨ e._ingoing = parent) ∧ entry_t.eq i e = true ∧
        silent e i = false := by
    rw [Ne, List.filter_eq_nil_iff]
    push_neg
    constructor
    · rintro ⟨e, he, hov⟩
      obtain ⟨hf, i, hi, heq, hsil⟩ := (overlapping_iff parent _ e).mp hov
      exact ⟨e, he, i, hi, (hfor e).mp hf, heq, hsil⟩
    · rintro ⟨e, he, i, hi, hing, heq, hsil⟩
      exact ⟨e, he, (overlapping_iff parent _ e).mpr ⟨(hfor e).mpr hing, i, hi, heq, hsil⟩⟩
  refine ⟨?_, hne.trans hex, ?_⟩
  · rw [hne, hb1]
    cases hfil : other._entries.filter (overlapping parent this._entries) <;> simp
  · intro hbt
    rw [hb1] at hbt
    rw [hw1, List.isEmpty_iff.mp hbt]
    rfl

/-- Witness for C12: `demo_other` merged into `demo_this` for the interface at address 5
returns `false` and has written a warning. -/
theorem merge_reports_witness :
    (merge label_lex demo_this demo_other 5).ret = .ok false ∧
    (merge label_lex demo_this demo_other 5).warnings ≠ [] ∧
    ∃ e ∈ demo_other._entries, ∃ i ∈ demo_this._entries,
      (e._ingoing = nullptr ∨ e._ingoing = 5) ∧ entry_t.eq i e = true ∧
      silent e i = false := by
  obtain ⟨b, h1, h2, h3, _⟩ := merge_reports label_lex label_lex_order demo_this demo_other 5
    (by decide) (by unfold distinct_keys; decide) (by decide)
    (by unfold distinct_keys; decide) (by decide)
  have hb : b = false := by
    have h : (Except.ok b : Except base_error Bool) = Except.ok false := h1.symm.trans rfl
    exact Except.ok.inj h
  subst hb
  exact ⟨h1, h2.mp rfl, h3.mp (h2.mp rfl)⟩

end RoutingTable
end mpls2pda

/-! ## The order and the equality of entries: the claim -/

namespace mpls2pda
open Query
namespace RoutingTable

/-- C13. `entry_t::operator==` holds iff the two entries agree on ingress interface, top label
and decreasing flag, and `entry_t::operator<` is the lexicographic order on ingress (by address),
decreasing flag (`false` before `true`) and top label. When the order on labels is a strict total
order, exactly one of `a < b`, `a == b`, `b < a` holds for every two entries, and `<` is
transitive and irreflexive. -/
theorem entry_order (llt : label_t → label_t → Bool) (a b c : entry_t) :
    (entry_t.eq a b = true ↔
      a._ingoing = b._ingoing ∧ a._top_label = b._top_label ∧
        a._decreasing = b._decreasing) ∧
    (entry_t.lt llt a b = true ↔
      a._ingoing < b._ingoing ∨ (a._ingoing = b._ingoing ∧
        ((a._decreasing = false ∧ b._decreasing = true) ∨
          (a._decreasing = b._decreasing ∧ llt a._top_label b._top_label = true)))) ∧
    (label_order llt →
      ((entry_t.lt llt a b = true ∧ entry_t.eq a b = false ∧ entry_t.lt llt b a = false) ∨
        (entry_t.lt llt a b = false ∧ entry_t.eq a b = true ∧ entry_t.lt llt b a = false) ∨
        (entry_t.lt llt a b = false ∧ entry_t.eq a b = false ∧ entry_t.lt llt b a = true)) ∧
      (entry_t.lt llt a b = true → entry_t.lt llt b c = true → entry_t.lt llt a c = true) ∧
      entry_t.lt llt a a = false) := by
  refine ⟨?_, entry_lt_iff llt a b, ?_⟩
  · rw [eq_iff_key]
    simp only [key, Prod.mk.injEq]
  · intro hl
    refine ⟨?_, fun hab hbc => entry_lt_trans hl hab hbc, entry_lt_irrefl hl a⟩
    cases hab : entry_t.lt llt a b with
    | true => exact Or.inl ⟨rfl, entry_lt_ne hl hab, entry_lt_asymm hl hab⟩
    | false =>
      cases heq : entry_t.eq a b with
      | true =>
        refine Or.inr (Or.inl ⟨rfl, rfl, ?_⟩)
        rw [eq_iff_key] at heq
        rw [entry_lt_congr llt heq.symm heq, hab]
      | false => exact Or.inr (Or.inr ⟨rfl, rfl, entry_lt_total hl hab heq⟩)

/-- Witness for C13: three entries under the lexicographic order on labels. The entry for label
11 on the interface at address 5 is smaller than the decreasing entry for label 3 there. -/
theorem entry_order_witness :
    ((entry_t.lt label_lex (demo_entry 5 11 []) ⟨⟨Query.type_t.MPLS, 0, 3⟩, true, 5, []⟩ = true ∧
        entry_t.eq (demo_entry 5 11 []) ⟨⟨Query.type_t.MPLS, 0, 3⟩, true, 5, []⟩ = false ∧
        entry_t.lt label_lex ⟨⟨Query.type_t.MPLS, 0, 3⟩, true, 5, []⟩ (demo_entry 5 11 [])
          = false) ∨
      (entry_t.lt label_lex (demo_entry 5 11 []) ⟨⟨Query.type_t.MPLS, 0, 3⟩, true, 5, []⟩
          = false ∧
        entry_t.eq (demo_entry 5 11 []) ⟨⟨Query.type_t.MPLS, 0, 3⟩, true, 5, []⟩ = true ∧
        entry_t.lt label_lex ⟨⟨Query.type_t.MPLS, 0, 3⟩, true, 5, []⟩ (demo_entry 5 11 [])
          = false) ∨
      (entry_t.lt label_lex (demo_entry 5 11 []) ⟨⟨Query.type_t.MPLS, 0, 3⟩, true, 5, []⟩
          = false ∧
        entry_t.eq (demo_entry 5 11 []) ⟨⟨Query.type_t.MPLS, 0, 3⟩, true, 5, []⟩ = false ∧
        entry_t.lt label_lex ⟨⟨Query.type_t.MPLS, 0, 3⟩, true, 5, []⟩ (demo_entry 5 11 [])
          = true)) ∧
      (entry_t.lt label_lex (demo_entry 5 11 []) ⟨⟨Query.type_t.MPLS, 0, 3⟩, true, 5, []⟩
          = true →
        entry_t.lt label_lex ⟨⟨Query.type_t.MPLS, 0, 3⟩, true, 5, []⟩ (demo_entry 6 1 [])
          = true →
        entry_t.lt label_lex (demo_entry 5 11 []) (demo_entry 6 1 []) = true) ∧
      entry_t.lt label_lex (demo_entry 5 11 []) (demo_entry 5 11 []) = false :=
  (entry_order label_lex (demo_entry 5 11 []) ⟨⟨Query.type_t.MPLS, 0, 3⟩, true, 5, []⟩
    (demo_entry 6 1 [])).2.2 label_lex_order

end RoutingTable
end mpls2pda

/-! ## Searching a string, and reading `<rt-destination>` -/

namespace mpls2pda
open Query
namespace RoutingTable

/-- The search `find` gives no position exactly when the pattern does not occur in the string. -/
theorem find_none_iff (pat : List Char) : ∀ s : List Char, find pat s = none ↔ ¬ pat <:+: s
  | [] => by
    unfold find
    by_cases hp : pat = []
    · simp [hp]
    · simp [hp]
  | c :: cs => by
    have ih := find_none_iff pat cs
    unfold find
    rw [List.infix_cons_iff]
    by_cases hp : pat.isPrefixOf (c :: cs) = true
    · rw [if_pos hp]
      have := List.isPrefixOf_iff_prefix.mp hp
      simp [this]
    · rw [if_neg hp]
      have hnp : ¬ pat <+: c :: cs := fun h => hp (List.isPrefixOf_iff_prefix.mpr h)
      simp only [Option.map_eq_none', ih, hnp, false_or]

/-- The search `find` gives the first position at which the pattern stands. -/
theorem find_first (pat : List Char) :
    ∀ (s : List Char) (pos : Nat), pat <+: s.drop pos → (∀ k < pos, ¬ pat <+: s.drop k) →
      pos ≤ s.length → find pat s = some pos
  | [], pos, h, _, hlen => by
    have hpos : pos = 0 := by simpa using hlen
    subst hpos
    have hp : pat = [] := by simpa using h
    simp [find, hp]
  | c :: cs, 0, h, _, _ => by
    unfold find
    rw [if_pos (List.isPrefixOf_iff_prefix.mpr (by simpa using h))]
  | c :: cs, pos + 1, h, hk, hlen => by
    unfold find
    have h0 : ¬ pat <+: c :: cs := by simpa using hk 0 (Nat.succ_pos _)
    rw [if_neg (fun hp => h0 (List.isPrefixOf_iff_prefix.mp hp))]
    have ih := find_first pat cs pos (by simpa using h)
      (fun k hkp => by simpa using hk (k + 1) (Nat.succ_lt_succ hkp))
      (by simpa using hlen)
    rw [ih]; rfl

/-- In front of a string without the first character of the pattern, the pattern is found where
it is found behind it. -/
theorem find_head_free (c0 : Char) (pat : List Char) :
    ∀ (s t : List Char), (∀ c ∈ s, c ≠ c0) →
      find (c0 :: pat) (s ++ t) = (find (c0 :: pat) t).map (· + s.length)
  | [], t, _ => by simp
  | c :: s, t, h => by
    have hc : c ≠ c0 := h c (List.mem_cons_self _ _)
    have hc1 : (c0 == c) = false := by
      rw [beq_eq_false_iff_ne]; exact fun h1 => hc h1.symm
    have ih := find_head_free c0 pat s t (fun x hx => h x (List.mem_cons_of_mem _ hx))
    rw [List.cons_append, find]
    have hp : (c0 :: pat).isPrefixOf (c :: (s ++ t)) = false := by
      simp [List.isPrefixOf, hc1]
    rw [hp, ih]
    simp [Option.map_map, Function.comp_def, Nat.add_assoc]

theorem digit_ne_paren {ds : List Char} (hds : ∀ c ∈ ds, c.isDigit = true) :
    ∀ c ∈ ds, c ≠ '(' := by
  intro c hc h
  have := hds c hc
  rw [h] at this
  exact absurd this (by decide)

/-- On a string of digits `atoll` gives the number written, up to the largest `long long`. -/
theorem atoll_digits {ds : List Char} (hds : ∀ c ∈ ds, c.isDigit = true) :
    atoll ds = min (digits_value ds : Int) ((2 : Int) ^ 63 - 1) := by
  have hsp : ds.dropWhile isspace = ds := by
    cases ds with
    | nil => rfl
    | cons c cs =>
      have hc := hds c (List.mem_cons_self _ _)
      have : isspace c = false := by
        simp only [Char.isDigit, Bool.and_eq_true, decide_eq_true_eq] at hc
        have h1 : c ≠ ' ' := by
          intro h; rw [h] at hc; exact absurd hc (by decide)
        have h2 : 48 ≤ c.toNat := by
          have := hc.1
          exact this
        simp only [isspace, Bool.or_eq_false_iff, decide_eq_false_iff_not, Bool.and_eq_false_iff]
        exact ⟨h1, Or.inr (by omega)⟩
      simp [List.dropWhile_cons, this]
  have hsign : ¬ (ds.head? = some '-' ∨ ds.head? = some '+') := by
    cases ds with
    | nil => simp
    | cons c cs =>
      have hc := hds c (List.mem_cons_self _ _)
      simp only [List.head?_cons, Option.some.injEq]
      rintro (h | h) <;> (rw [h] at hc; exact absurd hc (by decide))
  have hneg : ¬ ds.head? = some '-' := fun h => hsign (Or.inl h)
  have htake : ds.takeWhile Char.isDigit = ds := by
    rw [List.takeWhile_eq_self_iff]
    exact hds
  simp only [atoll, hsp, if_neg hsign, if_neg hneg, htake]

/-- The entry made for an `<rt-destination>` that is a string of digits, and for one followed
by `(S=0)`: an `MPLS` label whose value is one more than what `atoll` reads, on the ingress of a
default-constructed entry; `(S=0)` sets the decreasing flag and changes nothing else. -/
theorem parse_destination_digits (D : decls) (parent : Router) {ds : List Char}
    (hds : ∀ c ∈ ds, c.isDigit = true) :
    parse_destination D parent (String.mk ds) =
        .ok (some ⟨{ D._top_label with
          _value := (atoll ds + 1).toNat, _type := Query.type_t.MPLS },
          D._decreasing, D._ingoing, []⟩) ∧
      parse_destination D parent (String.mk (ds ++ "(S=0)".toList)) =
        .ok (some ⟨{ D._top_label with
          _value := (atoll ds + 1).toNat, _type := Query.type_t.MPLS },
          true, D._ingoing, []⟩) := by
  have hall : ds.all Char.isDigit = true := List.all_eq_true.mpr hds
  have h1 : find "(S=0)".toList ds = none := by
    have := find_head_free '(' "S=0)".toList ds [] (digit_ne_paren hds)
    rw [List.append_nil] at this
    exact this.trans rfl
  have h2 : find "(S=0)".toList (ds ++ "(S=0)".toList) = some ds.length := by
    have := find_head_free '(' "S=0)".toList ds "(S=0)".toList (digit_ne_paren hds)
    refine this.trans ?_
    have h0 : find ('(' :: "S=0)".toList) "(S=0)".toList = some 0 := by decide
    rw [h0]; simp
  have hlen : (ds ++ "(S=0)".toList).length - 5 = ds.length := by simp [String.toList]
  have hd1 : (String.mk ds).toList = ds := rfl
  have hd2 : (String.mk (ds ++ "(S=0)".toList)).toList = ds ++ "(S=0)".toList := rfl
  constructor
  · simp only [parse_destination, hd1, h1, hall, if_true]
  · simp only [parse_destination, hd2, h2, hlen, ne_eq, not_true_eq_false, if_false,
      List.take_left, hall, if_true]

/-- A string in which the pattern is found at the distance of its length from the end ends with
the pattern. -/
theorem find_at_end (pat s : List Char) (pos : Nat) (h : find pat s = some pos)
    (hpos : pos = s.length - pat.length) : s = s.take pos ++ pat := by
  obtain ⟨t, ht⟩ := find_spec _ s pos h
  have hlen := congrArg List.length ht
  simp only [List.length_drop, List.length_append] at hlen
  have ht0 : t = [] := List.eq_nil_of_length_eq_zero (by omega)
  rw [ht0, List.append_nil] at ht
  rw [← ht, List.take_append_drop]

/-- The rt-entries that the loop body drops are those for `default` and `default(S=0)`. -/
theorem parse_destination_none (D : decls) (parent : Router) (dest : String)
    (h : parse_destination D parent dest = .ok none) :
    dest = "default" ∨ dest = "default(S=0)" := by
  unfold parse_destination at h
  cases hfind : find "(S=0)".toList dest.toList with
  | none =>
    rw [hfind] at h
    simp only at h
    by_cases hd : dest.toList.all Char.isDigit = true
    · rw [if_pos hd] at h; cases h
    rw [if_neg hd] at h
    by_cases hdef : dest.toList = "default".toList
    · exact Or.inl (String.ext hdef)
    · rw [if_neg hdef] at h; cases h
  | some pos =>
    rw [hfind] at h
    simp only at h
    by_cases hpos : pos ≠ dest.toList.length - 5
    · rw [if_pos hpos] at h; cases h
    rw [if_neg hpos] at h
    simp only at h
    by_cases hd : (dest.toList.take pos).all Char.isDigit = true
    · rw [if_pos hd] at h; cases h
    rw [if_neg hd] at h
    by_cases hdef : dest.toList.take pos = "default".toList
    · right
      have := find_at_end _ dest.toList pos hfind (by simpa using hpos)
      rw [hdef] at this
      exact String.ext this
    · rw [if_neg hdef] at h; cases h

end RoutingTable
end mpls2pda

/-! ## `RoutingTable::parse`: how the outcome depends on the rt-entries -/

namespace mpls2pda
open Query
namespace RoutingTable

/-- An rt-entry at which the loop body fails makes the loop over the rt-entries fail. -/
theorem parse_entries_error (D : decls) (parent : Router)
    (indirect : List (String × String × String)) (skip_pfe : Bool) (rule : rt_entry_node)
    (f : fault) (hf : parse_entry D parent indirect skip_pfe rule = .error f) :
    ∀ rules : List rt_entry_node, rule ∈ rules →
      ∃ f1, parse_entries D parent indirect skip_pfe rules = .error f1
  | [], h => by cases h
  | r :: rest, h => by
    rw [parse_entries]
    cases hr : parse_entry D parent indirect skip_pfe r with
    | error f1 => exact ⟨f1, rfl⟩
    | ok p =>
      obtain ⟨e, w⟩ := p
      have hmem : rule ∈ rest := by
        rcases List.mem_cons.mp h with h1 | h1
        · rw [h1, hr] at hf; cases hf
        · exact h1
      obtain ⟨f1, hf1⟩ := parse_entries_error D parent indirect skip_pfe rule f hf rest hmem
      simp only [hf1]
      exact ⟨f1, rfl⟩

/-- A failure of the loop over the rt-entries makes `parse` fail. -/
theorem parse_error_of_entries (llt : label_t → label_t → Bool) (D : decls) (rt : rt_node)
    (indirect : List (String × String × String)) (parent : Router) (skip_pfe : Bool) (f : fault)
    (hf : parse_entries D parent indirect skip_pfe rt.rt_entry = .error f) :
    ∃ f1, parse llt D (some rt) indirect parent skip_pfe = .error f1 := by
  simp only [parse]
  split_ifs with h1 h2
  · exact ⟨_, rfl⟩
  · exact ⟨_, rfl⟩
  · rw [hf]
    exact ⟨f, rfl⟩

/-- An rt-entry at which the loop body fails makes `parse` fail. -/
theorem parse_fails_of_entry (llt : label_t → label_t → Bool) (D : decls) (rt : rt_node)
    (indirect : List (String × String × String)) (parent : Router) (skip_pfe : Bool)
    (rule : rt_entry_node) (f : fault) (hmem : rule ∈ rt.rt_entry)
    (hf : parse_entry D parent indirect skip_pfe rule = .error f) :
    ∃ f1, parse llt D (some rt) indirect parent skip_pfe = .error f1 := by
  obtain ⟨f1, hf1⟩ := parse_entries_error D parent indirect skip_pfe rule f hf rt.rt_entry hmem
  exact parse_error_of_entries llt D rt indirect parent skip_pfe f1 hf1

/-- The table that `parse` returns holds, sorted, the entries appended by the loop over the
rt-entries, of which no two have equal keys after the sort. -/
theorem parse_ok_entries (llt : label_t → label_t → Bool) (D : decls) (rt : rt_node)
    (indirect : List (String × String × String)) (parent : Router) (skip_pfe : Bool)
    (T : RoutingTable) (w : List warning_t)
    (h : parse llt D (some rt) indirect parent skip_pfe = .ok (T, w)) :
    ∃ es, parse_entries D parent indirect skip_pfe rt.rt_entry = .ok (es, w) ∧
      T._entries = sort llt es ∧ some_equal_neighbours (sort llt es) = false := by
  simp only [parse] at h
  split_ifs at h with h1 h2
  split at h
  · cases h
  · rename_i es w1 hes
    split_ifs at h with h3
    simp only [Except.ok.injEq, Prod.mk.injEq] at h
    refine ⟨es, ?_, ?_, by simpa using h3⟩
    · rw [hes, h.2]
    · rw [← h.1]

end RoutingTable
end mpls2pda

/-! ## `RoutingTable::parse`: the loop over the `<nh>` nodes -/

namespace mpls2pda
open Query
namespace RoutingTable

/-- One pass of the loop over the `<nh>` nodes, when it does not fail: a node of type `unilist`,
or of type `indirect` when `skip_pfe` is set, leaves rules and weights as they are; every other
node appends one rule, whose weight is the one read by `parse_weight`, and enters that weight
into `weights`. -/
theorem parse_nh_shape (D : decls) (parent : Router) (indirect : List (String × String × String))
    (skip_pfe : Bool) (nh : nh_node) (s s1 : nh_state)
    (h : parse_nh D parent indirect skip_pfe nh s = .ok s1) :
    ((nh.nh_type = some "unilist" ∨ (nh.nh_type = some "indirect" ∧ skip_pfe = true)) ∧
      s1.rules = s.rules ∧ s1.weights = s.weights) ∨
    (¬ (nh.nh_type = some "unilist" ∨ (nh.nh_type = some "indirect" ∧ skip_pfe = true)) ∧
      ∃ r, parse_weight nh = .ok r._weight ∧ s1.rules = s.rules ++ [r] ∧
        s1.weights = if r._weight ∈ s.weights then s.weights else s.weights ++ [r._weight]) := by
  unfold parse_nh at h
  cases hw : parse_weight nh with
  | error f => rw [hw] at h; cases h
  | ok weight =>
    rw [hw] at h
    simp only at h
    cases hty : nh.nh_type with
    | none =>
      rw [hty] at h
      simp only at h
      generalize hW : (if weight ∈ s.weights then s.weights else s.weights ++ [weight]) = W at h
      right
      refine ⟨by simp, ?_⟩
      repeat' split at h
      all_goals first
        | (cases h; done)
        | (simp only [Except.ok.injEq] at h
           subst h
           exact ⟨_, rfl, rfl, hW.symm⟩)
    | some val =>
      rw [hty] at h
      simp only at h
      by_cases h1 : val = "unilist"
      · left
        refine ⟨Or.inl (by rw [h1]), ?_⟩
        rw [if_pos h1] at h
        by_cases hc : s.cast = true
        · rw [if_pos hc] at h; cases h
        rw [if_neg hc] at h
        simp only [Except.ok.injEq] at h
        subst h
        exact ⟨rfl, rfl⟩
      rw [if_neg h1] at h
      by_cases h2 : val = "discard"
      · rw [if_pos h2] at h
        simp only at h
        generalize hW : (if weight ∈ s.weights then s.weights else s.weights ++ [weight]) = W at h
        right
        refine ⟨by rw [h2]; simp, ?_⟩
        repeat' split at h
        all_goals first
          | (cases h; done)
          | (simp only [Except.ok.injEq] at h
             subst h
             exact ⟨_, rfl, rfl, hW.symm⟩)
      rw [if_neg h2] at h
      by_cases h3 : val = "receive"
      · rw [if_pos h3] at h
        simp only at h
        generalize hW : (if weight ∈ s.weights then s.weights else s.weights ++ [weight]) = W at h
        right
        refine ⟨by rw [h3]; simp, ?_⟩
        repeat' split at h
        all_goals first
          | (cases h; done)
          | (simp only [Except.ok.injEq] at h
             subst h
             exact ⟨_, rfl, rfl, hW.symm⟩)
      rw [if_neg h3] at h
      by_cases h4 : val = "table lookup"
      · rw [if_pos h4] at h
        simp only at h
        generalize hW : (if weight ∈ s.weights then s.weights else s.weights ++ [weight]) = W at h
        right
        refine ⟨by rw [h4]; simp, ?_⟩
        repeat' split at h
        all_goals first
          | (cases h; done)
          | (simp only [Except.ok.injEq] at h
             subst h
             exact ⟨_, rfl, rfl, hW.symm⟩)
      rw [if_neg h4] at h
      by_cases h5 : val = "indirect"
      · rw [if_pos h5] at h
        cases hsk : skip_pfe with
        | true =>
          rw [hsk] at h
          simp only [if_true, Except.ok.injEq] at h
          subst h
          exact Or.inl ⟨Or.inr ⟨by rw [h5], rfl⟩, rfl, rfl⟩
        | false =>
          rw [hsk] at h
          simp only [Bool.false_eq_true, if_false] at h
          by_cases h6 : nh.nh_index.isNone = true
          · rw [if_pos h6] at h; cases h
          rw [if_neg h6] at h
          simp only at h
          generalize hW : (if weight ∈ s.weights then s.weights else s.weights ++ [weight]) = W
            at h
          right
          refine ⟨by rw [h5]; simp, ?_⟩
          repeat' split at h
          all_goals first
            | (cases h; done)
            | (simp only [Except.ok.injEq] at h
               subst h
               exact ⟨_, rfl, rfl, hW.symm⟩)
      rw [if_neg h5] at h
      have hkept : ¬ (some val = some "unilist" ∨ (some val = some "indirect" ∧ skip_pfe = true)) := by
        rintro (h7 | h7)
        · exact h1 (Option.some.inj h7)
        · exact h5 (Option.some.inj h7.1)
      by_cases h6 : val = "unicast"
      · rw [if_pos h6] at h
        simp only at h
        generalize hW : (if weight ∈ s.weights then s.weights else s.weights ++ [weight]) = W at h
        right
        refine ⟨hkept, ?_⟩
        repeat' split at h
        all_goals first
          | (cases h; done)
          | (simp only [Except.ok.injEq] at h
             subst h
             exact ⟨_, rfl, rfl, hW.symm⟩)
      rw [if_neg h6] at h
      cases hops : forward_t.parse_ops D.action val.toList with
      | error e => rw [hops] at h; cases h
      | out_of_bounds => rw [hops] at h; cases h
      | out_of_fuel => rw [hops] at h; cases h
      | ok ops =>
        rw [hops] at h
        simp only at h
        generalize hW : (if weight ∈ s.weights then s.weights else s.weights ++ [weight]) = W at h
        right
        refine ⟨hkept, ?_⟩
        repeat' split at h
        all_goals first
          | (cases h; done)
          | (simp only [Except.ok.injEq] at h
             subst h
             exact ⟨_, rfl, rfl, hW.symm⟩)

end RoutingTable
end mpls2pda

/-! ## `RoutingTable::parse_weight` on the numbers it is written for -/

namespace mpls2pda
open Query
namespace RoutingTable

end RoutingTable
end mpls2pda

/-! ## `RoutingTable::parse`: the weights of the rules of an entry -/

namespace mpls2pda
open Query
namespace RoutingTable

end RoutingTable
end mpls2pda

/-! ## The label of an entry and the label of an operation -/

namespace mpls2pda
open Query
namespace RoutingTable

/-- The operations read by `parse_ops` from `Swap` or `Push`, a space and a string of digits of
value below `2 ^ 31`: one operation, whose label is of type `MPLS` and holds that value. -/
theorem parse_ops_single (d : action_t) (ds : List Char) (hne : ds ≠ [])
    (hds : ∀ c ∈ ds, c.isDigit = true) (hv : digits_value ds < 2 ^ 31) :
    forward_t.parse_ops d ("Swap ".toList ++ ds) =
        .ok [⟨op_t.SWAP, { d._op_label with
          _type := Query.type_t.MPLS, _value := digits_value ds }⟩] ∧
      forward_t.parse_ops d ("Push ".toList ++ ds) =
        .ok [⟨op_t.PUSH, { d._op_label with
          _type := Query.type_t.MPLS, _value := digits_value ds }⟩] := by
  have hnd : no_digit_ahead [] := by intro c hc; cases hc
  have hl := loop_label d (4 + ds.length) ds [] [] hne hds hnd
  rw [atoi_u64_small rfl hv] at hl
  have hnil : ∀ (fuel : Nat) (done : List action_t), parse_ops_loop d fuel [] done = .ok done := by
    intro fuel done
    cases fuel <;> rfl
  rw [List.append_nil, List.append_nil, List.drop_nil, hnil, hnil, List.nil_append,
    List.nil_append] at hl
  have hfind : ∀ kw : List Char, (∀ c ∈ kw, c ≠ '(') → find "(top)".toList (kw ++ ds) = none := by
    intro kw hkw
    have := find_top_append (kw ++ ds) [] (by
      intro c hc
      rcases List.mem_append.mp hc with hc | hc
      · exact hkw c hc
      · exact digit_ne_paren hds c hc)
    rw [List.append_nil] at this
    exact this.trans rfl
  have hlen : ∀ kw : List Char, kw.length = 5 → (kw ++ ds).length = 4 + ds.length + 1 := by
    intro kw hkw
    rw [List.length_append, hkw]; omega
  constructor
  · unfold forward_t.parse_ops
    rw [hfind _ (by decide)]
    simp only
    rw [hlen "Swap ".toList rfl]
    exact hl.1
  · unfold forward_t.parse_ops
    rw [hfind _ (by decide)]
    simp only
    rw [hlen "Push ".toList rfl]
    exact hl.2

/-- C15. The claim does not hold of the code. For every decimal number below `2 ^ 31`, written as
a non-empty string of digits `ds`: the entry that `parse` makes for the `<rt-destination>` `ds`
has an `MPLS` top label whose value is the number plus one (`atoll(tl) + 1`), and the operations
that `parse_ops` reads from `Swap ds` and `Push ds` have an `MPLS` label whose value is the number
itself (`atoi(n)`). The two labels differ by one. -/
theorem label_of_entry_and_operation (D : decls) (parent : Router) (ds : List Char)
    (hne : ds ≠ []) (hds : ∀ c ∈ ds, c.isDigit = true) (hv : digits_value ds < 2 ^ 31) :
    ∃ e sw pu,
      parse_destination D parent (String.mk ds) = .ok (some e) ∧
      forward_t.parse_ops D.action ("Swap ".toList ++ ds) = .ok [sw] ∧
      forward_t.parse_ops D.action ("Push ".toList ++ ds) = .ok [pu] ∧
      sw._op = op_t.SWAP ∧ pu._op = op_t.PUSH ∧
      e._top_label._type = Query.type_t.MPLS ∧ sw._op_label._type = Query.type_t.MPLS ∧
      pu._op_label._type = Query.type_t.MPLS ∧
      e._top_label._value = digits_value ds + 1 ∧ sw._op_label._value = digits_value ds ∧
      pu._op_label._value = digits_value ds ∧
      e._top_label ≠ sw._op_label ∧ e._top_label ≠ pu._op_label := by
  have hops := parse_ops_single D.action ds hne hds hv
  have hval : (atoll ds + 1).toNat = digits_value ds + 1 := by
    rw [atoll_digits hds]
    have : min (digits_value ds : Int) ((2 : Int) ^ 63 - 1) = (digits_value ds : Int) := by
      apply min_eq_left
      have : (digits_value ds : Int) < 2 ^ 31 := by exact_mod_cast hv
      omega
    rw [this]
    omega
  refine ⟨_, _, _, (parse_destination_digits D parent hds).1, hops.1, hops.2, rfl, rfl, rfl, rfl,
    rfl, hval, rfl, rfl, ?_, ?_⟩
  · intro h
    have := congrArg label_t._value h
    simp only [hval] at this
    omega
  · intro h
    have := congrArg label_t._value h
    simp only [hval] at this
    omega

/-- Witness for C15: the label number 43. The entry for `<rt-destination>` `43` has the label
value 44, and the operations read from `Swap 43` and `Push 43` have the label value 43. -/
theorem label_of_entry_and_operation_witness :
    digits_value "43".toList = 43 ∧
    ∃ e sw pu,
      parse_destination demo_decls demo_router (String.mk "43".toList) = .ok (some e) ∧
      forward_t.parse_ops demo_decls.action ("Swap ".toList ++ "43".toList) = .ok [sw] ∧
      forward_t.parse_ops demo_decls.action ("Push ".toList ++ "43".toList) = .ok [pu] ∧
      sw._op = op_t.SWAP ∧ pu._op = op_t.PUSH ∧
      e._top_label._type = Query.type_t.MPLS ∧ sw._op_label._type = Query.type_t.MPLS ∧
      pu._op_label._type = Query.type_t.MPLS ∧
      e._top_label._value = digits_value "43".toList + 1 ∧
      sw._op_label._value = digits_value "43".toList ∧
      pu._op_label._value = digits_value "43".toList ∧
      e._top_label ≠ sw._op_label ∧ e._top_label ≠ pu._op_label :=
  ⟨by decide, label_of_entry_and_operation demo_decls demo_router "43".toList (by decide)
    (by decide) (by decide)⟩

end RoutingTable
end mpls2pda

/-! ## `RoutingTable::parse`: rt-entries for `default` -/

namespace mpls2pda
open Query
namespace RoutingTable

/-- An rt-entry whose destination is the word `default` is dropped by the loop body. -/
theorem parse_entry_default (D : decls) (parent : Router)
    (indirect : List (String × String × String)) (skip_pfe : Bool) (rule : rt_entry_node)
    (h : rule.rt_destination = some "default") :
    parse_entry D parent indirect skip_pfe rule = .ok (none, []) := by
  have hf : find "(S=0)".toList "default".toList = none := by decide
  have hd : "default".toList.all Char.isDigit = false := by decide
  simp only [parse_entry, h, parse_destination, hf, hd, Bool.false_eq_true, if_false, if_true]

/-- The loop over the rt-entries gives the same with the `default` rt-entries left out. -/
theorem parse_entries_filter_default (D : decls) (parent : Router)
    (indirect : List (String × String × String)) (skip_pfe : Bool) :
    ∀ rules : List rt_entry_node,
      parse_entries D parent indirect skip_pfe
          (rules.filter (fun r => decide (r.rt_destination ≠ some "default"))) =
        parse_entries D parent indirect skip_pfe rules
  | [] => rfl
  | r :: rest => by
    have ih := parse_entries_filter_default D parent indirect skip_pfe rest
    by_cases h : r.rt_destination = some "default"
    · rw [List.filter_cons_of_neg (by simp [h]), ih]
      rw [parse_entries.eq_2, parse_entry_default D parent indirect skip_pfe r h]
      cases parse_entries D parent indirect skip_pfe rest with
      | error f => rfl
      | ok p => rfl
    · rw [List.filter_cons_of_pos (by simp [h])]
      rw [parse_entries, parse_entries.eq_2, ih]

/-- C16, as stated, fails: a table node whose only rt-entry is one for `default` is parsed into a
table without entries, and the node with that rt-entry removed makes `parse` throw, for it has no
rt-entry. -/
theorem parse_default_counterexample :
    parse label_lex demo_decls (some ⟨none, none, [demo_rt_entry "default" "discard"]⟩) []
        demo_router false = .ok (⟨"", []⟩, []) ∧
    [demo_rt_entry "default" "discard"].filter
        (fun r => decide (r.rt_destination ≠ some "default")) = [] ∧
    parse label_lex demo_decls (some ⟨none, none, []⟩) [] demo_router false =
      .error (fault.throws base_error.no_entries) :=
  ⟨rfl, by decide, rfl⟩

/-- C16 (amended). For every table node in which some rt-entry has another destination than the
word `default`, `parse` has the same outcome (the same table and warnings, or the same failure)
as on the node with all of its `default` rt-entries removed. A node with an address family that
is absent or `MPLS`, all of whose rt-entries are `default` ones, is parsed into a table without
entries, while without them `parse` throws for want of an rt-entry. -/
theorem parse_default_ignored (llt : label_t → label_t → Bool) (D : decls) (rt : rt_node)
    (indirect : List (String × String × String)) (parent : Router) (skip_pfe : Bool) :
    ((∃ r ∈ rt.rt_entry, r.rt_destination ≠ some "default") →
      parse llt D (some rt) indirect parent skip_pfe =
        parse llt D (some ⟨rt.table_name, rt.address_family,
          rt.rt_entry.filter (fun r => decide (r.rt_destination ≠ some "default"))⟩)
          indirect parent skip_pfe) ∧
    (rt.rt_entry ≠ [] → (∀ r ∈ rt.rt_entry, r.rt_destination = some "default") →
      (rt.address_family = none ∨ rt.address_family = some "MPLS") →
      parse llt D (some rt) indirect parent skip_pfe =
          .ok (⟨rt.table_name.getD "", []⟩, []) ∧
        parse llt D (some ⟨rt.table_name, rt.address_family,
          rt.rt_entry.filter (fun r => decide (r.rt_destination ≠ some "default"))⟩)
          indirect parent skip_pfe = .error (fault.throws base_error.no_entries)) := by
  have hpe := parse_entries_filter_default D parent indirect skip_pfe rt.rt_entry
  constructor
  · rintro ⟨r, hr, hne⟩
    have h1 : rt.rt_entry ≠ [] := List.ne_nil_of_mem hr
    have h2 : rt.rt_entry.filter (fun r => decide (r.rt_destination ≠ some "default")) ≠ [] :=
      List.ne_nil_of_mem (List.mem_filter.mpr ⟨hr, by simpa using hne⟩)
    simp only [parse, if_neg h1, if_neg h2, hpe]
  · intro h1 hall hfam
    have hf : ¬ (rt.address_family.isSome = true ∧ rt.address_family ≠ some "MPLS") := by
      rcases hfam with h | h <;> simp [h]
    have h2 : rt.rt_entry.filter (fun r => decide (r.rt_destination ≠ some "default")) = [] := by
      rw [List.filter_eq_nil_iff]
      intro r hr
      simp [hall r hr]
    have h3 : parse_entries D parent indirect skip_pfe rt.rt_entry = .ok ([], []) := by
      rw [← hpe, h2]; rfl
    constructor
    · simp only [parse, if_neg hf, if_neg h1, h3, sort, some_equal_neighbours,
        Bool.false_eq_true, if_false]
    · simp only [parse, if_neg hf, h2, if_true]

/-- Witness for C16 (amended): `demo_node`, of whose four rt-entries the third is a `default`
one, and the node whose only rt-entry is a `default` one. -/
theorem parse_default_ignored_witness :
    parse label_lex demo_decls (some demo_node) [] demo_router false =
      parse label_lex demo_decls (some ⟨demo_node.table_name, demo_node.address_family,
        demo_node.rt_entry.filter (fun r => decide (r.rt_destination ≠ some "default"))⟩)
        [] demo_router false ∧
    demo_node.rt_entry.filter (fun r => decide (r.rt_destination ≠ some "default")) =
      [demo_rt_entry "17" "discard", demo_rt_entry "5(S=0)" "Swap 3", demo_rt_entry "5" "Pop"] ∧
    parse label_lex demo_decls (some ⟨some "mpls.0", none, [demo_rt_entry "default" "Pop"]⟩) []
      demo_router false = .ok (⟨"mpls.0", []⟩, []) :=
  ⟨(parse_default_ignored label_lex demo_decls demo_node [] demo_router false).1
      ⟨demo_rt_entry "17" "discard", by decide, by decide⟩,
    by decide,
    ((parse_default_ignored label_lex demo_decls
      ⟨some "mpls.0", none, [demo_rt_entry "default" "Pop"]⟩ [] demo_router false).2
      (by decide) (by decide) (Or.inl rfl)).1⟩

end RoutingTable
end mpls2pda

/-! ## `RoutingTable::parse`: rt-entries with equal keys -/

namespace mpls2pda
open Query
namespace RoutingTable

/-- The loop over the rt-entries of two lists in a row appends the entries of the first list and
then those of the second. -/
theorem parse_entries_append (D : decls) (parent : Router)
    (indirect : List (String × String × String)) (skip_pfe : Bool) :
    ∀ (l1 l2 : List rt_entry_node) (es : List entry_t) (w : List warning_t),
      parse_entries D parent indirect skip_pfe (l1 ++ l2) = .ok (es, w) →
      ∃ es1 w1 es2 w2, parse_entries D parent indirect skip_pfe l1 = .ok (es1, w1) ∧
        parse_entries D parent indirect skip_pfe l2 = .ok (es2, w2) ∧
        es = es1 ++ es2 ∧ w = w1 ++ w2
  | [], l2, es, w, h => ⟨[], [], es, w, rfl, h, rfl, rfl⟩
  | r :: l1, l2, es, w, h => by
    rw [List.cons_append, parse_entries] at h
    rw [parse_entries]
    cases hr : parse_entry D parent indirect skip_pfe r with
    | error f1 => rw [hr] at h; cases h
    | ok p =>
      obtain ⟨e0, w0⟩ := p
      rw [hr] at h
      simp only at h ⊢
      cases hrest : parse_entries D parent indirect skip_pfe (l1 ++ l2) with
      | error f1 => rw [hrest] at h; cases h
      | ok q =>
        obtain ⟨es0, ws0⟩ := q
        rw [hrest] at h
        simp only [Except.ok.injEq, Prod.mk.injEq] at h
        obtain ⟨es1, w1, es2, w2, h1, h2, h3, h4⟩ :=
          parse_entries_append D parent indirect skip_pfe l1 l2 es0 ws0 hrest
        rw [h1]
        refine ⟨e0.toList ++ es1, w0 ++ w1, es2, w2, rfl, h2, ?_, ?_⟩
        · rw [← h.1, h3, List.append_assoc]
        · rw [← h.2, h4, List.append_assoc]

/-- The entries appended by the loop over the rt-entries, at an rt-entry that yields an entry. -/
theorem parse_entries_cons_some (D : decls) (parent : Router)
    (indirect : List (String × String × String)) (skip_pfe : Bool) (r : rt_entry_node)
    (e : entry_t) (w0 : List warning_t)
    (hr : parse_entry D parent indirect skip_pfe r = .ok (some e, w0))
    (rest : List rt_entry_node) (es : List entry_t) (w : List warning_t)
    (h : parse_entries D parent indirect skip_pfe (r :: rest) = .ok (es, w)) :
    ∃ es1 w1, parse_entries D parent indirect skip_pfe rest = .ok (es1, w1) ∧ es = e :: es1 := by
  rw [parse_entries, hr] at h
  simp only at h
  cases hrest : parse_entries D parent indirect skip_pfe rest with
  | error f1 => rw [hrest] at h; cases h
  | ok q =>
    obtain ⟨es0, ws0⟩ := q
    rw [hrest] at h
    simp only [Except.ok.injEq, Prod.mk.injEq] at h
    exact ⟨es0, ws0, rfl, by rw [← h.1]; rfl⟩

/-- C17, as stated, fails: two rt-entries for label 17, each with the single rule `discard`, have
equal keys and rules of the same kind, which is not `MPLS`, and `parse` throws the
nondeterministic-routing-table error for the node that holds just the two. -/
theorem parse_duplicate_counterexample :
    parse_entry demo_decls demo_router [] false (demo_rt_entry "17" "discard") =
      .ok (some ⟨⟨Query.type_t.MPLS, 0, 18⟩, false, nullptr, [demo_discard]⟩, []) ∧
    parse label_lex demo_decls
      (some ⟨none, none, [demo_rt_entry "17" "discard", demo_rt_entry "17" "discard"]⟩) []
      demo_router false = .error (fault.throws base_error.nondeterministic) :=
  ⟨rfl, rfl⟩

/-- C17 (amended). Duplicate entries are a load error, whatever their rules: every table node
with two rt-entries that yield entries with equal keys makes `parse` fail, also when the rules
of the two are all of the same kind and that kind is not `MPLS`; the failure is the
nondeterministic-routing-table error when the address family is absent or `MPLS` and every
rt-entry is read without error. -/
theorem parse_duplicate_fails (llt : label_t → label_t → Bool) (hl : label_order llt) (D : decls)
    (rt : rt_node) (indirect : List (String × String × String)) (parent : Router)
    (skip_pfe : Bool) (l1 l2 l3 : List rt_entry_node) (r1 r2 : rt_entry_node) (e1 e2 : entry_t)
    (w1 w2 : List warning_t) (hrt : rt.rt_entry = l1 ++ r1 :: (l2 ++ r2 :: l3))
    (h1 : parse_entry D parent indirect skip_pfe r1 = .ok (some e1, w1))
    (h2 : parse_entry D parent indirect skip_pfe r2 = .ok (some e2, w2))
    (hk : entry_t.eq e1 e2 = true) :
    (∃ f, parse llt D (some rt) indirect parent skip_pfe = .error f) ∧
    ((rt.address_family = none ∨ rt.address_family = some "MPLS") →
      (∃ es w, parse_entries D parent indirect skip_pfe rt.rt_entry = .ok (es, w)) →
      parse llt D (some rt) indirect parent skip_pfe =
        .error (fault.throws base_error.nondeterministic)) := by
  have hne : rt.rt_entry ≠ [] := by rw [hrt]; simp
  have key : ∀ es w, parse_entries D parent indirect skip_pfe rt.rt_entry = .ok (es, w) →
      some_equal_neighbours (sort llt es) = true := by
    intro es w hes
    rw [hrt] at hes
    obtain ⟨a1, _, a2, _, _, ha2, hsplit, _⟩ :=
      parse_entries_append D parent indirect skip_pfe l1 _ es w hes
    obtain ⟨a3, u3, ha3, hcons⟩ :=
      parse_entries_cons_some D parent indirect skip_pfe r1 e1 w1 h1 _ a2 _ ha2
    obtain ⟨a4, _, a5, _, _, ha5, hsplit2, _⟩ :=
      parse_entries_append D parent indirect skip_pfe l2 _ a3 u3 ha3
    obtain ⟨a6, _, _, hcons2⟩ :=
      parse_entries_cons_some D parent indirect skip_pfe r2 e2 w2 h2 _ a5 _ ha5
    apply neighbours_of_not_distinct hl
    intro hd
    unfold distinct_keys at hd
    rw [hsplit, hcons, hsplit2, hcons2] at hd
    have := (List.pairwise_cons.mp (List.pairwise_append.mp hd).2.1).1 e2 (by simp)
    rw [hk] at this
    exact Bool.noConfusion this
  constructor
  · cases hes : parse_entries D parent indirect skip_pfe rt.rt_entry with
    | error f => exact parse_error_of_entries llt D rt indirect parent skip_pfe f hes
    | ok p =>
      obtain ⟨es, w⟩ := p
      simp only [parse, hes, key es w hes, if_true, if_neg hne]
      split_ifs
      · exact ⟨_, rfl⟩
      · exact ⟨_, rfl⟩
  · rintro hfam ⟨es, w, hes⟩
    have hf : ¬ (rt.address_family.isSome = true ∧ rt.address_family ≠ some "MPLS") := by
      rcases hfam with h | h <;> simp [h]
    simp only [parse, if_neg hf, if_neg hne, hes, key es w hes, if_true]

/-- Witness for C17 (amended): a node with two rt-entries for label 5, one with the rule `Pop`
and one with the rule `Swap 3`, and an rt-entry for label 17 between them. -/
theorem parse_duplicate_fails_witness :
    parse label_lex demo_decls
      (some ⟨none, none, [demo_rt_entry "5" "Pop", demo_rt_entry "17" "discard",
        demo_rt_entry "5" "Swap 3"]⟩) [] demo_router false =
      .error (fault.throws base_error.nondeterministic) :=
  (parse_duplicate_fails label_lex label_lex_order demo_decls
    ⟨none, none, [demo_rt_entry "5" "Pop", demo_rt_entry "17" "discard",
      demo_rt_entry "5" "Swap 3"]⟩ [] demo_router false
    [] [demo_rt_entry "17" "discard"] [] (demo_rt_entry "5" "Pop") (demo_rt_entry "5" "Swap 3")
    _ _ _ _ rfl rfl rfl rfl).2 (Or.inl rfl) ⟨_, _, rfl⟩

end RoutingTable
end mpls2pda

/-! ## `RoutingTable::parse`: next hops of type `indirect` -/

namespace mpls2pda
open Query
namespace RoutingTable

/-- One pass of the loop over the `<nh>` nodes at a node of type `indirect` with an
`<nh-index>` and no `<via>`, or an empty one, when `skip_pfe` is not set: with an empty map
`indirect` the rule keeps the `via` of a new rule; with a map that is not empty the index is
looked up, and the pass throws when it is not a key of the map. -/
theorem parse_nh_indirect (D : decls) (parent : Router)
    (indirect : List (String × String × String)) (nh : nh_node) (idx : String) (s : nh_state)
    (weight : Nat) (hw : parse_weight nh = .ok weight) (hty : nh.nh_type = some "indirect")
    (hidx : nh.nh_index = some idx) (hvia : nh.via = none ∨ nh.via = some "") :
    parse_nh D parent indirect false nh s =
      if indirect = [] then
        .ok ⟨s.rules ++ [⟨D._type, [], D._via, weight⟩], s.cast,
          if weight ∈ s.weights then s.weights else s.weights ++ [weight], s.warnings ++ []⟩
      else
        match indirect.lookup idx with
        | none => .error (fault.throws base_error.could_not_lookup_indirect)
        | some d =>
          .ok ⟨s.rules ++ [⟨D._type, [], parent.get_interface d.1, weight⟩], s.cast,
            if weight ∈ s.weights then s.weights else s.weights ++ [weight], s.warnings ++ []⟩ := by
  have e1 : ¬ ("indirect" = "unilist") := by decide
  have e2 : ¬ ("indirect" = "discard") := by decide
  have e3 : ¬ ("indirect" = "receive") := by decide
  have e4 : ¬ ("indirect" = "table lookup") := by decide
  unfold parse_nh
  rw [hw]
  simp only [hty, hidx, if_neg e1, if_neg e2, if_neg e3, if_neg e4, if_true,
    Bool.false_eq_true, if_false, Option.isNone_some, Option.getD_some, Bool.not_false,
    Bool.true_and, decide_eq_true_eq]
  by_cases hi : indirect = []
  · rcases hvia with hv | hv <;> simp [hv, hi]
  · rcases hvia with hv | hv <;>
      simp only [hv, hi, ne_eq, not_true_eq_false, not_false_eq_true, if_true, if_false]

/-- A `<nh>` node at which every pass fails makes the loop over the `<nh>` nodes fail. -/
theorem parse_nhs_error (D : decls) (parent : Router)
    (indirect : List (String × String × String)) (skip_pfe : Bool) (nh : nh_node)
    (hf : ∀ s, ∃ f, parse_nh D parent indirect skip_pfe nh s = .error f) :
    ∀ (nhs : List nh_node) (s : nh_state), nh ∈ nhs →
      ∃ f, parse_nhs D parent indirect skip_pfe nhs s = .error f
  | [], _, h => by cases h
  | n :: rest, s, h => by
    rw [parse_nhs]
    cases hn : parse_nh D parent indirect skip_pfe n s with
    | error f => exact ⟨f, rfl⟩
    | ok s1 =>
      have hmem : nh ∈ rest := by
        rcases List.mem_cons.mp h with h1 | h1
        · obtain ⟨f, hf1⟩ := hf s
          rw [h1, hn] at hf1; cases hf1
        · exact h1
      exact parse_nhs_error D parent indirect skip_pfe nh hf rest s1 hmem

/-- The rules only grow along the loop over the `<nh>` nodes, and a node at which every pass
that does not fail appends a rule with the property `P` leaves such a rule behind. -/
theorem parse_nhs_rule (D : decls) (parent : Router)
    (indirect : List (String × String × String)) (skip_pfe : Bool) (P : forward_t → Prop) :
    ∀ (nhs : List nh_node) (s s1 : nh_state),
      parse_nhs D parent indirect skip_pfe nhs s = .ok s1 →
      (∀ r ∈ s.rules, r ∈ s1.rules) ∧
      ∀ nh ∈ nhs, (∀ t t1, parse_nh D parent indirect skip_pfe nh t = .ok t1 →
        ∃ r ∈ t1.rules, P r) → ∃ r ∈ s1.rules, P r
  | [], s, s1, h => by
    simp only [parse_nhs, Except.ok.injEq] at h
    subst h
    exact ⟨fun r hr => hr, fun nh hnh => by cases hnh⟩
  | n :: rest, s, s1, h => by
    rw [parse_nhs] at h
    cases hn : parse_nh D parent indirect skip_pfe n s with
    | error f => rw [hn] at h; cases h
    | ok s2 =>
      rw [hn] at h
      simp only at h
      have ih := parse_nhs_rule D parent indirect skip_pfe P rest s2 s1 h
      have hgrow : ∀ r ∈ s.rules, r ∈ s2.rules := by
        intro r hr
        rcases parse_nh_shape D parent indirect skip_pfe n s s2 hn with h1 | ⟨_, r1, _, h1, _⟩
        · rw [h1.2.1]; exact hr
        · rw [h1]; exact List.mem_append_left _ hr
      refine ⟨fun r hr => ih.1 r (hgrow r hr), ?_⟩
      intro nh hnh hP
      rcases List.mem_cons.mp hnh with h1 | h1
      · obtain ⟨r, hr, hPr⟩ := hP s s2 (by rw [h1]; exact hn)
        exact ⟨r, ih.1 r hr, hPr⟩
      · exact ih.2 nh h1 hP

/-- When the loop over the rt-entries does not fail, the body failed at none of them, and the
entry of each is among the entries appended. -/
theorem parse_entries_ok_mem (D : decls) (parent : Router)
    (indirect : List (String × String × String)) (skip_pfe : Bool) :
    ∀ (rules : List rt_entry_node) (es : List entry_t) (w : List warning_t),
      parse_entries D parent indirect skip_pfe rules = .ok (es, w) →
      ∀ rule ∈ rules, ∃ oe w1, parse_entry D parent indirect skip_pfe rule = .ok (oe, w1) ∧
        ∀ e ∈ oe, e ∈ es
  | [], es, w, _ => by intro rule hr; cases hr
  | r :: rest, es, w, h => by
    rw [parse_entries] at h
    cases hr : parse_entry D parent indirect skip_pfe r with
    | error f1 => rw [hr] at h; cases h
    | ok p =>
      obtain ⟨e0, w0⟩ := p
      rw [hr] at h
      simp only at h
      cases hrest : parse_entries D parent indirect skip_pfe rest with
      | error f1 => rw [hrest] at h; cases h
      | ok q =>
        obtain ⟨es1, ws1⟩ := q
        rw [hrest] at h
        simp only [Except.ok.injEq, Prod.mk.injEq] at h
        intro rule hrule
        rcases List.mem_cons.mp hrule with h1 | h1
        · refine ⟨e0, w0, by rw [h1, hr], ?_⟩
          intro e he
          rw [← h.1]
          apply List.mem_append_left
          rw [Option.mem_def] at he
          rw [he]
          simp
        · obtain ⟨oe, w1, hoe, hmem⟩ :=
            parse_entries_ok_mem D parent indirect skip_pfe rest es1 ws1 hrest rule h1
          refine ⟨oe, w1, hoe, ?_⟩
          intro e he
          rw [← h.1]
          exact List.mem_append_right _ (hmem e he)

/-- C18, as stated, fails. With an empty map `indirect` the index 7 of the next hop is not a key
of the map, and `parse` does not fail: the lookup is made only in a map that is not empty, and
the rule keeps the `via` of a new rule. And the next hops of an rt-entry for `default` are not
read at all: with a map that has the key 8 only, `parse` returns a table without entries. -/
theorem parse_indirect_counterexample :
    (List.lookup "7" ([] : List (String × String × String)) = none ∧
      parse label_lex demo_decls
        (some ⟨none, none, [⟨some "5", [⟨none, some "indirect", none, some "7"⟩]⟩]⟩) []
        demo_router false =
        .ok (⟨"", [⟨⟨Query.type_t.MPLS, 0, 6⟩, false, nullptr,
          [⟨type_t.MPLS, [], nullptr, 0⟩]⟩]⟩, [])) ∧
    (List.lookup "7" [("8", "ge-0", "R1")] = none ∧
      parse label_lex demo_decls
        (some ⟨none, none, [⟨some "default", [⟨none, some "indirect", none, some "7"⟩]⟩]⟩)
        [("8", "ge-0", "R1")] demo_router false = .ok (⟨"", []⟩, [])) :=
  ⟨⟨rfl, rfl⟩, ⟨rfl, rfl⟩⟩

/-- C18 (amended). A missing indirect lookup is fatal when the map is not empty. For every next
hop of type `indirect` (with `skip_pfe` false) that has an `<nh-index>` and no non-empty `<via>`,
in an rt-entry whose destination is neither `default` nor `default(S=0)`: if the caller-supplied
map `indirect` is not empty and the index is not a key of it, `parse` fails; if the index is a
key, every table that `parse` returns has an entry with a rule whose `via` is the interface named
by the first component of the map's value. The pass of the loop over this next hop, when its
weight is read without error: with an empty map it makes no lookup and appends a rule with the
`via` of a new rule; with a map that is not empty it throws when the index is not a key, and
otherwise appends the rule with the interface named by the map's value as `via`. -/
theorem parse_indirect_lookup (llt : label_t → label_t → Bool) (D : decls) (rt : rt_node)
    (indirect : List (String × String × String)) (parent : Router) (rule : rt_entry_node)
    (dest : String) (nh : nh_node) (idx : String) (hrule : rule ∈ rt.rt_entry)
    (hdest : rule.rt_destination = some dest)
    (hnd : dest ≠ "default" ∧ dest ≠ "default(S=0)") (hnh : nh ∈ rule.nh)
    (hty : nh.nh_type = some "indirect") (hidx : nh.nh_index = some idx)
    (hvia : nh.via = none ∨ nh.via = some "") :
    (indirect ≠ [] → indirect.lookup idx = none →
      ∃ f, parse llt D (some rt) indirect parent false = .error f) ∧
    (∀ d, indirect.lookup idx = some d →
      ∀ T w, parse llt D (some rt) indirect parent false = .ok (T, w) →
        ∃ e ∈ T._entries, ∃ r ∈ e._rules, r._via = parent.get_interface d.1) ∧
    (∀ s weight, parse_weight nh = .ok weight →
      parse_nh D parent indirect false nh s =
        if indirect = [] then
          .ok ⟨s.rules ++ [⟨D._type, [], D._via, weight⟩], s.cast,
            if weight ∈ s.weights then s.weights else s.weights ++ [weight], s.warnings ++ []⟩
        else
          match indirect.lookup idx with
          | none => .error (fault.throws base_error.could_not_lookup_indirect)
          | some d =>
            .ok ⟨s.rules ++ [⟨D._type, [], parent.get_interface d.1, weight⟩], s.cast,
              if weight ∈ s.weights then s.weights else s.weights ++ [weight],
              s.warnings ++ []⟩) := by
  have hwerr : ∀ s f, parse_weight nh = .error f →
      parse_nh D parent indirect false nh s = .error f := by
    intro s f hw
    unfold parse_nh
    rw [hw]
  have hdn : parse_destination D parent dest ≠ .ok none := fun h =>
    (parse_destination_none D parent dest h).elim hnd.1 hnd.2
  refine ⟨?_, ?_, fun s weight hw => parse_nh_indirect D parent indirect nh idx s weight hw hty
    hidx hvia⟩
  · intro hne hlook
    have hf : ∀ s, ∃ f, parse_nh D parent indirect false nh s = .error f := by
      intro s
      cases hw : parse_weight nh with
      | error f => exact ⟨f, hwerr s f hw⟩
      | ok weight =>
        rw [parse_nh_indirect D parent indirect nh idx s weight hw hty hidx hvia, if_neg hne,
          hlook]
        exact ⟨_, rfl⟩
    have hentry : ∃ f, parse_entry D parent indirect false rule = .error f := by
      unfold parse_entry
      rw [hdest]
      simp only
      cases hpd : parse_destination D parent dest with
      | error f => exact ⟨f, rfl⟩
      | ok oe =>
        cases oe with
        | none => exact absurd hpd hdn
        | some entry =>
          simp only
          cases hnhs : rule.nh with
          | nil => rw [hnhs] at hnh; cases hnh
          | cons n rest =>
            simp only
            obtain ⟨f, hf1⟩ := parse_nhs_error D parent indirect false nh hf (n :: rest)
              ⟨[], false, [], []⟩ (by rw [← hnhs]; exact hnh)
            rw [hf1]
            exact ⟨f, rfl⟩
    obtain ⟨f, hf1⟩ := hentry
    exact parse_fails_of_entry llt D rt indirect parent false rule f hrule hf1
  · intro d hlook T w hparse
    have hne : indirect ≠ [] := by
      intro h0
      rw [h0] at hlook
      cases hlook
    obtain ⟨es, hes, hT, _⟩ := parse_ok_entries llt D rt indirect parent false T w hparse
    obtain ⟨oe, w1, hoe, hmem⟩ :=
      parse_entries_ok_mem D parent indirect false rt.rt_entry es w hes rule hrule
    have hP : ∀ t t1, parse_nh D parent indirect false nh t = .ok t1 →
        ∃ r ∈ t1.rules, r._via = parent.get_interface d.1 := by
      intro t t1 ht
      cases hw : parse_weight nh with
      | error f => rw [hwerr t f hw] at ht; cases ht
      | ok weight =>
        rw [parse_nh_indirect D parent indirect nh idx t weight hw hty hidx hvia, if_neg hne,
          hlook] at ht
        simp only [Except.ok.injEq] at ht
        rw [← ht]
        exact ⟨_, List.mem_append_right _ (List.mem_singleton_self _), rfl⟩
    unfold parse_entry at hoe
    rw [hdest] at hoe
    simp only at hoe
    cases hpd : parse_destination D parent dest with
    | error f => rw [hpd] at hoe; cases hoe
    | ok oe1 =>
      cases oe1 with
      | none => exact absurd hpd hdn
      | some entry =>
        rw [hpd] at hoe
        simp only at hoe
        cases hnhs : rule.nh with
        | nil => rw [hnhs] at hnh; cases hnh
        | cons n rest =>
          rw [hnhs] at hoe
          simp only at hoe
          cases hs : parse_nhs D parent indirect false (n :: rest) ⟨[], false, [], []⟩ with
          | error f => rw [hs] at hoe; cases hoe
          | ok s =>
            rw [hs] at hoe
            simp only [Except.ok.injEq, Prod.mk.injEq] at hoe
            obtain ⟨r, hr, hPr⟩ := (parse_nhs_rule D parent indirect false
              (fun r => r._via = parent.get_interface d.1) (n :: rest) _ s hs).2 nh
              (by rw [← hnhs]; exact hnh) hP
            obtain ⟨e, he1, he2⟩ : ∃ e, e ∈ es ∧ e._rules = s.rules.map
                (fun r => ⟨r._type, r._ops, r._via, weight_rank s.weights r._weight⟩) :=
              ⟨_, hmem _ (by rw [← hoe.1]; rfl), rfl⟩
            refine ⟨e, ?_, ⟨r._type, r._ops, r._via, weight_rank s.weights r._weight⟩, ?_, hPr⟩
            · rw [hT]
              exact (perm_sort llt es).mem_iff.mpr he1
            · rw [he2]
              exact List.mem_map.mpr ⟨r, hr, rfl⟩

/-- Witness for C18 (amended): an rt-entry for label 5 with a next hop of type `indirect` and
index `7`. With a map that has the key `8` only, `parse` fails; with a map that gives `ge-0` for
the key `7`, the rule's `via` is the interface that the router has for `ge-0`. -/
theorem parse_indirect_lookup_witness :
    (∃ f, parse label_lex demo_decls
      (some ⟨none, none, [⟨some "5", [⟨none, some "indirect", none, some "7"⟩]⟩]⟩)
      [("8", "ge-0", "R1")] demo_router false = .error f) ∧
    parse label_lex demo_decls
      (some ⟨none, none, [⟨some "5", [⟨none, some "indirect", none, some "7"⟩]⟩]⟩)
      [("7", "ge-0", "R1")] demo_router false =
      .ok (⟨"", [⟨⟨Query.type_t.MPLS, 0, 6⟩, false, nullptr,
        [⟨type_t.MPLS, [], demo_router.get_interface "ge-0", 0⟩]⟩]⟩, []) :=
  ⟨(parse_indirect_lookup label_lex demo_decls
      ⟨none, none, [⟨some "5", [⟨none, some "indirect", none, some "7"⟩]⟩]⟩
      [("8", "ge-0", "R1")] demo_router ⟨some "5", [⟨none, some "indirect", none, some "7"⟩]⟩
      "5" ⟨none, some "indirect", none, some "7"⟩ "7" (by decide) rfl (by decide) (by decide)
      rfl rfl (Or.inl rfl)).1 (by decide) rfl,
    rfl⟩

end RoutingTable
end mpls2pda

/-! ## `forward_t::parse_ops`: the qualifier `(top)` -/

namespace mpls2pda
open Query
namespace RoutingTable

/-- C19. The qualifier `(top)` is only a trailing marker for `parse_ops`: for every string `s` in
which `(top)` does not occur, `parse_ops` on `s` followed by `(top)` has the same outcome as on
`s` (the same operations, or the same failure); and for every string in which the first
occurrence of `(top)`, at position `pos`, does not end the string, `parse_ops` throws. -/
theorem parse_ops_top_marker (d : action_t) (s : List Char) :
    (¬ "(top)".toList <:+: s →
      forward_t.parse_ops d (s ++ "(top)".toList) = forward_t.parse_ops d s) ∧
    (∀ pos, "(top)".toList <+: s.drop pos → (∀ k < pos, ¬ "(top)".toList <+: s.drop k) →
      pos + 5 ≠ s.length →
      forward_t.parse_ops d s = .error base_error.top_not_at_end) := by
  constructor
  · intro h
    have hnone := (find_none_iff _ s).mpr h
    have hfind := find_top_after s hnone
    have hlen : (s ++ "(top)".toList).length - 5 = s.length := by simp [String.toList]
    unfold forward_t.parse_ops
    rw [hfind, hnone]
    simp only [hlen, ne_eq, not_true_eq_false, if_false, List.take_left]
  · intro pos hp hk hne
    obtain ⟨t, ht⟩ := hp
    have hlen := congrArg List.length ht
    simp only [List.length_drop, List.length_append, String.toList, List.length_cons,
      List.length_nil] at hlen
    have hfind := find_first _ s pos ⟨t, ht⟩ hk (by omega)
    unfold forward_t.parse_ops
    rw [hfind]
    simp only
    rw [if_pos (by omega)]

/-- Witness for C19: `Pop` with and without `(top)`, and `Pop (top) Pop`, in which `(top)` stands
at position 4 and the string goes on. -/
theorem parse_ops_top_marker_witness :
    forward_t.parse_ops demo_action ("Pop ".toList ++ "(top)".toList) =
      forward_t.parse_ops demo_action "Pop ".toList ∧
    forward_t.parse_ops demo_action "Pop (top) Pop".toList =
      .error base_error.top_not_at_end :=
  ⟨(parse_ops_top_marker demo_action "Pop ".toList).1 (by decide),
    (parse_ops_top_marker demo_action "Pop (top) Pop".toList).2 4 (by decide) (by decide)
      (by decide)⟩

end RoutingTable
end mpls2pda

/-! ## `RoutingTable::parse`: the marker `(S=0)` -/

namespace mpls2pda
open Query
namespace RoutingTable

end RoutingTable
end mpls2pda

/-! ## `Verifier`: settings, the modes run, the fields of the record, and `run` -/

namespace aalwines
open mpls2pda (base_error)
open Query utils
namespace Verifier

/-- With engine 1 or 2, `run_once` returns a record for every query. -/
theorem run_once_returns (V : Verifier) (pipe : pipeline_t) (q : Query) (pt w : Bool)
    (he : V._engine = 1 ∨ V._engine = 2) :
    ∃ r, run_once V pipe q pt w = .ok r := by
  by_cases hd : q.approximation = mode_t.DUAL
  · obtain ⟨r, h, _⟩ := run_once_dual V pipe q pt w he hd
    exact ⟨r, h⟩
  · obtain ⟨r, h, _⟩ := run_once_single V pipe q pt w he hd
    exact ⟨r, h⟩

/-- The list of modes of a query is not empty. -/
theorem modes_cons (q : Query) : ∃ m ms, modes q = m :: ms := by
  unfold modes
  split
  · exact ⟨_, _, rfl⟩
  · exact ⟨_, _, rfl⟩

/-- With an engine other than 1 and 2, `run_once` throws in the first pass of its loop. -/
theorem run_once_throws (V : Verifier) (pipe : pipeline_t) (q : Query) (pt w : Bool)
    (he : ¬ (V._engine = 1 ∨ V._engine = 2)) :
    run_once V pipe q pt w = .error base_error.unsupported_engine := by
  obtain ⟨m, ms, hm⟩ := modes_cons q
  unfold run_once
  rw [hm, run_modes, if_neg he]

/-- C21, as stated, fails: with engine 0 (and the default reduction level) `check_settings`
accepts, and `run_once` throws the unsupported-engine error on a query. -/
theorem engine_zero_counterexample :
    check_settings ⟨0, 0, false⟩ = true ∧
    run_once ⟨0, 0, false⟩ (demo_pipeline [] []) ⟨mode_t.OVER, 0, 0⟩ true false
      = .error base_error.unsupported_engine :=
  ⟨by decide, rfl⟩

/-- C21 (amended). For the engine values 0, 1 and 2 (and a reduction level of at most 4)
`check_settings` accepts the setting. With engine 1 or 2 `run_once` returns a record for every
query; with engine 0 it throws the unsupported-engine error for every query. -/
theorem engines_permitted (V : Verifier) (pipe : pipeline_t) (q : Query)
    (print_timing is_weighted : Bool) (he : V._engine ≤ 2) (hr : V._reduction ≤ 4) :
    check_settings V = true ∧
    (V._engine ≠ 0 → ∃ r, run_once V pipe q print_timing is_weighted = .ok r) ∧
    (V._engine = 0 →
      run_once V pipe q print_timing is_weighted = .error base_error.unsupported_engine) := by
  refine ⟨?_, ?_, ?_⟩
  · unfold check_settings
    rw [if_neg (by omega), if_neg (by omega)]
  · intro h0
    exact run_once_returns V pipe q print_timing is_weighted (by omega)
  · intro h0
    exact run_once_throws V pipe q print_timing is_weighted (by omega)

/-- Witness for C21 (amended): engine 2 with reduction level 3, on a `DUAL` query. -/
theorem engines_permitted_witness :
    check_settings ⟨2, 3, false⟩ = true ∧
    ((2 : Nat) ≠ 0 → ∃ r, run_once ⟨2, 3, false⟩ (demo_pipeline [mode_t.OVER] [])
      ⟨mode_t.DUAL, 1, 0⟩ true false = .ok r) ∧
    ((2 : Nat) = 0 → run_once ⟨2, 3, false⟩ (demo_pipeline [mode_t.OVER] [])
      ⟨mode_t.DUAL, 1, 0⟩ true false = .error base_error.unsupported_engine) :=
  engines_permitted ⟨2, 3, false⟩ (demo_pipeline [mode_t.OVER] []) ⟨mode_t.DUAL, 1, 0⟩ true false
    (by decide) (by decide)

/-- C22. `check_settings` fails iff the reduction level is greater than 4 or the engine is
greater than 2; `check_supports_weight` fails iff the engine is not 1; with the default settings
(engine 1, reduction 0) both accept. -/
theorem check_settings_fails_iff :
    (∀ V : Verifier, check_settings V = false ↔ (V._reduction > 4 ∨ V._engine > 2)) ∧
    (∀ V : Verifier, check_supports_weight V = false ↔ V._engine ≠ 1) ∧
    ({} : Verifier)._engine = 1 ∧ ({} : Verifier)._reduction = 0 ∧
    check_settings {} = true ∧ check_supports_weight {} = true := by
  refine ⟨?_, ?_, rfl, rfl, by decide, by decide⟩
  · intro V
    unfold check_settings
    by_cases h1 : V._reduction > 4
    · simp [h1]
    · by_cases h2 : V._engine > 2
      · simp [h1, h2]
      · simp [h1, h2]
  · intro V
    unfold check_supports_weight
    by_cases h : V._engine = 1
    · simp [h]
    · simp [h]

/-- The state after the loop over the single mode `m`, entered with result `MAYBE`. -/
theorem run_modes_one (V : Verifier) (pipe : pipeline_t) (w : Bool) (m : mode_t) (s : loop_state)
    (he : V._engine = 1 ∨ V._engine = 2) (hs : s.result = outcome_t.MAYBE) :
    ∃ s1, run_modes V pipe w [m] s = .ok s1 ∧ s1.runs = s.runs ++ [m] ∧
      s1.result = mode_result s.q.number_of_failures m
        (engine_outcome V pipe w { s.q with approximation := m })
        (pipe.write_json_trace V._engine V._reduction w { s.q with approximation := m }).1 := by
  by_cases hc : mode_result s.q.number_of_failures m
      (engine_outcome V pipe w { s.q with approximation := m })
      (pipe.write_json_trace V._engine V._reduction w { s.q with approximation := m }).1
      = outcome_t.MAYBE
  · obtain ⟨s4, h4, hr, _, hruns, _⟩ := run_modes_next V pipe w m [] s he hs hc
    rw [run_modes] at h4
    exact ⟨s4, h4, hruns, by rw [hr, hc]⟩
  · obtain ⟨s1, h1, hr, _, hruns, _⟩ := run_modes_stop V pipe w m [] s he hs hc
    exact ⟨s1, h1, hruns, hr⟩

/-- C23. With engine 1 or 2, `run_once` runs the pipeline of every query at most twice; for a
query that is not `DUAL` it runs it exactly once, in the mode of the query; for a `DUAL` query it
runs `OVER` first, and it runs `UNDER` after it if and only if the result that the pass of the
loop for `OVER` leaves is `MAYBE`. -/
theorem run_once_pipeline_runs (V : Verifier) (pipe : pipeline_t) (q : Query)
    (print_timing is_weighted : Bool) (he : V._engine = 1 ∨ V._engine = 2) :
    ∃ r, run_once V pipe q print_timing is_weighted = .ok r ∧
      r.runs.length ≤ 2 ∧
      (q.approximation ≠ mode_t.DUAL → r.runs = [q.approximation]) ∧
      (q.approximation = mode_t.DUAL →
        ∃ s1, run_modes V pipe is_weighted [mode_t.OVER]
            ⟨q, q.approximation, none, outcome_t.MAYBE, "", [], []⟩ = .ok s1 ∧
          s1.runs = [mode_t.OVER] ∧
          (mode_t.UNDER ∈ r.runs ↔ s1.result = outcome_t.MAYBE) ∧
          r.runs = mode_t.OVER :: (if s1.result = outcome_t.MAYBE then [mode_t.UNDER] else [])) := by
  by_cases hd : q.approximation = mode_t.DUAL
  · obtain ⟨r, h1, h2⟩ := run_once_dual V pipe q print_timing is_weighted he hd
    obtain ⟨s1, hs1, hruns, hres⟩ := run_modes_one V pipe is_weighted mode_t.OVER
      ⟨q, q.approximation, none, outcome_t.MAYBE, "", [], []⟩ he rfl
    have hlen : r.runs.length ≤ 2 := by
      rcases h2 with ⟨_, h3, _⟩ | ⟨_, h3, _⟩ <;> rw [h3] <;> simp
    refine ⟨r, h1, hlen, fun h => absurd hd h, fun _ => ⟨s1, hs1, hruns, ?_, ?_⟩⟩
    · rcases h2 with ⟨hc, h3, _⟩ | ⟨hc, h3, _⟩
      · rw [h3, hres]
        simp only [List.mem_singleton]
        exact ⟨fun h => (by cases h), fun h => absurd h hc⟩
      · rw [h3, hres]
        exact ⟨fun _ => hc, fun _ => by simp⟩
    · rcases h2 with ⟨hc, h3, _⟩ | ⟨hc, h3, _⟩
      · rw [h3, hres, if_neg hc]
      · rw [h3, hres, if_pos hc]
  · obtain ⟨r, h1, h2, _⟩ := run_once_single V pipe q print_timing is_weighted he hd
    exact ⟨r, h1, by rw [h2]; simp, fun _ => h2, fun h => absurd h hd⟩

/-- Witness for C23: a `DUAL` query with `k = 1` on the default settings, the engine positive in
mode `OVER` and no trace written, so that `UNDER` is run. -/
theorem run_once_pipeline_runs_witness :
    ∃ r, run_once {} (demo_pipeline [mode_t.OVER] []) ⟨mode_t.DUAL, 1, 0⟩ true false = .ok r ∧
      r.runs.length ≤ 2 ∧
      ((⟨mode_t.DUAL, 1, 0⟩ : Query).approximation ≠ mode_t.DUAL →
        r.runs = [(⟨mode_t.DUAL, 1, 0⟩ : Query).approximation]) ∧
      ((⟨mode_t.DUAL, 1, 0⟩ : Query).approximation = mode_t.DUAL →
        ∃ s1, run_modes {} (demo_pipeline [mode_t.OVER] []) false [mode_t.OVER]
            ⟨⟨mode_t.DUAL, 1, 0⟩, (⟨mode_t.DUAL, 1, 0⟩ : Query).approximation, none,
              outcome_t.MAYBE, "", [], []⟩ = .ok s1 ∧
          s1.runs = [mode_t.OVER] ∧
          (mode_t.UNDER ∈ r.runs ↔ s1.result = outcome_t.MAYBE) ∧
          r.runs = mode_t.OVER :: (if s1.result = outcome_t.MAYBE then [mode_t.UNDER] else [])) :=
  run_once_pipeline_runs {} (demo_pipeline [mode_t.OVER] []) ⟨mode_t.DUAL, 1, 0⟩ true false
    (Or.inl rfl)


/-- A pass of the loop that leaves the result `YES`, entered with result `MAYBE`: the outcome of
the engine was positive, and `proof` holds what `write_json_trace` wrote in that pass. -/
theorem step_yes (V : Verifier) (pipe : pipeline_t) (w : Bool) (m : mode_t) (s : loop_state)
    (hs : s.result = outcome_t.MAYBE) (eo : Bool)
    (hy : (resolve m eo (if eo then with_trace V pipe w (start_mode V pipe m s)
        else start_mode V pipe m s)).result = outcome_t.YES) :
    eo = true ∧
    (resolve m eo (if eo then with_trace V pipe w (start_mode V pipe m s)
        else start_mode V pipe m s)).proof =
      (pipe.write_json_trace V._engine V._reduction w { s.q with approximation := m }).2 := by
  cases eo
  · exfalso
    rw [step_result V pipe w m s hs] at hy
    by_cases hk : s.q.number_of_failures = 0 <;> by_cases hm : m = mode_t.OVER <;>
      simp [hk, hm] at hy
  · exact ⟨rfl, rfl⟩

/-- The weight of the trace after a pass of the loop: the weight of the shortest trace when the
outcome of the engine was positive, the weight function yields weights and the engine is post*;
what it was before the pass otherwise. -/
theorem step_trace_weight (V : Verifier) (pipe : pipeline_t) (w : Bool) (m : mode_t)
    (s : loop_state) (eo : Bool) :
    (resolve m eo (if eo then with_trace V pipe w (start_mode V pipe m s)
        else start_mode V pipe m s)).trace_weight =
      if eo = true ∧ w = true ∧ V._engine = 1
        then pipe.trace_weight V._reduction { s.q with approximation := m }
        else s.trace_weight := by
  cases eo
  · simp [resolve, start_mode]
  · by_cases h1 : V._engine = 1 <;> cases w <;> simp [resolve, start_mode, with_trace, h1]

/-- A loop that ends with result `YES`: the last mode run had a positive engine outcome, `proof`
holds the text written by `write_json_trace` in that run, and the weight is the one of that run
(for the weighted post*). -/
theorem run_modes_yes (V : Verifier) (pipe : pipeline_t) (w : Bool)
    (he : V._engine = 1 ∨ V._engine = 2) :
    ∀ (ms : List mode_t) (s s1 : loop_state), s.result = outcome_t.MAYBE →
      run_modes V pipe w ms s = .ok s1 → s1.result = outcome_t.YES →
      ∃ m, s1.runs.getLast? = some m ∧
        engine_outcome V pipe w { s.q with approximation := m } = true ∧
        s1.proof =
          (pipe.write_json_trace V._engine V._reduction w { s.q with approximation := m }).2 ∧
        s1.trace_weight =
          if w = true ∧ V._engine = 1
            then pipe.trace_weight V._reduction { s.q with approximation := m }
            else s.trace_weight := by
  intro ms
  induction ms with
  | nil =>
    intro s s1 hs h hy
    rw [run_modes] at h
    cases h
    rw [hs] at hy
    cases hy
  | cons m ms ih =>
    intro s s1 hs h hy
    rw [run_modes_cons V pipe w m ms s he] at h
    have hq0 : (start_mode V pipe m s).q = { s.q with approximation := m } := rfl
    rw [hq0] at h
    generalize hs4 : resolve m (engine_outcome V pipe w { s.q with approximation := m })
      (if engine_outcome V pipe w { s.q with approximation := m }
        then with_trace V pipe w (start_mode V pipe m s)
        else start_mode V pipe m s) = s4 at h
    have hrun : s4.runs = s.runs ++ [m] := by rw [← hs4]; exact step_runs V pipe w m s _
    have hq : s4.q = { s.q with approximation := m } := by rw [← hs4]; exact step_q V pipe w m s _
    have htw := step_trace_weight V pipe w m s
      (engine_outcome V pipe w { s.q with approximation := m })
    rw [hs4] at htw
    by_cases hc : s4.result ≠ outcome_t.MAYBE
    · rw [if_pos hc] at h
      cases h
      have hy4 : s4.result = outcome_t.YES := hy
      have hstep := step_yes V pipe w m s hs
        (engine_outcome V pipe w { s.q with approximation := m }) (by rw [hs4]; exact hy4)
      rw [hs4] at hstep
      refine ⟨m, ?_, hstep.1, hstep.2, ?_⟩
      · show s4.runs.getLast? = some m
        rw [hrun]; simp
      · show s4.trace_weight = _
        rw [htw]
        simp [hstep.1]
    · rw [if_neg hc] at h
      have hm4 : s4.result = outcome_t.MAYBE := not_not.mp hc
      obtain ⟨m1, h1, h2, h3, h4⟩ := ih s4 s1 hm4 h hy
      rw [hq] at h2 h3 h4
      refine ⟨m1, h1, h2, h3, ?_⟩
      rw [h4]
      by_cases hw : w = true ∧ V._engine = 1
      · rw [if_pos hw, if_pos hw]
      · rw [if_neg hw, if_neg hw, htw, if_neg (fun h => hw h.2)]

/-- C25. With engine 1 or 2, the record returned by `run_once` has the field `trace` iff the
trace option is set and the result is `YES`; it has the field `trace-weight` iff in addition the
weight function yields weights; it has the timing fields iff `print_timing` is true. The trace
in the record is the text written in the last mode run, whose engine outcome was positive, and so
is the weight; and a pass of the loop whose engine outcome is negative extracts nothing: it
leaves `proof` empty and the weight as it was. -/
theorem run_once_record_fields (V : Verifier) (pipe : pipeline_t) (q : Query)
    (print_timing is_weighted : Bool) (he : V._engine = 1 ∨ V._engine = 2) :
    ∃ r, run_once V pipe q print_timing is_weighted = .ok r ∧
      (r.output.trace.isSome = true ↔
        (V._print_trace = true ∧ r.output.result = outcome_t.YES)) ∧
      (r.output.trace_weight.isSome = true ↔
        (V._print_trace = true ∧ r.output.result = outcome_t.YES ∧ is_weighted = true)) ∧
      (r.output.timing = true ↔ print_timing = true) ∧
      (∀ t, r.output.trace = some t →
        ∃ m, r.runs.getLast? = some m ∧
          engine_outcome V pipe is_weighted { q with approximation := m } = true ∧
          t = (pipe.write_json_trace V._engine V._reduction is_weighted
            { q with approximation := m }).2) ∧
      (∀ tw, r.output.trace_weight = some tw →
        ∃ m, r.runs.getLast? = some m ∧
          engine_outcome V pipe is_weighted { q with approximation := m } = true ∧
          tw = if V._engine = 1
            then pipe.trace_weight V._reduction { q with approximation := m } else []) ∧
      (∀ (m : mode_t) (s s1 : loop_state),
        engine_outcome V pipe is_weighted { s.q with approximation := m } = false →
        run_modes V pipe is_weighted [m] s = .ok s1 →
        s1.proof = "" ∧ s1.trace_weight = s.trace_weight) := by
  obtain ⟨r, hr⟩ := run_once_returns V pipe q print_timing is_weighted he
  refine ⟨r, hr, ?_⟩
  unfold run_once at hr
  cases hrm : run_modes V pipe is_weighted (modes q)
      ⟨q, q.approximation, none, outcome_t.MAYBE, "", [], []⟩ with
  | error e => rw [hrm] at hr; cases hr
  | ok s =>
    rw [hrm] at hr
    cases hr
    have hyes := run_modes_yes V pipe is_weighted he (modes q)
      ⟨q, q.approximation, none, outcome_t.MAYBE, "", [], []⟩ s rfl hrm
    refine ⟨?_, ?_, Iff.rfl, ?_, ?_, ?_⟩
    · by_cases hp : V._print_trace = true <;> by_cases hy : s.result = outcome_t.YES <;>
        simp [hp, hy]
    · by_cases hp : V._print_trace = true <;> by_cases hy : s.result = outcome_t.YES <;>
        cases is_weighted <;> simp [hp, hy]
    · intro t ht
      by_cases hp : V._print_trace = true <;> by_cases hy : s.result = outcome_t.YES <;>
        simp [hp, hy] at ht
      obtain ⟨m, h1, h2, h3, _⟩ := hyes hy
      exact ⟨m, h1, h2, by rw [← ht, h3]⟩
    · intro tw htw
      by_cases hp : V._print_trace = true <;> by_cases hy : s.result = outcome_t.YES <;>
        by_cases hw : is_weighted = true <;> simp [hp, hy, hw] at htw
      obtain ⟨m, h1, h2, _, h4⟩ := hyes hy
      refine ⟨m, h1, h2, ?_⟩
      rw [← htw, h4]
      simp [hw]
    · intro m s0 s1 heo hrun
      rw [run_modes_cons V pipe is_weighted m [] s0 he] at hrun
      have hq0 : (start_mode V pipe m s0).q = { s0.q with approximation := m } := rfl
      rw [hq0, heo] at hrun
      simp only [Bool.false_eq_true, if_false] at hrun
      rw [run_modes] at hrun
      split at hrun
      · cases hrun
        exact ⟨rfl, rfl⟩
      · cases hrun
        exact ⟨rfl, rfl⟩

/-- Witness for C25: an `OVER` query with `k = 1`, the trace option set, engine 1, the engine
positive and the trace written. -/
theorem run_once_record_fields_witness :
    ∃ r, run_once ⟨1, 0, true⟩ (demo_pipeline [mode_t.OVER] [mode_t.OVER])
        ⟨mode_t.OVER, 1, 0⟩ true true = .ok r ∧
      r.output.trace = some "trace" ∧ r.output.trace_weight = some [] ∧
      r.output.timing = true := by
  obtain ⟨r, h1, h2, h3, h4, _⟩ := run_once_record_fields ⟨1, 0, true⟩
    (demo_pipeline [mode_t.OVER] [mode_t.OVER]) ⟨mode_t.OVER, 1, 0⟩ true true (Or.inl rfl)
  have hr : r = ⟨⟨"Post*", mode_t.OVER, some (0, 0), outcome_t.YES, some [], some "trace", true⟩,
      ⟨mode_t.OVER, 1, 0⟩, [mode_t.OVER]⟩ := by
    have h : Except.ok r = (Except.ok ⟨⟨"Post*", mode_t.OVER, some (0, 0), outcome_t.YES, some [],
        some "trace", true⟩, ⟨mode_t.OVER, 1, 0⟩, [mode_t.OVER]⟩ : Except base_error run_result) :=
      h1.symm.trans rfl
    exact Except.ok.inj h
  subst hr
  exact ⟨_, h1, rfl, rfl, h4.mpr rfl⟩

end Verifier
end aalwines

/-! ## The decreasing flag in the order, reads of `parse_ops`, and the tail copied by `merge` -/

namespace mpls2pda
open Query
namespace RoutingTable

/-- C26, as stated, fails: of two entries with the same ingress interface and the same top
label, the one with decreasing = true is not smaller under `operator<` than the one with
decreasing = false; it is the other way round. -/
theorem decreasing_first_counterexample :
    entry_t.lt label_lex ⟨⟨Query.type_t.MPLS, 0, 7⟩, true, 5, [demo_discard]⟩
      ⟨⟨Query.type_t.MPLS, 0, 7⟩, false, 5, [demo_discard]⟩ = false ∧
    entry_t.lt label_lex ⟨⟨Query.type_t.MPLS, 0, 7⟩, false, 5, [demo_discard]⟩
      ⟨⟨Query.type_t.MPLS, 0, 7⟩, true, 5, [demo_discard]⟩ = true := by
  decide

/-- C26 (amended). For every two entries with the same ingress interface, and so for every two
that also have the same top label, the entry with decreasing = false sorts under
`entry_t::operator<` before the entry with decreasing = true, and not the other way round,
whatever the order on labels. -/
theorem decreasing_sorts_last (llt : label_t → label_t → Bool) (a b : entry_t)
    (hi : a._ingoing = b._ingoing) (ha : a._decreasing = false) (hb : b._decreasing = true) :
    entry_t.lt llt a b = true ∧ entry_t.lt llt b a = false := by
  constructor
  · unfold entry_t.lt
    rw [if_neg (by simp [hi]), if_pos (by simp [ha, hb]), ha, hb]
    decide
  · unfold entry_t.lt
    rw [if_neg (by simp [hi]), if_pos (by simp [ha, hb]), ha, hb]
    decide

/-- Witness for C26 (amended): two entries for the MPLS label 7 on the interface at address 5. -/
theorem decreasing_sorts_last_witness :
    entry_t.lt label_lex ⟨⟨Query.type_t.MPLS, 0, 7⟩, false, 5, [demo_discard]⟩
      ⟨⟨Query.type_t.MPLS, 0, 7⟩, true, 5, [demo_discard]⟩ = true ∧
    entry_t.lt label_lex ⟨⟨Query.type_t.MPLS, 0, 7⟩, true, 5, [demo_discard]⟩
      ⟨⟨Query.type_t.MPLS, 0, 7⟩, false, 5, [demo_discard]⟩ = false :=
  decreasing_sorts_last label_lex ⟨⟨Query.type_t.MPLS, 0, 7⟩, false, 5, [demo_discard]⟩
    ⟨⟨Query.type_t.MPLS, 0, 7⟩, true, 5, [demo_discard]⟩ rfl rfl rfl

/-- A keyword `S`, or `Pu`, with fewer than three characters behind its first letter, at the
head of a string without `(top)`: `parse_ops` reads beyond the end of the string. -/
theorem parse_ops_loop_short (d : action_t) (fuel : Nat) (c : Char) (cs : List Char)
    (done : List action_t) (op : op_t) (hk : keyword c cs = some op) (hc : cs.length < 3) :
    parse_ops_loop d (fuel + 1) (c :: cs) done = ops_result.out_of_bounds := by
  have h1 : c ≠ ' ' := by
    intro h; subst h; simp [keyword] at hk
  have h2 : c ≠ ',' := by
    intro h; subst h; simp [keyword] at hk
  have h3 : ¬ (c = 'P' ∧ cs.head? = some 'o') := by
    rintro ⟨h, ho⟩; subst h; simp [keyword, ho] at hk
  rw [parse_ops_loop, if_neg h1, if_neg h2, if_neg h3, hk]
  simp only [hc, if_true]

/-- C29: the code at the failing inputs. On the strings `S`, `Sw`, `Swa`, `Pu`, `Pus`, on
`Pop, Sw` and on `Swap 1, Pu(top)`, `parse_ops` inspects a position beyond the length of the
string: after `i += 4` the test `i != ostr.size()` lets `ostr[i]` be read with `i` greater than
the size. -/
theorem parse_ops_reads_beyond (d : action_t) :
    forward_t.parse_ops d "S".toList = ops_result.out_of_bounds ∧
    forward_t.parse_ops d "Sw".toList = ops_result.out_of_bounds ∧
    forward_t.parse_ops d "Swa".toList = ops_result.out_of_bounds ∧
    forward_t.parse_ops d "Pu".toList = ops_result.out_of_bounds ∧
    forward_t.parse_ops d "Pus".toList = ops_result.out_of_bounds ∧
    forward_t.parse_ops d "Pop, Sw".toList = ops_result.out_of_bounds ∧
    forward_t.parse_ops d "Swap 1, Pu(top)".toList = ops_result.out_of_bounds :=
  ⟨rfl, rfl, rfl, rfl, rfl, rfl, rfl⟩

/-- When this table is empty and the first entry of `other` is not skipped, `merge` appends the
whole of `other`, whatever interfaces its other entries are bound to. -/
theorem merge_into_empty (llt : label_t → label_t → Bool) (name : String) (other : RoutingTable)
    (parent : Interface_ptr) (e : entry_t) (rest : List entry_t)
    (ho : other._entries = e :: rest) (hf : foreign parent e = false) :
    (merge llt ⟨name, []⟩ other parent).table._entries = e :: rest := by
  unfold merge
  rw [ho, merge_loop]
  simp [hf]

/-- C30: the code at the failing input. Both tables are sorted and `parent` is the interface at
address 5. The second entry of `other` is bound to `parent` and is greater than every entry of
this table, so `merge` appends it together with the rest of `other`: the table after the call
holds the entry of `other` that is bound to the interface at address 6, whose key was not in the
table before. -/
theorem merge_copies_foreign :
    is_sorted label_lex demo_this._entries = true ∧
    is_sorted label_lex demo_far._entries = true ∧
    (merge label_lex demo_this demo_far 5).asserts = true ∧
    (merge label_lex demo_this demo_far 5).table._entries =
      [demo_entry 0 11 [demo_swap 21 7, demo_swap 31 8], demo_entry 0 13 [demo_discard],
        demo_entry 5 11 [demo_swap 22 7], demo_entry 5 20 [demo_swap 34 8],
        demo_entry 6 20 [demo_swap 35 8]] ∧
    demo_entry 6 20 [demo_swap 35 8] ∈ demo_far._entries ∧
    foreign 5 (demo_entry 6 20 [demo_swap 35 8]) = true ∧
    (demo_entry 6 20 [demo_swap 35 8])._ingoing ≠ nullptr ∧
    (demo_entry 6 20 [demo_swap 35 8])._ingoing ≠ 5 ∧
    ∀ i ∈ demo_this._entries, key i ≠ key (demo_entry 6 20 [demo_swap 35 8]) := by
  decide

end RoutingTable
end mpls2pda

/-! ## Interface pairing is symmetric -/

namespace aalwines

/-- The match of `a` after `a.make_pairing(b)` is `b`, and the match of `b` is `a`. -/
theorem make_pairing_match {α : Type} [DecidableEq α] (m : α → Option α) (a b : α) :
    make_pairing m a b a = some b ∧ make_pairing m a b b = some a := by
  unfold make_pairing
  by_cases h : a = b
  · subst h; simp
  · simp [h]

/-- Pairing the interface `(i, other)` with `(other, i)` keeps every match pointing back. -/
theorem paired_back_step (m : Nat × Nat → Option (Nat × Nat)) (i other : Nat)
    (h : paired_back m) : paired_back (make_pairing m (i, other) (other, i)) := by
  intro x y hxy
  unfold make_pairing at hxy ⊢
  by_cases h1 : x = (other, i)
  · subst h1
    simp only [if_true] at hxy
    cases hxy
    refine ⟨rfl, ?_⟩
    by_cases h2 : ((i, other) : Nat × Nat) = (other, i)
    · rw [if_pos h2, h2]
    · rw [if_neg h2, if_pos rfl]
  · rw [if_neg h1] at hxy
    by_cases h2 : x = (i, other)
    · subst h2
      simp only [if_true] at hxy
      cases hxy
      exact ⟨rfl, by rw [if_pos rfl]⟩
    · rw [if_neg h2] at hxy
      obtain ⟨hy, hback⟩ := h x y hxy
      refine ⟨hy, ?_⟩
      have h3 : y ≠ (other, i) := by
        intro hc
        apply h2
        rw [hc] at hy
        have : x = (x.1, x.2) := rfl
        rw [this]
        simp only [Prod.mk.injEq] at hy ⊢
        exact ⟨hy.2.symm, hy.1.symm⟩
      have h4 : y ≠ (i, other) := by
        intro hc
        apply h1
        rw [hc] at hy
        have : x = (x.1, x.2) := rfl
        rw [this]
        simp only [Prod.mk.injEq] at hy ⊢
        exact ⟨hy.2.symm, hy.1.symm⟩
      rw [if_neg h3, if_neg h4]
      exact hback

/-- The loop over the links of one router keeps every match pointing back. -/
theorem paired_back_inner (n i : Nat) :
    ∀ (ls : List Nat) (m : Nat × Nat → Option (Nat × Nat)), paired_back m →
      paired_back (ls.foldl
        (fun m other => if other < n then make_pairing m (i, other) (other, i) else m) m) := by
  intro ls
  induction ls with
  | nil => intro m h; exact h
  | cons o ls ih =>
    intro m h
    simp only [List.foldl_cons]
    apply ih
    by_cases ho : o < n
    · rw [if_pos ho]; exact paired_back_step m i o h
    · rw [if_neg ho]; exact h

/-- The loop over the routers keeps every match pointing back. -/
theorem paired_back_outer (n : Nat) :
    ∀ (ils : List (Nat × List Nat)) (m : Nat × Nat → Option (Nat × Nat)), paired_back m →
      paired_back (ils.foldl
        (fun m il => il.2.foldl
          (fun m other => if other < n then make_pairing m (il.1, other) (other, il.1) else m)
          m) m) := by
  intro ils
  induction ils with
  | nil => intro m h; exact h
  | cons il ils ih =>
    intro m h
    simp only [List.foldl_cons]
    exact ih _ (paired_back_inner n il.1 il.2 m h)

/-- C27. Pairing is symmetric: after `a.make_pairing(b)` the match of `a` is `b` and the match
of `b` is `a`, for every two interfaces (also when `a` is `b`); and in the network built by the
pairing loop of `construct_synthetic_network`, for any lists of links, every interface `i` that
has a match `j` is the match of `j`, that is `i.match().match() == i`. -/
theorem pairing_symmetric :
    (∀ (α : Type) [DecidableEq α] (m : α → Option α) (a b : α),
      make_pairing m a b a = some b ∧ make_pairing m a b b = some a) ∧
    (∀ (links : List (List Nat)) (i j : Nat × Nat),
      pair_links links i = some j → pair_links links j = some i) := by
  refine ⟨fun α _ m a b => make_pairing_match m a b, ?_⟩
  intro links i j hij
  have h := paired_back_outer links.length links.enum (fun _ => none)
    (by intro x y hxy; cases hxy)
  exact (h i j hij).2

end aalwines

/-! ## `Verifier::run_once`: the trace of a `YES`, the query after the call, and the `mode` field -/

namespace aalwines
open mpls2pda (base_error)
open Query utils
namespace Verifier

/-- Setting the mode of a query to the mode it has leaves the query as it is. -/
theorem set_same_approximation (q : Query) :
    ({ q with approximation := q.approximation } : Query) = q := by
  cases q; rfl

/-- The mode left in the state by a pass of the loop is the one it had before. -/
theorem step_mode (V : Verifier) (pipe : pipeline_t) (w : Bool) (m : mode_t) (s : loop_state)
    (eo : Bool) :
    (resolve m eo (if eo then with_trace V pipe w (start_mode V pipe m s)
        else start_mode V pipe m s)).mode = s.mode := by
  cases eo <;> rfl

/-- The state in which the loop over the modes ends, entered with result `MAYBE`: either no mode
was run, or the query is left in the last mode run, and the variable `mode` holds that mode when
the result is conclusive and is untouched when the result is `MAYBE`. -/
theorem run_modes_frame (V : Verifier) (pipe : pipeline_t) (w : Bool)
    (he : V._engine = 1 ∨ V._engine = 2) :
    ∀ (ms : List mode_t) (s s1 : loop_state), s.result = outcome_t.MAYBE →
      run_modes V pipe w ms s = .ok s1 →
      (ms = [] ∧ s1 = s) ∨
      ∃ m, s1.runs.getLast? = some m ∧ m ∈ ms ∧ s1.q = { s.q with approximation := m } ∧
        (s1.result ≠ outcome_t.MAYBE → s1.mode = m) ∧
        (s1.result = outcome_t.MAYBE → s1.mode = s.mode) := by
  intro ms
  induction ms with
  | nil =>
    intro s s1 _ h
    rw [run_modes] at h
    cases h
    exact Or.inl ⟨rfl, rfl⟩
  | cons m ms ih =>
    intro s s1 hs h
    right
    rw [run_modes_cons V pipe w m ms s he] at h
    generalize hs4 : resolve m (engine_outcome V pipe w (start_mode V pipe m s).q)
      (if engine_outcome V pipe w (start_mode V pipe m s).q
        then with_trace V pipe w (start_mode V pipe m s)
        else start_mode V pipe m s) = s4 at h
    have hrun : s4.runs = s.runs ++ [m] := by rw [← hs4]; exact step_runs V pipe w m s _
    have hq : s4.q = { s.q with approximation := m } := by rw [← hs4]; exact step_q V pipe w m s _
    have hmode : s4.mode = s.mode := by rw [← hs4]; exact step_mode V pipe w m s _
    by_cases hc : s4.result ≠ outcome_t.MAYBE
    · rw [if_pos hc] at h
      cases h
      refine ⟨m, ?_, List.mem_cons_self _ _, hq, fun _ => rfl, fun h => absurd h hc⟩
      show s4.runs.getLast? = some m
      rw [hrun]; simp
    · rw [if_neg hc] at h
      have hm4 : s4.result = outcome_t.MAYBE := not_not.mp hc
      rcases ih s4 s1 hm4 h with ⟨_, h1⟩ | ⟨m1, h1, h2, h3, h4, h5⟩
      · subst h1
        refine ⟨m, ?_, List.mem_cons_self _ _, hq, fun h => absurd hm4 h, fun _ => hmode⟩
        rw [hrun]; simp
      · refine ⟨m1, h1, List.mem_cons_of_mem _ h2, ?_, h4, fun h => ?_⟩
        · rw [h3, hq]
        · rw [h5 h, hmode]

/-- What `run_once` leaves behind, with engine 1 or 2: the query is left in the last mode run,
which is one of the modes of the query; the `mode` field names that mode when the result is
conclusive and the mode the query came with when the result is `MAYBE`. -/
theorem run_once_frame (V : Verifier) (pipe : pipeline_t) (q : Query) (pt w : Bool)
    (he : V._engine = 1 ∨ V._engine = 2) :
    ∃ r m, run_once V pipe q pt w = .ok r ∧ r.runs.getLast? = some m ∧ m ∈ modes q ∧
      r.q = { q with approximation := m } ∧
      (r.output.result ≠ outcome_t.MAYBE → r.output.mode = m) ∧
      (r.output.result = outcome_t.MAYBE → r.output.mode = q.approximation) := by
  obtain ⟨r, hr⟩ := run_once_returns V pipe q pt w he
  have hr0 := hr
  unfold run_once at hr
  cases hrm : run_modes V pipe w (modes q)
      ⟨q, q.approximation, none, outcome_t.MAYBE, "", [], []⟩ with
  | error e => rw [hrm] at hr; cases hr
  | ok s =>
    rw [hrm] at hr
    cases hr
    rcases run_modes_frame V pipe w he (modes q) _ s rfl hrm with ⟨h0, _⟩ | ⟨m, h1, h2, h3, h4, h5⟩
    · obtain ⟨m, ms, hm⟩ := modes_cons q
      rw [hm] at h0
      cases h0
    · exact ⟨_, m, hr0, h1, h2, h3, h4, h5⟩

/-- The result of `run_once` in terms of the last mode run, with engine 1 or 2: it is the result
of the pass for that mode, and every mode run before it left the result `MAYBE`. -/
theorem run_once_last (V : Verifier) (pipe : pipeline_t) (q : Query) (pt w : Bool)
    (he : V._engine = 1 ∨ V._engine = 2) :
    ∃ r m, run_once V pipe q pt w = .ok r ∧ r.runs.getLast? = some m ∧
      r.output.result = mode_result q.number_of_failures m
        (engine_outcome V pipe w { q with approximation := m })
        (pipe.write_json_trace V._engine V._reduction w { q with approximation := m }).1 ∧
      ∀ m1 ∈ r.runs.dropLast, mode_result q.number_of_failures m1
        (engine_outcome V pipe w { q with approximation := m1 })
        (pipe.write_json_trace V._engine V._reduction w { q with approximation := m1 }).1
          = outcome_t.MAYBE := by
  by_cases hd : q.approximation = mode_t.DUAL
  · obtain ⟨r, h1, h2⟩ := run_once_dual V pipe q pt w he hd
    rcases h2 with ⟨_, h3, h4⟩ | ⟨hc, h3, h4⟩
    · refine ⟨r, mode_t.OVER, h1, by rw [h3]; rfl, h4, ?_⟩
      rw [h3]
      intro m1 hm1
      simp at hm1
    · refine ⟨r, mode_t.UNDER, h1, by rw [h3]; rfl, h4, ?_⟩
      rw [h3]
      intro m1 hm1
      have : m1 = mode_t.OVER := by simpa using hm1
      rw [this]
      exact hc
  · obtain ⟨r, h1, h2, h3⟩ := run_once_single V pipe q pt w he hd
    refine ⟨r, q.approximation, h1, by rw [h2]; rfl, ?_, ?_⟩
    · rw [set_same_approximation]; exact h3
    · rw [h2]
      intro m1 hm1
      simp at hm1

/-- A pass of the loop gives `YES` only on a positive engine outcome, and with `k > 0` only when
the trace was written. -/
theorem mode_result_yes {k : Nat} {m : mode_t} {eo wr : Bool}
    (h : mode_result k m eo wr = outcome_t.YES) : eo = true ∧ (0 < k → wr = true) := by
  unfold mode_result at h
  by_cases hk : k = 0
  · rw [if_pos hk] at h
    cases eo
    · simp at h
    · exact ⟨rfl, fun h0 => absurd hk (Nat.pos_iff_ne_zero.mp h0)⟩
  · rw [if_neg hk] at h
    cases eo <;> cases wr <;> by_cases hm : m = mode_t.OVER <;> simp [hm] at h ⊢

/-- C31, as stated, fails: an `OVER` query with `k = 0`, engine 1 and the trace option set. The
engine outcome is positive and `write_json_trace` returns false; `run_once` reports `YES` and
puts the text that was written into the `trace` field. -/
theorem yes_without_trace_counterexample :
    ((demo_pipeline [mode_t.OVER] []).write_json_trace 1 0 false ⟨mode_t.OVER, 0, 0⟩).1 = false ∧
    ∃ r, run_once ⟨1, 0, true⟩ (demo_pipeline [mode_t.OVER] []) ⟨mode_t.OVER, 0, 0⟩ true false
        = .ok r ∧
      r.runs = [mode_t.OVER] ∧ r.output.result = outcome_t.YES ∧
      r.output.trace = some "trace" :=
  ⟨by decide, _, rfl, by decide, by decide, by decide⟩

/-- C31 (amended). With engine 1 or 2, whenever `run_once` reports `YES`, the engine outcome of
the concluding mode run (the last one) was positive; with a failure bound `k > 0` the trace of
that run was written successfully (`write_json_trace` returned true), while with `k = 0` the
result is `YES` whenever the engine outcome of the first mode run is positive, whatever
`write_json_trace` returned. The text in the `trace` field is the text that `write_json_trace`
wrote in the concluding run. -/
theorem yes_comes_with_trace (V : Verifier) (pipe : pipeline_t) (q : Query)
    (print_timing is_weighted : Bool) (he : V._engine = 1 ∨ V._engine = 2) :
    ∃ r, run_once V pipe q print_timing is_weighted = .ok r ∧
      (r.output.result = outcome_t.YES →
        ∃ m, r.runs.getLast? = some m ∧
          engine_outcome V pipe is_weighted { q with approximation := m } = true ∧
          (0 < q.number_of_failures →
            (pipe.write_json_trace V._engine V._reduction is_weighted
              { q with approximation := m }).1 = true) ∧
          ∀ t, r.output.trace = some t →
            t = (pipe.write_json_trace V._engine V._reduction is_weighted
              { q with approximation := m }).2) ∧
      (q.number_of_failures = 0 →
        ∃ m, (modes q).head? = some m ∧ r.runs = [m] ∧
          (r.output.result = outcome_t.YES ↔
            engine_outcome V pipe is_weighted { q with approximation := m } = true)) := by
  obtain ⟨r, m, hr, hlast, hres, _⟩ := run_once_last V pipe q print_timing is_weighted he
  refine ⟨r, hr, ?_, ?_⟩
  · intro hy
    have hr1 := hr
    unfold run_once at hr1
    cases hrm : run_modes V pipe is_weighted (modes q)
        ⟨q, q.approximation, none, outcome_t.MAYBE, "", [], []⟩ with
    | error e => rw [hrm] at hr1; cases hr1
    | ok s =>
      rw [hrm] at hr1
      cases hr1
      obtain ⟨m2, h1, h2, h3, _⟩ := run_modes_yes V pipe is_weighted he (modes q)
        ⟨q, q.approximation, none, outcome_t.MAYBE, "", [], []⟩ s rfl hrm hy
      have hmm : m2 = m := by
        have h1a : s.runs.getLast? = some m := hlast
        rw [h1] at h1a
        exact Option.some.inj h1a
      subst hmm
      refine ⟨m2, h1, h2, ?_, ?_⟩
      · intro hk
        exact (mode_result_yes (hres.symm.trans hy)).2 hk
      · intro t ht
        by_cases hp : V._print_trace = true
        · have hy1 : s.result = outcome_t.YES := hy
          have : s.proof = t := by
            simp only [hp, hy1, decide_True, Bool.and_self, if_true, Option.some.injEq] at ht
            exact ht
          rw [← this, h3]
        · simp [hp] at ht
  · intro hk
    have hres0 : ∀ (m1 : mode_t) (eo wr : Bool),
        mode_result q.number_of_failures m1 eo wr =
          (if eo = true then outcome_t.YES else outcome_t.NO) := by
      intro m1 eo wr; simp [mode_result, hk]
    by_cases hd : q.approximation = mode_t.DUAL
    · obtain ⟨r1, h1, h2⟩ := run_once_dual V pipe q print_timing is_weighted he hd
      have hrr : r1 = r := Except.ok.inj (h1.symm.trans hr)
      subst hrr
      rcases h2 with ⟨_, h3, h4⟩ | ⟨hc, _, _⟩
      · refine ⟨mode_t.OVER, by simp [modes, hd], h3, ?_⟩
        rw [h4, hres0]
        cases engine_outcome V pipe is_weighted { q with approximation := mode_t.OVER } <;> simp
      · rw [hres0] at hc
        cases hh : engine_outcome V pipe is_weighted { q with approximation := mode_t.OVER } <;>
          simp [hh] at hc
    · obtain ⟨r1, h1, h2, h3⟩ := run_once_single V pipe q print_timing is_weighted he hd
      have hrr : r1 = r := Except.ok.inj (h1.symm.trans hr)
      subst hrr
      refine ⟨q.approximation, by simp [modes, hd], h2, ?_⟩
      rw [h3, hres0, set_same_approximation]
      cases engine_outcome V pipe is_weighted q <;> simp

/-- Witness for C31 (amended): a `DUAL` query with `k = 1` on engine 1 with the trace option
set; the engine is positive in both modes and the trace is written in mode `UNDER` only, so the
answer is `YES` after the `UNDER` run, whose trace was written. -/
theorem yes_comes_with_trace_witness :
    ∃ r, run_once ⟨1, 0, true⟩ (demo_pipeline [mode_t.OVER, mode_t.UNDER] [mode_t.UNDER])
        ⟨mode_t.DUAL, 1, 0⟩ true false = .ok r ∧
      r.output.result = outcome_t.YES ∧
      ∃ m, r.runs.getLast? = some m ∧
        ((demo_pipeline [mode_t.OVER, mode_t.UNDER] [mode_t.UNDER]).write_json_trace 1 0 false
          { (⟨mode_t.DUAL, 1, 0⟩ : Query) with approximation := m }).1 = true := by
  obtain ⟨r, h1, h2, _⟩ := yes_comes_with_trace ⟨1, 0, true⟩
    (demo_pipeline [mode_t.OVER, mode_t.UNDER] [mode_t.UNDER]) ⟨mode_t.DUAL, 1, 0⟩ true false
    (Or.inl rfl)
  have hr : r = ⟨⟨"Post*", mode_t.UNDER, some (0, 0), outcome_t.YES, none, some "trace", true⟩,
      ⟨mode_t.UNDER, 1, 0⟩, [mode_t.OVER, mode_t.UNDER]⟩ :=
    Except.ok.inj (h1.symm.trans rfl)
  have hy : r.output.result = outcome_t.YES := by rw [hr]
  obtain ⟨m, h3, _, h5, _⟩ := h2 hy
  exact ⟨r, h1, hy, m, h3, h5 (by decide)⟩

/-- C34. With engine 1 or 2, the `mode` field of the record returned by `run_once` names the
mode that decided the answer. When the result is `YES` or `NO`, it is the mode of the last run,
in which the result became conclusive: the result is the one of the pass for that mode, every
mode run before it left `MAYBE`, and for a `DUAL` query it is `OVER` or `UNDER`. When the result
is `MAYBE`, it is the approximation mode the query had when `run_once` was called. -/
theorem mode_field (V : Verifier) (pipe : pipeline_t) (q : Query)
    (print_timing is_weighted : Bool) (he : V._engine = 1 ∨ V._engine = 2) :
    ∃ r, run_once V pipe q print_timing is_weighted = .ok r ∧
      (r.output.result ≠ outcome_t.MAYBE →
        r.runs.getLast? = some r.output.mode ∧ r.output.mode ∈ modes q ∧
        r.output.result = mode_result q.number_of_failures r.output.mode
          (engine_outcome V pipe is_weighted { q with approximation := r.output.mode })
          (pipe.write_json_trace V._engine V._reduction is_weighted
            { q with approximation := r.output.mode }).1 ∧
        (∀ m1 ∈ r.runs.dropLast, mode_result q.number_of_failures m1
          (engine_outcome V pipe is_weighted { q with approximation := m1 })
          (pipe.write_json_trace V._engine V._reduction is_weighted
            { q with approximation := m1 }).1 = outcome_t.MAYBE) ∧
        (q.approximation = mode_t.DUAL →
          r.output.mode = mode_t.OVER ∨ r.output.mode = mode_t.UNDER)) ∧
      (r.output.result = outcome_t.MAYBE → r.output.mode = q.approximation) := by
  obtain ⟨r, m, hr, hlast, hmem, _, hc, hmb⟩ :=
    run_once_frame V pipe q print_timing is_weighted he
  obtain ⟨r1, m1, hr1, hlast1, hres1, hbefore⟩ :=
    run_once_last V pipe q print_timing is_weighted he
  have hrr : r1 = r := Except.ok.inj (hr1.symm.trans hr)
  subst hrr
  have hmm : m1 = m := by
    rw [hlast] at hlast1
    exact (Option.some.inj hlast1).symm
  subst hmm
  refine ⟨r1, hr, ?_, hmb⟩
  intro hne
  have hmode := hc hne
  rw [hmode]
  refine ⟨hlast, hmem, hres1, hbefore, ?_⟩
  intro hd
  simpa [modes, hd] using hmem

/-- Witness for C34: a `DUAL` query with `k = 1` on the default settings, the engine positive in
both modes and the trace written in mode `UNDER` only; the answer `YES` is decided in mode
`UNDER`, which the `mode` field names. -/
theorem mode_field_witness :
    ∃ r, run_once {} (demo_pipeline [mode_t.OVER, mode_t.UNDER] [mode_t.UNDER])
        ⟨mode_t.DUAL, 1, 0⟩ true false = .ok r ∧
      r.output.result = outcome_t.YES ∧ r.output.mode = mode_t.UNDER ∧
      r.runs.getLast? = some r.output.mode := by
  obtain ⟨r, h1, h2, _⟩ := mode_field {}
    (demo_pipeline [mode_t.OVER, mode_t.UNDER] [mode_t.UNDER]) ⟨mode_t.DUAL, 1, 0⟩ true false
    (Or.inl rfl)
  have hr : r = ⟨⟨"Post*", mode_t.UNDER, some (0, 0), outcome_t.YES, none, none, true⟩,
      ⟨mode_t.UNDER, 1, 0⟩, [mode_t.OVER, mode_t.UNDER]⟩ :=
    Except.ok.inj (h1.symm.trans rfl)
  have hy : r.output.result ≠ outcome_t.MAYBE := by rw [hr]; decide
  exact ⟨r, h1, by rw [hr], by rw [hr], (h2 hy).1⟩

end Verifier
end aalwines

/-! ## `RoutingTable::overlaps` and `RoutingTable::merge` -/

namespace mpls2pda
open Query
namespace RoutingTable

/-- An entry that is greater than every entry of `os` meets none of them. -/
theorem hits_of_all_lt {llt : label_t → label_t → Bool} (hl : label_order llt)
    {os : List entry_t} {e : entry_t} (h : ∀ o ∈ os, entry_t.lt llt o e = true) :
    hits os e = false := by
  unfold hits
  rw [List.any_eq_false]
  intro o ho
  simp [entry_lt_ne hl (h o ho)]

/-- An entry that is smaller than every entry of `os` meets none of them. -/
theorem hits_of_all_gt {llt : label_t → label_t → Bool} (hl : label_order llt)
    {os : List entry_t} {e : entry_t} (h : ∀ o ∈ os, entry_t.lt llt e o = true) :
    hits os e = false := by
  unfold hits
  rw [List.any_eq_false]
  intro o ho
  have := entry_lt_ne hl (h o ho)
  rw [eq_comm_entry] at this
  simp [this]

/-- Entries of `other` that are smaller than `e` do not matter for what `e` meets. -/
theorem hits_append {llt : label_t → label_t → Bool} (hl : label_order llt)
    {pre suf : List entry_t} {e : entry_t} (h : ∀ o ∈ pre, entry_t.lt llt o e = true) :
    hits (pre ++ suf) e = hits suf e := by
  have h1 := hits_of_all_lt hl h
  unfold hits at h1 ⊢
  rw [List.any_append, h1, Bool.false_or]

theorem find_congr {α : Type} {p q : α → Bool} :
    ∀ {l : List α}, (∀ x ∈ l, p x = q x) → l.find? p = l.find? q
  | [], _ => rfl
  | a :: l, h => by
    have ha := h a (List.mem_cons_self _ _)
    have hl : ∀ x ∈ l, p x = q x := fun x hx => h x (List.mem_cons_of_mem _ hx)
    rw [List.find?_cons, List.find?_cons, ha, find_congr hl]

/-- The first element of a sorted list with a property comes before every other element with the
property. -/
theorem find_first_strict {llt : label_t → label_t → Bool} {p : entry_t → Bool} :
    ∀ {l : List entry_t} {x : entry_t}, strict llt l → l.find? p = some x →
      ∀ y ∈ l, p y = true → y = x ∨ entry_t.lt llt x y = true
  | [], _, _, h, _, _, _ => by simp at h
  | a :: l, x, hs, h, y, hy, hpy => by
    have h1 := List.pairwise_cons.mp hs
    by_cases hpa : p a = true
    · rw [List.find?_cons_of_pos _ hpa] at h
      cases h
      rcases List.mem_cons.mp hy with hya | hyl
      · exact Or.inl hya
      · exact Or.inr (h1.1 y hyl)
    · rw [List.find?_cons_of_neg _ hpa] at h
      rcases List.mem_cons.mp hy with hya | hyl
      · rw [hya] at hpy; exact absurd hpy hpa
      · exact find_first_strict h1.2 h y hyl hpy

/-- When `e` meets nothing in the entries of `other` from `oit` on, and the entries before `oit`
are smaller than `e`, the search for the first entry of this table that meets one of `other`
goes on behind `e`, with the entries from `oit` on. -/
theorem first_hit_step {llt : label_t → label_t → Bool} (hl : label_order llt)
    {e : entry_t} {rest pre suf : List entry_t} (hs : strict llt (e :: rest))
    (hpre : ∀ o ∈ pre, entry_t.lt llt o e = true) (he : hits suf e = false) :
    (e :: rest).find? (hits (pre ++ suf)) = rest.find? (hits suf) := by
  have h1 := List.pairwise_cons.mp hs
  rw [List.find?_cons_of_neg _ (by rw [hits_append hl hpre, he]; simp)]
  apply find_congr
  intro x hx
  exact hits_append hl (fun o ho => entry_lt_trans hl (hpre o ho) (h1.1 x hx))

/-- The loop of `overlaps` on sorted tables with distinct keys: it ends at the first entry of
this table that has the key of an entry of `other` without being paired silently with it, and
returns `false` when there is none. -/
theorem overlaps_loop_spec {llt : label_t → label_t → Bool} (hl : label_order llt)
    (parent : Router) :
    ∀ (es os : List entry_t), strict llt es → strict llt os →
      overlaps_loop llt parent es os =
        match es.find? (hits os) with
        | none => ⟨[], .ok false⟩
        | some e => overlaps_report parent e
  | [], os, _, _ => by simp [overlaps_loop]
  | e :: rest, os, hs, ho => by
    have h1 := List.pairwise_cons.mp hs
    have hsplit : os.takeWhile (fun o => entry_t.lt llt o e) ++
        os.dropWhile (fun o => entry_t.lt llt o e) = os := List.takeWhile_append_dropWhile _ _
    have hpre : ∀ o ∈ os.takeWhile (fun o => entry_t.lt llt o e), entry_t.lt llt o e = true :=
      fun o ho1 => List.mem_takeWhile_imp (p := fun o => entry_t.lt llt o e) ho1
    rw [overlaps_loop]
    cases hd : os.dropWhile (fun o => entry_t.lt llt o e) with
    | nil =>
      rw [hd, List.append_nil] at hsplit
      rw [hsplit] at hpre
      have hnone : (e :: rest).find? (hits os) = none := by
        rw [List.find?_eq_none]
        intro x hx
        have hx1 : ∀ o ∈ os, entry_t.lt llt o x = true := by
          intro o ho1
          rcases List.mem_cons.mp hx with hxe | hxr
          · rw [hxe]; exact hpre o ho1
          · exact entry_lt_trans hl (hpre o ho1) (h1.1 x hxr)
        simp [hits_of_all_lt hl hx1]
      rw [hnone]
    | cons o post1 =>
      rw [hd] at hsplit
      have hso : strict llt (o :: post1) := by
        have : strict llt (os.takeWhile (fun o => entry_t.lt llt o e) ++ o :: post1) := by
          rw [hsplit]; exact ho
        exact (List.pairwise_append.mp this).2.1
      have hso1 := List.pairwise_cons.mp hso
      have hnlt : entry_t.lt llt o e = false := by
        have := dropWhile_head_false _ hd
        simpa using this
      simp only
      by_cases heq : entry_t.eq o e = true
      · rw [if_pos heq]
        have hk : key o = key e := (eq_iff_key o e).mp heq
        have hrest : ∀ x ∈ post1, entry_t.eq x e = false := by
          intro x hx
          have hlt : entry_t.lt llt e x = true := by
            rw [← entry_lt_congr llt hk rfl]; exact hso1.1 x hx
          have := entry_lt_ne hl hlt
          rw [eq_comm_entry] at this
          exact this
        by_cases hsil : silent e o = true
        · rw [if_pos hsil]
          have hhit : hits (o :: post1) e = false := by
            unfold hits
            rw [List.any_eq_false]
            intro x hx
            rcases List.mem_cons.mp hx with hxo | hxp
            · rw [hxo]; simp [hsil]
            · simp [hrest x hxp]
          rw [overlaps_loop_spec hl parent rest (o :: post1) h1.2 hso, ← hsplit,
            first_hit_step hl hs hpre hhit]
        · rw [if_neg hsil]
          have hhit : hits os e = true := by
            unfold hits
            rw [List.any_eq_true]
            refine ⟨o, ?_, by simp [heq, hsil]⟩
            rw [← hsplit]
            exact List.mem_append_right _ (List.mem_cons_self _ _)
          rw [List.find?_cons_of_pos _ hhit]
      · rw [if_neg heq]
        have heq1 : entry_t.eq o e = false := by simpa using heq
        have hlt : entry_t.lt llt e o = true := entry_lt_total hl hnlt heq1
        have hhit : hits (o :: post1) e = false := by
          apply hits_of_all_gt hl
          intro x hx
          rcases List.mem_cons.mp hx with hxo | hxp
          · rw [hxo]; exact hlt
          · exact entry_lt_trans hl hlt (hso1.1 x hxp)
        rw [overlaps_loop_spec hl parent rest (o :: post1) h1.2 hso, ← hsplit,
          first_hit_step hl hs hpre hhit]

/-- What `overlaps` returns where it reports: `true`, or the exception of `print_label`. -/
theorem overlaps_report_ret (parent : Router) (e : entry_t) :
    (entry_t.print_label e._top_label = .ok () ∧ (overlaps_report parent e).ret = .ok true) ∨
    ∃ err, entry_t.print_label e._top_label = .error err ∧
      (overlaps_report parent e).ret = .error err := by
  unfold overlaps_report
  cases h : entry_t.print_label e._top_label with
  | error err => exact Or.inr ⟨err, rfl, rfl⟩
  | ok u => exact Or.inl ⟨rfl, rfl⟩

/-- Meeting is symmetric: `e` meets `o` iff `o` meets `e`. -/
theorem hits_symm {es os : List entry_t} (h : ∀ e ∈ es, hits os e = false) :
    ∀ o ∈ os, hits es o = false := by
  intro o ho
  unfold hits
  rw [List.any_eq_false]
  intro e he
  have h1 := h e he
  unfold hits at h1
  rw [List.any_eq_false] at h1
  have h2 := h1 o ho
  rw [eq_comm_entry, silent_comm]
  exact h2

/-- An entry of this table that meets an entry of `other` has the key of an overlapping entry of
`other`, when the entries of `other` are bound to no other interface than `parent`. -/
theorem hit_overlapping {parent : Interface_ptr} {es os : List entry_t} {e : entry_t}
    (hf : ∀ o ∈ os, foreign parent o = false) (he : e ∈ es) (h : hits os e = true) :
    ∃ o ∈ os.filter (overlapping parent es), key o = key e := by
  unfold hits at h
  rw [List.any_eq_true] at h
  obtain ⟨o, ho, hoe⟩ := h
  simp only [Bool.and_eq_true, Bool.not_eq_true'] at hoe
  refine ⟨o, List.mem_filter.mpr ⟨ho, ?_⟩, (eq_iff_key o e).mp hoe.1⟩
  refine overlapping_true (hf o ho) he ?_ ?_
  · rw [eq_comm_entry]; exact hoe.1
  · rw [silent_comm]; exact hoe.2

/-- No entry of this table meets an entry of `other` iff no entry of `other` overlaps. -/
theorem no_hit_iff {parent : Interface_ptr} {es os : List entry_t}
    (hf : ∀ o ∈ os, foreign parent o = false) :
    es.find? (hits os) = none ↔ os.filter (overlapping parent es) = [] := by
  rw [List.find?_eq_none, List.filter_eq_nil_iff]
  constructor
  · intro h o ho hov
    obtain ⟨_, i, hi, heq, hsil⟩ := (overlapping_iff parent es o).mp hov
    have h1 := h i hi
    apply h1
    unfold hits
    rw [List.any_eq_true]
    refine ⟨o, ho, ?_⟩
    rw [eq_comm_entry, silent_comm]
    simp [heq, hsil]
  · intro h e he hhit
    obtain ⟨o, ho, _⟩ := hit_overlapping hf he hhit
    exact h o (List.mem_filter.mp ho).1 (List.mem_filter.mp ho).2

/-- C33. For tables `A` and `B` that are sorted with pairwise distinct keys, where every entry
of `B` has its ingress unset or equal to the parent interface, the top labels of `B` being
pushdown labels (not of type `INTERFACE` or `NONE`, which `print_label` asserts never to meet):
`A.merge(B, parent, warnings)` and `A.overlaps(B)` both return, `A.overlaps(B)` returns `true`
iff the merge returns `false` (and `false` iff the merge returns `true`), and `A.overlaps(B)`
equals `B.overlaps(A)`. -/
theorem overlaps_predicts_merge (llt : label_t → label_t → Bool) (hl : label_order llt)
    (A B : RoutingTable) (parent : Interface_ptr) (router : Router)
    (hs1 : is_sorted llt A._entries = true) (hd1 : distinct_keys A._entries)
    (hs2 : is_sorted llt B._entries = true) (hd2 : distinct_keys B._entries)
    (hB : ∀ e ∈ B._entries, e._ingoing = nullptr ∨ e._ingoing = parent)
    (hp : ∀ e ∈ B._entries, e._top_label._type ≠ Query.type_t.INTERFACE ∧
      e._top_label._type ≠ Query.type_t.NONE) :
    (∃ b, (merge llt A B parent).ret = .ok b) ∧
    (∃ c, (overlaps llt A B router).ret = .ok c) ∧
    ((overlaps llt A B router).ret = .ok true ↔ (merge llt A B parent).ret = .ok false) ∧
    ((overlaps llt A B router).ret = .ok false ↔ (merge llt A B parent).ret = .ok true) ∧
    (overlaps llt A B router).ret = (overlaps llt B A router).ret := by
  have hsA : strict llt A._entries := strict_of_sorted_distinct hl hs1 hd1
  have hsB : strict llt B._entries := strict_of_sorted_distinct hl hs2 hd2
  have hinv : merge_inv llt B._entries [] A._entries := ⟨hsA, hsB, fun p hp => by cases hp⟩
  have hf : ∀ o ∈ B._entries, foreign parent o = false := by
    intro o ho
    unfold foreign
    rcases hB o ho with h | h <;> simp [h]
  have hover : ∀ X Y : RoutingTable, strict llt X._entries → strict llt Y._entries →
      (overlaps llt X Y router) =
        match X._entries.find? (hits Y._entries) with
        | none => ⟨[], .ok false⟩
        | some e => overlaps_report router e :=
    fun X Y hX hY => overlaps_loop_spec hl router X._entries Y._entries hX hY
  -- the value of `merge` in terms of the overlapping entries of `B`
  have hm_ok : ∀ b, (merge llt A B parent).ret = .ok b →
      b = (B._entries.filter (overlapping parent A._entries)).isEmpty ∧
      ∀ e ∈ B._entries.filter (overlapping parent A._entries),
        entry_t.print_label e._top_label = .ok () := by
    intro b hret
    obtain ⟨_, hb, hp⟩ := merge_loop_warnings hl A._name parent b B._entries [] A._entries
      true [] (is_sorted llt B._entries && is_sorted llt A._entries) hinv hret
    exact ⟨by simpa using hb, by simpa using hp⟩
  have hm_err : ∀ err, (merge llt A B parent).ret = .error err →
      err = base_error.interfaces_cannot_be_pushdown_labels ∧
      B._entries.filter (overlapping parent A._entries) ≠ [] := by
    intro err hret
    refine ⟨merge_loop_error llt A._name parent err B._entries [] A._entries true []
      (is_sorted llt B._entries && is_sorted llt A._entries) hret, ?_⟩
    obtain ⟨e, he, _⟩ := merge_loop_throws hl A._name parent err B._entries [] A._entries
      true [] _ hinv hret
    intro hnil
    have he1 : e ∈ B._entries.filter (overlapping parent A._entries) := by simpa using he
    rw [hnil] at he1
    cases he1
  -- the value of `overlaps` in terms of the first entry of `A` that meets one of `B`
  have ho_false : (overlaps llt A B router).ret = .ok false ↔
      A._entries.find? (hits B._entries) = none := by
    rw [hover A B hsA hsB]
    cases hfind : A._entries.find? (hits B._entries) with
    | none => simp
    | some e =>
      simp only
      rcases overlaps_report_ret router e with ⟨_, h⟩ | ⟨err, _, h⟩ <;> rw [h] <;> simp
  have hm_true : (merge llt A B parent).ret = .ok true ↔
      B._entries.filter (overlapping parent A._entries) = [] := by
    constructor
    · intro h
      have := (hm_ok true h).1
      exact List.isEmpty_iff.mp this.symm
    · intro hnil
      cases hret : (merge llt A B parent).ret with
      | error err => exact absurd hnil (hm_err err hret).2
      | ok b =>
        have := (hm_ok b hret).1
        rw [hnil] at this
        rw [this]; rfl
  have h1 : (overlaps llt A B router).ret = .ok false ↔ (merge llt A B parent).ret = .ok true :=
    ho_false.trans ((no_hit_iff hf).trans hm_true.symm)
  have h2 : (merge llt A B parent).ret = .ok false → (overlaps llt A B router).ret = .ok true := by
    intro hret
    obtain ⟨hb, hp⟩ := hm_ok false hret
    rw [hover A B hsA hsB]
    cases hfind : A._entries.find? (hits B._entries) with
    | none =>
      rw [(no_hit_iff hf).mp hfind] at hb
      cases hb
    | some e =>
      simp only
      have he : e ∈ A._entries := List.mem_of_find?_eq_some hfind
      have hhit : hits B._entries e = true := List.find?_some hfind
      obtain ⟨o, ho, hk⟩ := hit_overlapping hf he hhit
      have hlab : o._top_label = e._top_label := by
        simp only [key, Prod.mk.injEq] at hk
        exact hk.2.1
      have hpo := hp o ho
      rw [hlab] at hpo
      rcases overlaps_report_ret router e with ⟨_, h⟩ | ⟨err, h, _⟩
      · exact h
      · rw [hpo] at h; cases h
  have h3 : (overlaps llt A B router).ret = .ok true →
      (merge llt A B parent).ret = .ok false ∨
      (merge llt A B parent).ret = .error base_error.interfaces_cannot_be_pushdown_labels := by
    intro hov
    cases hret : (merge llt A B parent).ret with
    | error err =>
      right
      rw [(hm_err err hret).1]
    | ok b =>
      left
      cases b with
      | false => rfl
      | true =>
        exfalso
        have := h1.mpr hret
        rw [hov] at this
        cases this
  obtain ⟨b, hb⟩ := merge_loop_returns llt A._name parent B._entries [] A._entries true []
    (is_sorted llt B._entries && is_sorted llt A._entries) hp
  have hb1 : (merge llt A B parent).ret = .ok b := hb
  have h4 : (overlaps llt A B router).ret = .ok true ↔
      (merge llt A B parent).ret = .ok false := by
    refine ⟨fun hov => ?_, h2⟩
    rcases h3 hov with h | h
    · exact h
    · rw [hb1] at h; cases h
  have h5 : ∃ c, (overlaps llt A B router).ret = .ok c := by
    cases b with
    | false => exact ⟨true, h2 hb1⟩
    | true => exact ⟨false, h1.mpr hb1⟩
  refine ⟨⟨b, hb1⟩, h5, h4, h1, ?_⟩
  · rw [hover A B hsA hsB, hover B A hsB hsA]
    cases hfA : A._entries.find? (hits B._entries) with
    | none =>
      have hnone : B._entries.find? (hits A._entries) = none := by
        rw [List.find?_eq_none] at hfA ⊢
        intro o ho
        have := hits_symm (fun e he => by simpa using hfA e he) o ho
        simp [this]
      rw [hnone]
    | some e =>
      cases hfB : B._entries.find? (hits A._entries) with
      | none =>
        exfalso
        have hnone : A._entries.find? (hits B._entries) = none := by
          rw [List.find?_eq_none] at hfB ⊢
          intro x hx
          have := hits_symm (fun o ho => by simpa using hfB o ho) x hx
          simp [this]
        rw [hnone] at hfA
        cases hfA
      | some o1 =>
        simp only
        have he : e ∈ A._entries := List.mem_of_find?_eq_some hfA
        have hhe : hits B._entries e = true := List.find?_some hfA
        have ho1 : o1 ∈ B._entries := List.mem_of_find?_eq_some hfB
        have hho1 : hits A._entries o1 = true := List.find?_some hfB
        -- the partner of `e` in `B` and the partner of `o1` in `A`
        have hpe := hhe
        unfold hits at hpe
        rw [List.any_eq_true] at hpe
        obtain ⟨o, ho, hoe⟩ := hpe
        simp only [Bool.and_eq_true, Bool.not_eq_true'] at hoe
        have hpo := hho1
        unfold hits at hpo
        rw [List.any_eq_true] at hpo
        obtain ⟨e1, he1, heo⟩ := hpo
        simp only [Bool.and_eq_true, Bool.not_eq_true'] at heo
        have hko : key o = key e := (eq_iff_key o e).mp hoe.1
        have hke : key e1 = key o1 := (eq_iff_key e1 o1).mp heo.1
        have hho : hits A._entries o = true := by
          unfold hits
          rw [List.any_eq_true]
          refine ⟨e, he, ?_⟩
          rw [eq_comm_entry, silent_comm]
          simp [hoe.1, hoe.2]
        have hhe1 : hits B._entries e1 = true := by
          unfold hits
          rw [List.any_eq_true]
          refine ⟨o1, ho1, ?_⟩
          rw [eq_comm_entry, silent_comm]
          simp [heo.1, heo.2]
        have hkey : key e = key o1 := by
          rcases find_first_strict hsB hfB o ho hho with hoo | hlt
          · rw [← hko, hoo]
          · exfalso
            have hlt1 : entry_t.lt llt e1 e = true := by
              rw [entry_lt_congr llt hke hko.symm]; exact hlt
            rcases find_first_strict hsA hfA e1 he1 hhe1 with hee | hlt2
            · rw [hee, entry_lt_irrefl hl] at hlt1
              cases hlt1
            · rw [entry_lt_asymm hl hlt2] at hlt1
              cases hlt1
        have hlab : e._top_label = o1._top_label := by
          simp only [key, Prod.mk.injEq] at hkey
          exact hkey.2.1
        unfold overlaps_report
        rw [hlab]

/-- Witness for C33: `demo_near`, whose entries are bound to no interface or to the one at
address 5, overlaps with `demo_this` on the label 11, and merging it into `demo_this` for that
interface returns `false`. -/
theorem overlaps_predicts_merge_witness :
    (overlaps label_lex demo_this demo_near demo_router).ret = .ok true ∧
    (merge label_lex demo_this demo_near 5).ret = .ok false ∧
    (overlaps label_lex demo_this demo_near demo_router).ret
      = (overlaps label_lex demo_near demo_this demo_router).ret :=
  have h := overlaps_predicts_merge label_lex label_lex_order demo_this demo_near 5 demo_router
    (by decide) (by unfold distinct_keys; decide) (by decide) (by unfold distinct_keys; decide)
    (by decide) (by decide)
  ⟨h.2.2.1.mpr rfl, rfl, h.2.2.2.2⟩

end RoutingTable
end mpls2pda

/-! ## The query generator stays inside the network -/

namespace aalwines

/-- A sum of `size_t` values that stays below `2 ^ 64` does not wrap. -/
theorem add64_small {a b : Nat} (h : a + b < 2 ^ 64) : add64 a b = a + b := by
  unfold add64
  exact Nat.mod_eq_of_lt h

/-- A difference of `size_t` values that is not negative does not wrap. -/
theorem sub64_small {a b : Nat} (hb : b ≤ a) (ha : a < 2 ^ 64) : sub64 a b = a - b := by
  unfold sub64
  have h : a + 2 ^ 64 - b = (a - b) + 2 ^ 64 := by omega
  rw [h, Nat.add_mod_right]
  exact Nat.mod_eq_of_lt (by omega)

/-- The loop for type 3 from pass `i` on, when the passes still to make stay inside a network of
`S` routers: it passes `2 * todo` indices, all below `S`, and they are the ones of the formula. -/
theorem type3_loop_spec (S size : Nat) (hsz : 0 < size) (h64 : S < 2 ^ 64) :
    ∀ (todo i : Nat), (i + todo + 1) * size + 1 ≤ S →
      ∃ calls, type3_loop size todo i (type3_r size i) = .ok calls ∧
        calls.length = 2 * todo ∧ (∀ c ∈ calls, c < S) ∧
        ∀ j, j < todo →
          calls[2 * j]? = some (type3_r size (i + j) + (i + j) % size) ∧
          calls[2 * j + 1]? = some (type3_r size (i + j) + (i + j) % size + size +
            (if i + j = 0 then 1 else 0)) := by
  intro todo
  induction todo with
  | zero =>
    intro i _
    refine ⟨[], rfl, rfl, ?_, ?_⟩
    · intro c hc; cases hc
    · intro j hj; omega
  | succ todo ih =>
    intro i hb
    have hm : i % size < size := Nat.mod_lt _ hsz
    have hmul : (i + 2) * size ≤ (i + (todo + 1) + 1) * size :=
      Nat.mul_le_mul_right _ (by omega)
    have hexp : (i + 2) * size = i * size + 2 * size := Nat.add_mul _ _ _
    have hexp1 : (i + 1) * size = i * size + size := by rw [Nat.add_mul, Nat.one_mul]
    have hb1 : (i + 1 + todo + 1) * size + 1 ≤ S := by
      have : i + 1 + todo + 1 = i + (todo + 1) + 1 := by omega
      rw [this]; exact hb
    obtain ⟨calls, h1, h2, h3, h4⟩ := ih (i + 1) hb1
    have hr : type3_r size i = i * size + (if i = 0 then 0 else 1) := rfl
    have hr1 : type3_r size (i + 1) = (i + 1) * size + 1 := by simp [type3_r]
    have hlt : i * size + 2 * size + 1 < 2 ^ 64 := by omega
    have hnext : add64 (if i = 0 then add64 (type3_r size i) 1 else type3_r size i) size
        = type3_r size (i + 1) := by
      rw [hr1, hexp1, hr]
      by_cases hi : i = 0
      · simp only [if_pos hi]
        rw [@add64_small (i * size + 0) 1 (by omega), @add64_small (i * size + 0 + 1) size (by omega)]
        omega
      · simp only [if_neg hi]
        rw [@add64_small (i * size + 1) size (by omega)]
        omega
    have hc1 : (if i = 0 then 0 else 1) ≤ 1 := by split_ifs <;> omega
    have hc2 : (if i = 0 then 1 else 0) + (if i = 0 then 0 else 1) = 1 := by split_ifs <;> rfl
    have ha : add64 (type3_r size i) (i % size) = type3_r size i + i % size := by
      apply add64_small
      rw [hr]; omega
    have hbb : add64 (add64 (type3_r size i + i % size) size) (if i = 0 then 1 else 0)
        = type3_r size i + i % size + size + (if i = 0 then 1 else 0) := by
      rw [@add64_small (type3_r size i + i % size) size (by rw [hr]; omega),
        @add64_small (type3_r size i + i % size + size) _ (by rw [hr]; omega)]
    refine ⟨(type3_r size i + i % size) ::
      (type3_r size i + i % size + size + (if i = 0 then 1 else 0)) :: calls, ?_, ?_, ?_, ?_⟩
    · rw [type3_loop, if_neg (by omega), hnext, h1]
      simp only [ha, hbb]
    · simp only [List.length_cons, h2]; omega
    · intro c hc
      simp only [List.mem_cons] at hc
      rcases hc with hc | hc | hc
      · rw [hc, hr]; omega
      · rw [hc, hr]; omega
      · exact h3 c hc
    · intro j hj
      cases j with
      | zero => exact ⟨by simp, by simp⟩
      | succ j =>
        obtain ⟨g1, g2⟩ := h4 j (by omega)
        have e1 : i + 1 + j = i + (j + 1) := by omega
        rw [e1] at g1 g2
        have e2 : 2 * (j + 1) = 2 * j + 1 + 1 := by omega
        rw [e2]
        simp only [List.getElem?_cons_succ]
        exact ⟨g1, g2⟩

/-- C35. For every `n >= 2` and every network of `S` routers with `S - 1 >= n`, with
`size = (S - 1) / n`: `size` is not zero, so `make_query` with type 3 takes no remainder modulo
zero; it returns after passing `2 * (n - 1)` router indices to `get_router`, every one of them
smaller than `S`; and for `i` from `0` to `n - 2` they are `r + i % size` and
`r + i % size + size + (1 if i = 0 else 0)`, where `r` is `0` for `i = 0` and `i * size + 1`
afterwards: the values of the formulas, without wrap-around of `size_t`. -/
theorem make_query_in_range (S n : Nat) (hn : 2 ≤ n) (hS : n ≤ S - 1) (h64 : S < 2 ^ 64) :
    (S - 1) / n ≠ 0 ∧
    ∃ calls, make_query S 3 n = .ok calls ∧
      calls.length = 2 * (n - 1) ∧ (∀ c ∈ calls, c < S) ∧
      ∀ i, i < n - 1 →
        calls[2 * i]? = some (type3_r ((S - 1) / n) i + i % ((S - 1) / n)) ∧
        calls[2 * i + 1]? = some (type3_r ((S - 1) / n) i + i % ((S - 1) / n) + (S - 1) / n +
          (if i = 0 then 1 else 0)) := by
  have hsz : 0 < (S - 1) / n := Nat.div_pos hS (by omega)
  have hmul : n * ((S - 1) / n) ≤ S - 1 := Nat.mul_div_le _ _
  have hb : (0 + (n - 1) + 1) * ((S - 1) / n) + 1 ≤ S := by
    have : 0 + (n - 1) + 1 = n := by omega
    rw [this]; omega
  obtain ⟨calls, h1, h2, h3, h4⟩ := type3_loop_spec S ((S - 1) / n) hsz h64 (n - 1) 0 hb
  refine ⟨by omega, calls, ?_, h2, h3, ?_⟩
  · have hs1 : sub64 S 1 = S - 1 := sub64_small (by omega) h64
    have hn1 : sub64 n 1 = n - 1 := sub64_small (by omega) (by omega)
    have hq : make_query S 3 n = type3_loop (sub64 S 1 / n) (sub64 n 1) 0 0 := by
      have h0 : ¬ n = 0 := by omega
      have h2 : ¬ (3 : Nat) = 2 := by decide
      unfold make_query
      rw [if_neg h0, if_neg h2, if_pos rfl]
    rw [hq, hs1, hn1]
    have h0 : type3_r ((S - 1) / n) 0 = 0 := by
      unfold type3_r
      rw [Nat.zero_mul, if_pos rfl]
    rw [h0] at h1
    exact h1
  · intro i hi
    have h5 := h4 i hi
    rw [Nat.zero_add] at h5
    exact h5

/-- Witness for C35: a network of 13 routers (twelve and the null router) with `n = 4`, so that
`size = 3`; the indices passed are 0 and 4, then 5 and 8, then 9 and 12. -/
theorem make_query_in_range_witness :
    make_query 13 3 4 = .ok [0, 4, 5, 8, 9, 12] ∧ ∀ c ∈ [0, 4, 5, 8, 9, 12], c < 13 := by
  obtain ⟨_, calls, h1, _, h3, _⟩ := make_query_in_range 13 4 (by decide) (by decide) (by decide)
  have hc : calls = [0, 4, 5, 8, 9, 12] := Except.ok.inj (h1.symm.trans rfl)
  rw [hc] at h1 h3
  exact ⟨h1, h3⟩

end aalwines
